import Mathlib

/-!
Verification of the breadboard place-and-route core of the Impromptu
repository (`src/backend/utils/helpers.py`), against its natural-language
specification.

The Python source is shallowly embedded: dictionaries become total
functions into `Option`, Python sets become lists in a fixed (row-major)
iteration order, mutation becomes explicit state passing, and floats are
modelled by rationals.  The `while` loop of `UF.find` (whose termination
in the source relies on the parent forest being acyclic) is translated
with an explicit fuel of `elems.length + 1`; we prove below that under
the acyclicity invariant this fuel is always sufficient, so the
translation computes exactly what the source loop computes.
-/

namespace Impromptu

/-- A hole coordinate `(row, col)`; columns may be negative (left rails). -/
abbrev Hole := Int × Int

/-- Occupancy tag of a real hole (`self.occ` values in the source). -/
inductive OccT where
  | empty : OccT
  | comp_body (id : String) : OccT
  | comp_pin (id : String) : OccT
  | wire_end (id : String) : OccT
  | wire_body (id : String) : OccT
deriving DecidableEq, Repr

/-- Union-Find over hole coordinates (class `UF` in the source).  The
Python `parent`/`rank` dicts become total functions together with the
list `elems` of keys that have been `add`ed; keys never added map to
themselves and have rank 0, which matches the source in which they are
simply absent. -/
structure UF where
  parent : Hole → Hole
  rank : Hole → Nat
  elems : List Hole

namespace UF

/-- `UF()` — empty structure. -/
def init : UF := { parent := fun x => x, rank := fun _ => 0, elems := [] }

/-- `UF.add`: ensure `x` is present as its own singleton set. -/
def add (u : UF) (x : Hole) : UF :=
  if x ∈ u.elems then u
  else
    { parent := fun y => if y = x then x else u.parent y,
      rank := fun y => if y = x then 0 else u.rank y,
      elems := x :: u.elems }

/-- One path-halving write: `parent[x] = parent[parent[x]]`. -/
def halve (p : Hole → Hole) (x : Hole) : Hole → Hole :=
  fun y => if y = x then p (p x) else p y

/-- The body of the source `find` loop
(`parent[x] = parent[parent[x]]; x = parent[x]`), with explicit fuel.
Returns the representative together with the path-halved parent map. -/
def findAux : Nat → (Hole → Hole) → Hole → Hole × (Hole → Hole)
  | 0, p, x => (x, p)
  | n + 1, p, x =>
      if p x = x then (x, p)
      else findAux n (halve p x) (halve p x x)

/-- `UF.find` with path compression (halving).  The fuel
`elems.length + 1` is proved sufficient under the acyclicity invariant
(`Inv` below). -/
def find (u : UF) (x : Hole) : Hole × UF :=
  let r := findAux (u.elems.length + 1) u.parent x
  (r.1, { u with parent := r.2 })

/-- `UF.union` by rank; the two `find` calls thread the mutated parent
map exactly as in the source. -/
def union (u : UF) (a b : Hole) : UF :=
  let fa := u.find a
  let fb := fa.2.find b
  let ra := fa.1
  let rb := fb.1
  let u2 := fb.2
  if ra = rb then u2
  else if u2.rank ra < u2.rank rb then
    { u2 with parent := fun y => if y = ra then rb else u2.parent y }
  else if u2.rank rb < u2.rank ra then
    { u2 with parent := fun y => if y = rb then ra else u2.parent y }
  else
    { u2 with
      parent := fun y => if y = rb then ra else u2.parent y,
      rank := fun y => if y = ra then u2.rank ra + 1 else u2.rank y }

/-- The faithful "do two holes share a representative?" test, evaluating
`uf.find(a) == uf.find(b)` left to right with the mutation of the first
`find` visible to the second, as in Python. -/
def sameRep (u : UF) (a b : Hole) : Bool :=
  let fa := u.find a
  let fb := fa.2.find b
  fa.1 == fb.1

end UF

/-! ## Semantics of the union-find

`Reaches p x r` says the parent chain of `x` ends at the root `r`.  All
observable behaviour of the structure (which holes share a
representative) is captured by `Reaches`, and path compression is proved
not to change it. -/

/-- `x` is a root of the parent map `p`. -/
def IsFix (p : Hole → Hole) (x : Hole) : Prop := p x = x

instance (p : Hole → Hole) (x : Hole) : Decidable (IsFix p x) := by
  unfold IsFix; infer_instance

/-- Every parent chain terminates (the forest is acyclic). -/
def Terminating (p : Hole → Hole) : Prop := ∀ x, ∃ n, IsFix p (p^[n] x)

/-- The parent chain of `x` reaches the root `r`. -/
def Reaches (p : Hole → Hole) (x r : Hole) : Prop :=
  (∃ n, p^[n] x = r) ∧ IsFix p r

/-- `x` and `y` lie in the same union-find class (they reach a common
root). -/
def SameRoot (p : Hole → Hole) (x y : Hole) : Prop :=
  ∃ r, Reaches p x r ∧ Reaches p y r

theorem isFix_iterate {p : Hole → Hole} {r : Hole} (h : IsFix p r) :
    ∀ n, p^[n] r = r := by
  intro n
  induction n with
  | zero => rfl
  | succ n ih => rw [Function.iterate_succ_apply, h, ih]

theorem reaches_self {p : Hole → Hole} {r : Hole} (h : IsFix p r) :
    Reaches p r r := ⟨⟨0, rfl⟩, h⟩

theorem reaches_unique {p : Hole → Hole} {x r₁ r₂ : Hole}
    (h₁ : Reaches p x r₁) (h₂ : Reaches p x r₂) : r₁ = r₂ := by
  obtain ⟨⟨n, hn⟩, hf₁⟩ := h₁
  obtain ⟨⟨m, hm⟩, hf₂⟩ := h₂
  rcases le_total n m with h | h
  · have : p^[m] x = p^[m - n] (p^[n] x) := by
      rw [← Function.iterate_add_apply]
      congr 1
      omega
    rw [this, hn, isFix_iterate hf₁] at hm
    exact hm
  · have : p^[n] x = p^[n - m] (p^[m] x) := by
      rw [← Function.iterate_add_apply]
      congr 1
      omega
    rw [this, hm, isFix_iterate hf₂] at hn
    exact hn.symm

theorem reaches_step {p : Hole → Hole} {x r : Hole}
    (h : Reaches p (p x) r) : Reaches p x r := by
  obtain ⟨⟨n, hn⟩, hf⟩ := h
  exact ⟨⟨n + 1, by rw [Function.iterate_succ_apply]; exact hn⟩, hf⟩

theorem reaches_of_step {p : Hole → Hole} {x r : Hole}
    (hx : ¬IsFix p x) (h : Reaches p x r) : Reaches p (p x) r := by
  obtain ⟨⟨n, hn⟩, hf⟩ := h
  cases n with
  | zero =>
      simp only [Function.iterate_zero, id] at hn
      subst hn; exact absurd hf hx
  | succ n =>
      rw [Function.iterate_succ_apply] at hn
      exact ⟨⟨n, hn⟩, hf⟩

theorem terminating_reaches {p : Hole → Hole} (hT : Terminating p)
    (x : Hole) : ∃ r, Reaches p x r := by
  obtain ⟨n, hn⟩ := hT x
  exact ⟨p^[n] x, ⟨n, rfl⟩, hn⟩

theorem sameRoot_refl {p : Hole → Hole} (hT : Terminating p) (x : Hole) :
    SameRoot p x x := by
  obtain ⟨r, hr⟩ := terminating_reaches hT x
  exact ⟨r, hr, hr⟩

theorem sameRoot_symm {p : Hole → Hole} {x y : Hole}
    (h : SameRoot p x y) : SameRoot p y x := by
  obtain ⟨r, h₁, h₂⟩ := h
  exact ⟨r, h₂, h₁⟩

theorem sameRoot_trans {p : Hole → Hole} {x y z : Hole}
    (h₁ : SameRoot p x y) (h₂ : SameRoot p y z) : SameRoot p x z := by
  obtain ⟨r, hx, hy⟩ := h₁
  obtain ⟨s, hy', hz⟩ := h₂
  rw [reaches_unique hy hy'] at hx
  exact ⟨s, hx, hz⟩

/-! ### Distance to the root -/

/-- Number of parent steps from `x` to its root (defined via the
termination witness). -/
def rdist {p : Hole → Hole} (hT : Terminating p) (x : Hole) : Nat :=
  Nat.find (hT x)

theorem rdist_isFix {p : Hole → Hole} (hT : Terminating p) (x : Hole) :
    IsFix p (p^[rdist hT x] x) := Nat.find_spec (hT x)

theorem rdist_min {p : Hole → Hole} (hT : Terminating p) {x : Hole}
    {m : Nat} (h : m < rdist hT x) : ¬IsFix p (p^[m] x) :=
  Nat.find_min (hT x) h

theorem rdist_of_isFix {p : Hole → Hole} (hT : Terminating p) {x : Hole}
    (h : IsFix p x) : rdist hT x = 0 := by
  have : IsFix p (p^[0] x) := h
  exact Nat.eq_zero_of_le_zero (Nat.find_min' (hT x) this)

theorem rdist_pos {p : Hole → Hole} (hT : Terminating p) {x : Hole}
    (h : ¬IsFix p x) : 0 < rdist hT x := by
  rcases Nat.eq_zero_or_pos (rdist hT x) with h0 | h0
  · exfalso
    have hs := rdist_isFix hT x
    rw [h0] at hs
    exact h (by simpa using hs)
  · exact h0

theorem rdist_step {p : Hole → Hole} (hT : Terminating p) {x : Hole}
    (h : ¬IsFix p x) : rdist hT (p x) = rdist hT x - 1 := by
  have hpos := rdist_pos hT h
  have hiter : ∀ n, p^[n] (p x) = p^[n + 1] x := by
    intro n
    rw [← Function.iterate_succ_apply]
  rw [rdist, Nat.find_eq_iff]
  constructor
  · rw [hiter]
    have : rdist hT x - 1 + 1 = rdist hT x := by omega
    rw [this]
    exact rdist_isFix hT x
  · intro m hm
    rw [hiter]
    exact rdist_min hT (by omega)

theorem rdist_iterate {p : Hole → Hole} (hT : Terminating p) {x : Hole} :
    ∀ i ≤ rdist hT x, rdist hT (p^[i] x) = rdist hT x - i := by
  intro i
  induction i with
  | zero => intro _; simp
  | succ i ih =>
      intro hi
      have hi' : i ≤ rdist hT x := by omega
      have hnf : ¬IsFix p (p^[i] x) := rdist_min hT (by omega)
      have := rdist_step hT hnf
      rw [Function.iterate_succ_apply', this, ih hi']
      omega

theorem no_two_cycle {p : Hole → Hole} (hT : Terminating p) {x : Hole}
    (hx : ¬IsFix p x) : p (p x) ≠ x := by
  intro hc
  have hpxnf : ¬IsFix p (p x) := by
    intro hfix
    have : p (p x) = p x := hfix
    rw [hc] at this
    exact hx (by rw [IsFix, ← this])
  have h1 : rdist hT (p x) = rdist hT x - 1 := rdist_step hT hx
  have h2 : rdist hT (p (p x)) = rdist hT (p x) - 1 := rdist_step hT hpxnf
  rw [hc] at h2
  have := rdist_pos hT hx
  have := rdist_pos hT hpxnf
  omega

theorem reaches_terminates {q : Hole → Hole} {y r : Hole}
    (h : Reaches q y r) : ∃ n, IsFix q (q^[n] y) := by
  obtain ⟨⟨n, hn⟩, hf⟩ := h
  exact ⟨n, hn ▸ hf⟩

/-! ### Path halving preserves reachability -/

theorem halve_reaches_fwd {p : Hole → Hole} {x : Hole} (hx : ¬IsFix p x) :
    ∀ n y r, p^[n] y = r → IsFix p r → Reaches (UF.halve p x) y r := by
  intro n
  induction n using Nat.strong_induction_on with
  | _ n ih =>
    intro y r hn hr
    have hrx : r ≠ x := fun h => hx (h ▸ hr)
    have hfixr : IsFix (UF.halve p x) r := by
      simp only [IsFix, UF.halve, if_neg hrx]
      exact hr
    by_cases hy : IsFix p y
    · have : r = y := by rw [← hn, isFix_iterate hy]
      subst this
      exact reaches_self hfixr
    · cases n with
      | zero =>
          simp only [Function.iterate_zero, id] at hn
          rw [← hn] at hr
          exact absurd hr hy
      | succ m =>
          rw [Function.iterate_succ_apply] at hn
          by_cases hyx : y = x
          · subst hyx
            by_cases hpx : IsFix p (p y)
            · have hr' : r = p y := by rw [← hn, isFix_iterate hpx]
              subst hr'
              apply reaches_step
              have : UF.halve p y y = p y := by
                simp only [UF.halve, if_pos rfl, if_true, eq_self_iff_true]
                exact hpx
              rw [this]
              exact reaches_self hfixr
            · cases m with
              | zero =>
                  simp only [Function.iterate_zero, id] at hn
                  rw [← hn] at hr
                  exact absurd hr hpx
              | succ k =>
                  rw [Function.iterate_succ_apply] at hn
                  have hrec := ih k (by omega) (p (p y)) r hn hr
                  apply reaches_step
                  have : UF.halve p y y = p (p y) := by
                    simp [UF.halve]
                  rw [this]
                  exact hrec
          · have hrec := ih m (by omega) (p y) r hn hr
            apply reaches_step
            have : UF.halve p x y = p y := by
              simp only [UF.halve, if_neg hyx]
            rw [this]
            exact hrec

theorem halve_reaches_bwd {p : Hole → Hole} {x : Hole} (hx : ¬IsFix p x)
    (hxx : p (p x) ≠ x) :
    ∀ n y r, (UF.halve p x)^[n] y = r → IsFix (UF.halve p x) r →
      Reaches p y r := by
  intro n
  induction n with
  | zero =>
      intro y r hn hr
      simp only [Function.iterate_zero, id] at hn
      subst hn
      have hyx : y ≠ x := by
        intro h
        subst h
        simp only [IsFix, UF.halve, if_pos rfl] at hr
        exact hxx hr
      simp only [IsFix, UF.halve, if_neg hyx] at hr
      exact reaches_self hr
  | succ n ih =>
      intro y r hn hr
      rw [Function.iterate_succ_apply] at hn
      by_cases hyx : y = x
      · subst hyx
        have hstep : UF.halve p y y = p (p y) := by
          simp [UF.halve]
        rw [hstep] at hn
        exact reaches_step (reaches_step (ih _ r hn hr))
      · have hstep : UF.halve p x y = p y := by
          simp only [UF.halve, if_neg hyx]
        rw [hstep] at hn
        exact reaches_step (ih _ r hn hr)

theorem halve_terminating {p : Hole → Hole} {x : Hole}
    (hT : Terminating p) (hx : ¬IsFix p x) :
    Terminating (UF.halve p x) := by
  intro y
  obtain ⟨r, hr⟩ := terminating_reaches hT y
  obtain ⟨⟨n, hn⟩, hf⟩ := hr
  exact reaches_terminates (halve_reaches_fwd hx n y r hn hf)

theorem halve_reaches_iff {p : Hole → Hole} {x : Hole}
    (hT : Terminating p) (hx : ¬IsFix p x) (y r : Hole) :
    Reaches (UF.halve p x) y r ↔ Reaches p y r := by
  constructor
  · intro h
    obtain ⟨⟨n, hn⟩, hf⟩ := h
    exact halve_reaches_bwd hx (no_two_cycle hT hx) n y r hn hf
  · intro h
    obtain ⟨⟨n, hn⟩, hf⟩ := h
    exact halve_reaches_fwd hx n y r hn hf

theorem halve_rdist_le {p : Hole → Hole} {x : Hole}
    (hT : Terminating p) (hx : ¬IsFix p x)
    (hT1 : Terminating (UF.halve p x)) :
    ∀ y, rdist hT1 y ≤ rdist hT y := by
  suffices h : ∀ k y, rdist hT y = k → IsFix (UF.halve p x) ((UF.halve p x)^[k] y) by
    intro y
    exact Nat.find_min' (hT1 y) (h (rdist hT y) y rfl)
  intro k
  induction k using Nat.strong_induction_on with
  | _ k ih =>
    intro y hk
    by_cases hy : IsFix p y
    · have : k = 0 := by rw [← hk]; exact rdist_of_isFix hT hy
      subst this
      have hyx : y ≠ x := fun h => hx (h ▸ hy)
      simp only [Function.iterate_zero, id, IsFix, UF.halve, if_neg hyx]
      exact hy
    · have hkpos : 0 < k := hk ▸ rdist_pos hT hy
      by_cases hyx : y = x
      · subst hyx
        by_cases hpx : IsFix p (p y)
        · have hk1 : k = 1 := by
            have := rdist_step hT hy
            have h0 : rdist hT (p y) = 0 := rdist_of_isFix hT hpx
            omega
          subst hk1
          have hs : UF.halve p y y = p (p y) := by
            simp [UF.halve]
          have hpp : p (p y) = p y := hpx
          simp only [Function.iterate_one, hs, hpp]
          have hpyx : p y ≠ y := hy
          simp only [IsFix, UF.halve, if_neg hpyx]
          exact hpx
        · have hd1 : rdist hT (p y) = k - 1 := hk ▸ rdist_step hT hy
          have hd2 : rdist hT (p (p y)) = k - 2 := by
            have := rdist_step hT hpx
            omega
          have hk2 : 2 ≤ k := by
            have := rdist_pos hT hpx
            omega
          have hrec := ih (k - 2) (by omega) (p (p y)) hd2
          have hs : UF.halve p y y = p (p y) := by
            simp [UF.halve]
          have hiter : (UF.halve p y)^[k] y
              = (UF.halve p y)^[k - 1] (p (p y)) := by
            have h2 : k = (k - 1) + 1 := by omega
            conv_lhs => rw [h2]
            rw [Function.iterate_succ_apply, hs]
          rw [hiter]
          have : k - 1 = (k - 2) + 1 := by omega
          rw [this, Function.iterate_succ_apply']
          have hfix := hrec
          rw [IsFix] at hfix ⊢
          rw [hfix, hfix]
      · have hd1 : rdist hT (p y) = k - 1 := hk ▸ rdist_step hT hy
        have hrec := ih (k - 1) (by omega) (p y) hd1
        have hs : UF.halve p x y = p y := by
          simp only [UF.halve, if_neg hyx]
        have hiter : (UF.halve p x)^[k] y
            = (UF.halve p x)^[k - 1] (p y) := by
          have h2 : k = (k - 1) + 1 := by omega
          conv_lhs => rw [h2]
          rw [Function.iterate_succ_apply, hs]
        rw [hiter]
        exact hrec

/-! ### Fuel bound: chains are no longer than the key list -/

theorem iterate_mem {p : Hole → Hole} {E : List Hole}
    (hcl : ∀ y ∈ E, p y ∈ E) {x : Hole} (hx : x ∈ E) :
    ∀ n, p^[n] x ∈ E := by
  intro n
  induction n with
  | zero => simpa using hx
  | succ n ih =>
      rw [Function.iterate_succ_apply']
      exact hcl _ ih

theorem reaches_mem {p : Hole → Hole} {E : List Hole}
    (hcl : ∀ y ∈ E, p y ∈ E) {x r : Hole} (hx : x ∈ E)
    (h : Reaches p x r) : r ∈ E := by
  obtain ⟨⟨n, hn⟩, _⟩ := h
  rw [← hn]
  exact iterate_mem hcl hx n

theorem rdist_le_length {p : Hole → Hole} (hT : Terminating p)
    (E : List Hole) (hne : ∀ y, y ∉ E → p y = y) (hcl : ∀ y ∈ E, p y ∈ E)
    (x : Hole) : rdist hT x ≤ E.length := by
  by_cases hx : x ∈ E
  · set k := rdist hT x with hk
    have hmem : ∀ i, p^[i] x ∈ E := by
      intro i
      induction i with
      | zero => simpa using hx
      | succ i ih =>
          rw [Function.iterate_succ_apply']
          exact hcl _ ih
    have hinj : ∀ i ∈ List.range k, ∀ j ∈ List.range k,
        p^[i] x = p^[j] x → i = j := by
      intro i hi j hj hij
      rw [List.mem_range] at hi hj
      have di := rdist_iterate hT (x := x) i (by omega)
      have dj := rdist_iterate hT (x := x) j (by omega)
      rw [hij] at di
      have := di.symm.trans dj
      omega
    have hnodup : ((List.range k).map (fun i => p^[i] x)).Nodup :=
      (List.nodup_range k).map_on hinj
    have hsub : ((List.range k).map (fun i => p^[i] x)) ⊆ E := by
      intro a ha
      rw [List.mem_map] at ha
      obtain ⟨i, _, rfl⟩ := ha
      exact hmem i
    have hlen := (List.subperm_of_subset hnodup hsub).length_le
    simpa using hlen
  · rw [rdist_of_isFix hT (hne x hx)]
    omega

/-! ### Correctness of `findAux` -/

theorem findAux_spec (E : List Hole) :
    ∀ (fuel : Nat) (p : Hole → Hole) (hT : Terminating p) (x : Hole),
      rdist hT x ≤ fuel →
      (∀ y, y ∉ E → p y = y) → (∀ y ∈ E, p y ∈ E) →
      Reaches p x (UF.findAux fuel p x).1 ∧
      Terminating (UF.findAux fuel p x).2 ∧
      (∀ y r, Reaches (UF.findAux fuel p x).2 y r ↔ Reaches p y r) ∧
      (∀ y, y ∉ E → (UF.findAux fuel p x).2 y = y) ∧
      (∀ y ∈ E, (UF.findAux fuel p x).2 y ∈ E) := by
  intro fuel
  induction fuel with
  | zero =>
      intro p hT x hd hne hcl
      have hfix : IsFix p x := by
        have h0 : rdist hT x = 0 := Nat.le_zero.mp hd
        have hs := rdist_isFix hT x
        rw [h0] at hs
        simpa using hs
      exact ⟨reaches_self hfix, hT, fun _ _ => Iff.rfl, hne, hcl⟩
  | succ fuel ih =>
      intro p hT x hd hne hcl
      by_cases hpx : p x = x
      · have hred : UF.findAux (fuel + 1) p x = (x, p) := by
          simp only [UF.findAux, if_pos hpx]
        rw [hred]
        exact ⟨reaches_self hpx, hT, fun _ _ => Iff.rfl, hne, hcl⟩
      · have hred : UF.findAux (fuel + 1) p x
            = UF.findAux fuel (UF.halve p x) (UF.halve p x x) := by
          simp only [UF.findAux, if_neg hpx]
        rw [hred]
        have hx : ¬IsFix p x := hpx
        have hT1 : Terminating (UF.halve p x) := halve_terminating hT hx
        have hxx : UF.halve p x x = p (p x) := by simp [UF.halve]
        have hbound : rdist hT1 (UF.halve p x x) ≤ fuel := by
          rw [hxx]
          have h1 : rdist hT1 (p (p x)) ≤ rdist hT (p (p x)) :=
            halve_rdist_le hT hx hT1 _
          have h2 : rdist hT (p (p x)) ≤ rdist hT x - 1 := by
            by_cases hpp : IsFix p (p x)
            · have heq : p (p x) = p x := hpp
              rw [heq, rdist_step hT hx]
            · have ha := rdist_step hT hx
              have hb := rdist_step hT hpp
              have := rdist_pos hT hpp
              omega
          have h3 := rdist_pos hT hx
          omega
        have hxE : x ∈ E := by
          by_contra hxe
          exact hx (hne x hxe)
        have hE1 : ∀ y, y ∉ E → UF.halve p x y = y := by
          intro y hy
          have hyx : y ≠ x := by
            intro h
            rw [h] at hy
            exact hy hxE
          simp only [UF.halve, if_neg hyx]
          exact hne y hy
        have hE2 : ∀ y ∈ E, UF.halve p x y ∈ E := by
          intro y hy
          by_cases hyx : y = x
          · subst hyx
            rw [hxx]
            exact hcl _ (hcl _ hy)
          · simp only [UF.halve, if_neg hyx]
            exact hcl _ hy
        obtain ⟨hreach, hTf, hiff, hne', hcl'⟩ :=
          ih (UF.halve p x) hT1 (UF.halve p x x) hbound hE1 hE2
        refine ⟨?_, hTf, ?_, hne', hcl'⟩
        · exact (halve_reaches_iff hT hx x _).mp (reaches_step hreach)
        · intro y r
          exact (hiff y r).trans (halve_reaches_iff hT hx y r)

/-! ### Specification of the `UF` operations -/

/-- Invariant of a well-formed union-find: the parent forest is acyclic,
keys never added are untouched, parents of keys are keys, and the key
list has no duplicates. -/
def UF.Inv (u : UF) : Prop :=
  Terminating u.parent ∧ (∀ y, y ∉ u.elems → u.parent y = y) ∧
  (∀ y ∈ u.elems, u.parent y ∈ u.elems) ∧ u.elems.Nodup

theorem UF.Inv.terminating {u : UF} (h : u.Inv) : Terminating u.parent :=
  h.1

theorem UF.find_spec (u : UF) (h : u.Inv) (x : Hole) :
    Reaches u.parent x (u.find x).1 ∧ (u.find x).2.Inv ∧
    (∀ y r, Reaches (u.find x).2.parent y r ↔ Reaches u.parent y r) ∧
    (u.find x).2.elems = u.elems ∧ (u.find x).2.rank = u.rank := by
  obtain ⟨hT, hne, hcl, hnd⟩ := h
  have hd : rdist hT x ≤ u.elems.length + 1 :=
    le_trans (rdist_le_length hT u.elems hne hcl x) (by omega)
  obtain ⟨h1, h2, h3, h4, h5⟩ :=
    findAux_spec u.elems (u.elems.length + 1) u.parent hT x hd hne hcl
  exact ⟨h1, ⟨h2, h4, h5, hnd⟩, h3, rfl, rfl⟩

/-! ### Linking two roots -/

/-- The parent map after the write `parent[child] = target`. -/
def linkMap (p : Hole → Hole) (child target : Hole) : Hole → Hole :=
  fun y => if y = child then target else p y

theorem sameRoot_congr {p q : Hole → Hole}
    (hiff : ∀ y r, Reaches q y r ↔ Reaches p y r) (x y : Hole) :
    SameRoot q x y ↔ SameRoot p x y := by
  constructor
  · rintro ⟨r, h₁, h₂⟩
    exact ⟨r, (hiff _ _).mp h₁, (hiff _ _).mp h₂⟩
  · rintro ⟨r, h₁, h₂⟩
    exact ⟨r, (hiff _ _).mpr h₁, (hiff _ _).mpr h₂⟩

theorem sameRoot_fix_right {p : Hole → Hole} {x r : Hole}
    (hr : IsFix p r) : SameRoot p x r ↔ Reaches p x r := by
  constructor
  · rintro ⟨s, hx, hrs⟩
    rw [reaches_unique hrs (reaches_self hr)] at hx
    exact hx
  · intro h
    exact ⟨r, h, reaches_self hr⟩

section Link

variable {p : Hole → Hole} {ra rb : Hole}

theorem link_reaches_fwd (hra : IsFix p ra) (hrb : IsFix p rb)
    (hne : ra ≠ rb) :
    ∀ n y r0, p^[n] y = r0 → IsFix p r0 →
      Reaches (linkMap p rb ra) y (if r0 = rb then ra else r0) := by
  intro n
  induction n with
  | zero =>
      intro y r0 hn h0
      simp only [Function.iterate_zero, id] at hn
      subst hn
      by_cases hyb : y = rb
      · rw [if_pos hyb]
        apply reaches_step
        have h1 : linkMap p rb ra y = ra := by simp [linkMap, hyb]
        rw [h1]
        apply reaches_self
        simp only [IsFix, linkMap, if_neg hne]
        exact hra
      · rw [if_neg hyb]
        apply reaches_self
        simp only [IsFix, linkMap, if_neg hyb]
        exact h0
  | succ n ih =>
      intro y r0 hn h0
      rw [Function.iterate_succ_apply] at hn
      by_cases hy : IsFix p y
      · have hr0 : r0 = y := by
          rw [← hn]
          have hpy : p y = y := hy
          rw [hpy, isFix_iterate hy]
        rw [hr0]
        rw [hr0] at h0
        by_cases hyb : y = rb
        · rw [if_pos hyb]
          apply reaches_step
          have h1 : linkMap p rb ra y = ra := by simp [linkMap, hyb]
          rw [h1]
          apply reaches_self
          simp only [IsFix, linkMap, if_neg hne]
          exact hra
        · rw [if_neg hyb]
          apply reaches_self
          simp only [IsFix, linkMap, if_neg hyb]
          exact h0
      · have hyb : y ≠ rb := by
          intro h
          rw [h] at hy
          exact hy hrb
        have hrec := ih (p y) r0 hn h0
        apply reaches_step
        have h1 : linkMap p rb ra y = p y := by
          simp only [linkMap, if_neg hyb]
        rw [h1]
        exact hrec

theorem link_reaches_bwd (hra : IsFix p ra) (hrb : IsFix p rb)
    (hne : ra ≠ rb) :
    ∀ n y r, (linkMap p rb ra)^[n] y = r → IsFix (linkMap p rb ra) r →
      ∃ r0, Reaches p y r0 ∧ r = (if r0 = rb then ra else r0) := by
  intro n
  induction n with
  | zero =>
      intro y r hn hr
      simp only [Function.iterate_zero, id] at hn
      have hrb2 : r ≠ rb := by
        intro h
        simp only [IsFix, linkMap, if_pos h] at hr
        rw [h] at hr
        exact hne hr
      simp only [IsFix, linkMap, if_neg hrb2] at hr
      refine ⟨r, ?_, ?_⟩
      · rw [hn]
        exact reaches_self hr
      · rw [if_neg hrb2]
  | succ n ih =>
      intro y r hn hr
      rw [Function.iterate_succ_apply] at hn
      by_cases hyb : y = rb
      · have h1 : linkMap p rb ra y = ra := by simp [linkMap, hyb]
        rw [h1] at hn
        obtain ⟨r0, hr0, hite⟩ := ih ra r hn hr
        have hr0a : r0 = ra := reaches_unique hr0 (reaches_self hra)
        rw [hr0a, if_neg hne] at hite
        refine ⟨rb, ?_, ?_⟩
        · rw [hyb]
          exact reaches_self hrb
        · rw [if_pos rfl]
          exact hite
      · have h1 : linkMap p rb ra y = p y := by
          simp only [linkMap, if_neg hyb]
        rw [h1] at hn
        obtain ⟨r0, hr0, hite⟩ := ih (p y) r hn hr
        exact ⟨r0, reaches_step hr0, hite⟩

theorem link_terminating (hT : Terminating p) (hra : IsFix p ra)
    (hrb : IsFix p rb) (hne : ra ≠ rb) :
    Terminating (linkMap p rb ra) := by
  intro y
  obtain ⟨r, ⟨⟨n, hn⟩, hf⟩⟩ := terminating_reaches hT y
  exact reaches_terminates (link_reaches_fwd hra hrb hne n y r hn hf)

theorem link_reaches_of_reaches (hra : IsFix p ra) (hrb : IsFix p rb)
    (hne : ra ≠ rb) {y r0 : Hole} (h : Reaches p y r0) :
    Reaches (linkMap p rb ra) y (if r0 = rb then ra else r0) := by
  obtain ⟨⟨n, hn⟩, hf⟩ := h
  exact link_reaches_fwd hra hrb hne n y r0 hn hf

theorem link_sameRoot (_hT : Terminating p) (hra : IsFix p ra)
    (hrb : IsFix p rb) (hne : ra ≠ rb) (x y : Hole) :
    SameRoot (linkMap p rb ra) x y ↔
      (SameRoot p x y ∨ (SameRoot p x ra ∧ SameRoot p rb y) ∨
        (SameRoot p x rb ∧ SameRoot p ra y)) := by
  constructor
  · rintro ⟨r, hqx, hqy⟩
    obtain ⟨⟨n, hn⟩, hf⟩ := hqx
    obtain ⟨rx, hrx, hitex⟩ := link_reaches_bwd hra hrb hne n x r hn hf
    obtain ⟨⟨m, hm⟩, hf2⟩ := hqy
    obtain ⟨ry, hry, hitey⟩ := link_reaches_bwd hra hrb hne m y r hm hf2
    by_cases hxb : rx = rb
    · by_cases hyb : ry = rb
      · left
        rw [hxb] at hrx
        rw [hyb] at hry
        exact ⟨rb, hrx, hry⟩
      · right; right
        rw [if_pos hxb] at hitex
        rw [if_neg hyb] at hitey
        have hya : ry = ra := by
          rw [hitex] at hitey
          exact hitey.symm
        rw [hxb] at hrx
        rw [hya] at hry
        exact ⟨⟨rb, hrx, reaches_self hrb⟩, ⟨ra, reaches_self hra, hry⟩⟩
    · by_cases hyb : ry = rb
      · right; left
        rw [if_neg hxb] at hitex
        rw [if_pos hyb] at hitey
        have hxa : rx = ra := by
          rw [hitey] at hitex
          exact hitex.symm
        rw [hxa] at hrx
        rw [hyb] at hry
        exact ⟨⟨ra, hrx, reaches_self hra⟩, ⟨rb, reaches_self hrb, hry⟩⟩
      · left
        rw [if_neg hxb] at hitex
        rw [if_neg hyb] at hitey
        rw [hitex] at hitey
        rw [← hitey] at hry
        exact ⟨rx, hrx, hry⟩
  · rintro (⟨r, hx0, hy0⟩ | ⟨hxa, hby⟩ | ⟨hxb, hay⟩)
    · exact ⟨if r = rb then ra else r,
        link_reaches_of_reaches hra hrb hne hx0,
        link_reaches_of_reaches hra hrb hne hy0⟩
    · have h1 : Reaches p x ra := (sameRoot_fix_right hra).mp hxa
      have h2 : Reaches p y rb := (sameRoot_fix_right hrb).mp (sameRoot_symm hby)
      have hq1 := link_reaches_of_reaches hra hrb hne h1
      have hq2 := link_reaches_of_reaches hra hrb hne h2
      rw [if_neg hne] at hq1
      rw [if_pos rfl] at hq2
      exact ⟨ra, hq1, hq2⟩
    · have h1 : Reaches p x rb := (sameRoot_fix_right hrb).mp hxb
      have h2 : Reaches p y ra := (sameRoot_fix_right hra).mp (sameRoot_symm hay)
      have hq1 := link_reaches_of_reaches hra hrb hne h1
      have hq2 := link_reaches_of_reaches hra hrb hne h2
      rw [if_pos rfl] at hq1
      rw [if_neg hne] at hq2
      exact ⟨ra, hq1, hq2⟩

end Link

/-! ### Pointwise-equal parent maps -/

theorem iterate_congr {p q : Hole → Hole} (h : ∀ z, p z = q z) :
    ∀ n y, p^[n] y = q^[n] y := by
  intro n
  induction n with
  | zero => intro y; rfl
  | succ n ih =>
      intro y
      rw [Function.iterate_succ_apply', Function.iterate_succ_apply', ih, h]

theorem reaches_congr_fun {p q : Hole → Hole} (h : ∀ z, p z = q z)
    {y r : Hole} : Reaches p y r ↔ Reaches q y r := by
  constructor
  · rintro ⟨⟨n, hn⟩, hf⟩
    exact ⟨⟨n, by rw [← iterate_congr h n y]; exact hn⟩,
      by rw [IsFix, ← h r]; exact hf⟩
  · rintro ⟨⟨n, hn⟩, hf⟩
    exact ⟨⟨n, by rw [iterate_congr h n y]; exact hn⟩,
      by rw [IsFix, h r]; exact hf⟩

theorem sameRoot_comm {p : Hole → Hole} (x y : Hole) :
    SameRoot p x y ↔ SameRoot p y x :=
  ⟨sameRoot_symm, sameRoot_symm⟩

theorem sameRoot_congr_right {p : Hole → Hole} {a ra : Hole}
    (har : SameRoot p a ra) (x : Hole) :
    SameRoot p x ra ↔ SameRoot p x a :=
  ⟨fun h => sameRoot_trans h (sameRoot_symm har), fun h => sameRoot_trans h har⟩

/-! ### Specification of `UF.union` -/

theorem UF.union_spec (u : UF) (h : u.Inv) (a b : Hole)
    (ha : a ∈ u.elems) (hb : b ∈ u.elems) :
    (u.union a b).Inv ∧ (u.union a b).elems = u.elems ∧
    (∀ x y, SameRoot (u.union a b).parent x y ↔
      (SameRoot u.parent x y ∨
       (SameRoot u.parent x a ∧ SameRoot u.parent b y) ∨
       (SameRoot u.parent x b ∧ SameRoot u.parent a y))) := by
  obtain ⟨h1a, hinv1, hiff1, helems1, hrank1⟩ := u.find_spec h a
  obtain ⟨h2b, hinv2, hiff2, helems2, hrank2⟩ := (u.find a).2.find_spec hinv1 b
  have hiff12 : ∀ y r,
      Reaches ((u.find a).2.find b).2.parent y r ↔ Reaches u.parent y r :=
    fun y r => (hiff2 y r).trans (hiff1 y r)
  have helems12 : ((u.find a).2.find b).2.elems = u.elems :=
    helems2.trans helems1
  have hreach_b : Reaches u.parent b ((u.find a).2.find b).1 :=
    (hiff1 _ _).mp h2b
  have hfixa : IsFix u.parent (u.find a).1 := h1a.2
  have hfixb : IsFix u.parent ((u.find a).2.find b).1 := hreach_b.2
  have hfixa2 : IsFix ((u.find a).2.find b).2.parent (u.find a).1 :=
    ((hiff12 _ _).mpr (reaches_self hfixa)).2
  have hfixb2 : IsFix ((u.find a).2.find b).2.parent ((u.find a).2.find b).1 :=
    ((hiff12 _ _).mpr (reaches_self hfixb)).2
  have hra_mem : (u.find a).1 ∈ u.elems := reaches_mem h.2.2.1 ha h1a
  have hrb_mem : ((u.find a).2.find b).1 ∈ u.elems :=
    reaches_mem h.2.2.1 hb hreach_b
  have hSa : SameRoot u.parent a (u.find a).1 :=
    ⟨(u.find a).1, h1a, reaches_self hfixa⟩
  have hSb : SameRoot u.parent b ((u.find a).2.find b).1 :=
    ⟨((u.find a).2.find b).1, hreach_b, reaches_self hfixb⟩
  have e1 : ∀ x y, SameRoot ((u.find a).2.find b).2.parent x y ↔
      SameRoot u.parent x y := sameRoot_congr hiff12
  have e2 : ∀ x, SameRoot ((u.find a).2.find b).2.parent x (u.find a).1 ↔
      SameRoot u.parent x a :=
    fun x => (e1 x _).trans (sameRoot_congr_right hSa x)
  have e3 : ∀ x,
      SameRoot ((u.find a).2.find b).2.parent x ((u.find a).2.find b).1 ↔
      SameRoot u.parent x b :=
    fun x => (e1 x _).trans (sameRoot_congr_right hSb x)
  have e4 : ∀ y, SameRoot ((u.find a).2.find b).2.parent (u.find a).1 y ↔
      SameRoot u.parent a y :=
    fun y => (sameRoot_comm _ _).trans ((e2 y).trans (sameRoot_comm _ _))
  have e5 : ∀ y,
      SameRoot ((u.find a).2.find b).2.parent ((u.find a).2.find b).1 y ↔
      SameRoot u.parent b y :=
    fun y => (sameRoot_comm _ _).trans ((e3 y).trans (sameRoot_comm _ _))
  by_cases hrr : (u.find a).1 = ((u.find a).2.find b).1
  · have hval : u.union a b = ((u.find a).2.find b).2 := by
      simp only [UF.union, if_pos hrr]
    rw [hval]
    refine ⟨hinv2, helems12, ?_⟩
    intro x y
    rw [e1 x y]
    have hab : SameRoot u.parent a b := by
      refine sameRoot_trans hSa ?_
      rw [hrr]
      exact sameRoot_symm hSb
    constructor
    · intro hxy
      exact Or.inl hxy
    · rintro (hxy | ⟨hxa, hby⟩ | ⟨hxb, hay⟩)
      · exact hxy
      · exact sameRoot_trans (sameRoot_trans hxa hab) hby
      · exact sameRoot_trans (sameRoot_trans hxb (sameRoot_symm hab)) hay
  · -- the three rank branches all link the two roots
    have hT2 : Terminating ((u.find a).2.find b).2.parent := hinv2.1
    have hinvlink : ∀ (c t : Hole), IsFix ((u.find a).2.find b).2.parent c →
        IsFix ((u.find a).2.find b).2.parent t → c ≠ t →
        c ∈ u.elems → t ∈ u.elems → ∀ rk : Hole → Nat,
        (UF.mk (linkMap ((u.find a).2.find b).2.parent c t) rk
          ((u.find a).2.find b).2.elems).Inv := by
      intro c t hc ht hct hcE htE rk
      refine ⟨link_terminating hT2 ht hc (Ne.symm hct), ?_, ?_, ?_⟩
      · intro y hy
        rw [helems12] at hy
        have hyc : y ≠ c := by
          intro hh
          rw [hh] at hy
          exact hy hcE
        simp only [linkMap, if_neg hyc]
        apply hinv2.2.1
        rw [helems12]
        exact hy
      · intro y hy
        by_cases hyc : y = c
        · simp only [linkMap, if_pos hyc]
          rw [helems12]
          exact htE
        · simp only [linkMap, if_neg hyc]
          exact hinv2.2.2.1 y hy
      · exact hinv2.2.2.2
    have hlinkform : ∀ (c t : Hole), IsFix ((u.find a).2.find b).2.parent c →
        IsFix ((u.find a).2.find b).2.parent t → t ≠ c →
        ∀ x y, SameRoot (linkMap ((u.find a).2.find b).2.parent c t) x y ↔
          (SameRoot ((u.find a).2.find b).2.parent x y ∨
           (SameRoot ((u.find a).2.find b).2.parent x t ∧
            SameRoot ((u.find a).2.find b).2.parent c y) ∨
           (SameRoot ((u.find a).2.find b).2.parent x c ∧
            SameRoot ((u.find a).2.find b).2.parent t y)) :=
      fun c t hc ht htc x y => link_sameRoot hT2 ht hc htc x y
    -- unfold the three branches uniformly
    have hbody : ∃ rk : Hole → Nat,
        (u.union a b = UF.mk
          (linkMap ((u.find a).2.find b).2.parent (u.find a).1
            ((u.find a).2.find b).1) rk ((u.find a).2.find b).2.elems) ∨
        (u.union a b = UF.mk
          (linkMap ((u.find a).2.find b).2.parent ((u.find a).2.find b).1
            (u.find a).1) rk ((u.find a).2.find b).2.elems) := by
      by_cases hlt : ((u.find a).2.find b).2.rank (u.find a).1 <
          ((u.find a).2.find b).2.rank ((u.find a).2.find b).1
      · refine ⟨((u.find a).2.find b).2.rank, Or.inl ?_⟩
        simp only [UF.union, if_neg hrr, if_pos hlt]
        rfl
      · by_cases hgt : ((u.find a).2.find b).2.rank ((u.find a).2.find b).1 <
            ((u.find a).2.find b).2.rank (u.find a).1
        · refine ⟨((u.find a).2.find b).2.rank, Or.inr ?_⟩
          simp only [UF.union, if_neg hrr, if_neg hlt, if_pos hgt]
          rfl
        · refine ⟨fun y => if y = (u.find a).1 then
              ((u.find a).2.find b).2.rank (u.find a).1 + 1
            else ((u.find a).2.find b).2.rank y, Or.inr ?_⟩
          simp only [UF.union, if_neg hrr, if_neg hlt, if_neg hgt]
          rfl
    obtain ⟨rk, hcase | hcase⟩ := hbody
    · rw [hcase]
      refine ⟨hinvlink _ _ hfixa2 hfixb2 hrr hra_mem hrb_mem rk, helems12, ?_⟩
      intro x y
      have hform := hlinkform (u.find a).1 ((u.find a).2.find b).1 hfixa2
        hfixb2 (fun hh => hrr hh.symm) x y
      rw [hform, e1 x y, e2 x, e3 x, e4 y, e5 y]
      tauto
    · rw [hcase]
      refine ⟨hinvlink _ _ hfixb2 hfixa2 (fun hh => hrr hh.symm) hrb_mem
        hra_mem rk, helems12, ?_⟩
      intro x y
      have hform := hlinkform ((u.find a).2.find b).1 (u.find a).1 hfixb2
        hfixa2 hrr x y
      rw [hform, e1 x y, e2 x, e3 x, e4 y, e5 y]

/-! ### Specification of `UF.add` and bulk operations -/

theorem UF.add_parent (u : UF) (h : u.Inv) (x : Hole) :
    ∀ y, (u.add x).parent y = u.parent y := by
  intro y
  by_cases hx : x ∈ u.elems
  · simp only [UF.add, if_pos hx]
  · simp only [UF.add, if_neg hx]
    by_cases hyx : y = x
    · subst hyx
      rw [if_pos rfl, h.2.1 y hx]
    · rw [if_neg hyx]

theorem UF.add_elems (u : UF) (x y : Hole) :
    (y ∈ (u.add x).elems ↔ y = x ∨ y ∈ u.elems) := by
  by_cases hx : x ∈ u.elems
  · simp only [UF.add, if_pos hx]
    constructor
    · intro hy
      exact Or.inr hy
    · rintro (rfl | hy)
      · exact hx
      · exact hy
  · simp only [UF.add, if_neg hx, List.mem_cons]

theorem UF.add_inv (u : UF) (h : u.Inv) (x : Hole) : (u.add x).Inv := by
  have hp := u.add_parent h x
  by_cases hx : x ∈ u.elems
  · simp only [UF.add, if_pos hx]
    exact h
  · obtain ⟨hT, hne, hcl, hnd⟩ := h
    refine ⟨?_, ?_, ?_, ?_⟩
    · intro y
      obtain ⟨n, hn⟩ := hT y
      refine ⟨n, ?_⟩
      rw [IsFix, iterate_congr hp n y, hp]
      exact hn
    · intro y hy
      rw [hp]
      apply hne
      intro hmem
      exact hy ((u.add_elems x y).mpr (Or.inr hmem))
    · intro y hy
      rw [hp]
      rw [u.add_elems x y] at hy
      rcases hy with rfl | hy
      · rw [hne y hx]
        simp only [UF.add, if_neg hx]
        exact List.mem_cons_self _ _
      · have := hcl y hy
        simp only [UF.add, if_neg hx]
        exact List.mem_cons_of_mem _ this
    · simp only [UF.add, if_neg hx]
      exact List.nodup_cons.mpr ⟨hx, hnd⟩

theorem UF.add_sameRoot (u : UF) (h : u.Inv) (x : Hole) :
    ∀ y z, SameRoot (u.add x).parent y z ↔ SameRoot u.parent y z := by
  intro y z
  exact sameRoot_congr (fun w r => reaches_congr_fun (u.add_parent h x)) y z

/-- `addAll`: add a list of keys one by one (the initialisation loops of
`_init_uf`). -/
def UF.addAll (u : UF) (hs : List Hole) : UF := hs.foldl UF.add u

theorem UF.addAll_spec (hs : List Hole) :
    ∀ (u : UF), u.Inv →
      (u.addAll hs).Inv ∧
      (∀ y, y ∈ (u.addAll hs).elems ↔ y ∈ hs ∨ y ∈ u.elems) ∧
      (∀ y, (u.addAll hs).parent y = u.parent y) := by
  induction hs with
  | nil =>
      intro u h
      exact ⟨h, fun y => by simp [UF.addAll], fun y => rfl⟩
  | cons a hs ih =>
      intro u h
      have h1 : (u.addAll (a :: hs)) = ((u.add a).addAll hs) := rfl
      obtain ⟨hi, hm, hp⟩ := ih (u.add a) (u.add_inv h a)
      rw [h1]
      refine ⟨hi, ?_, ?_⟩
      · intro y
        rw [hm y, u.add_elems a y, List.mem_cons]
        tauto
      · intro y
        rw [hp y, u.add_parent h a]

/-! ### Sequences of unions and the equivalence closure -/

/-- Apply a list of union operations in order. -/
def applyUnions (u : UF) (ps : List (Hole × Hole)) : UF :=
  ps.foldl (fun acc pr => acc.union pr.1 pr.2) u

theorem eqvGen_le {r s : Hole → Hole → Prop}
    (hrs : ∀ v w, r v w → Relation.EqvGen s v w) :
    ∀ x y, Relation.EqvGen r x y → Relation.EqvGen s x y := by
  intro x y h
  induction h with
  | rel a b hab => exact hrs a b hab
  | refl a => exact Relation.EqvGen.refl a
  | symm a b _ ih => exact Relation.EqvGen.symm a b ih
  | trans a b c _ _ ih₁ ih₂ => exact Relation.EqvGen.trans a b c ih₁ ih₂

theorem eqvGen_congr {r s : Hole → Hole → Prop}
    (hrs : ∀ v w, r v w → Relation.EqvGen s v w)
    (hsr : ∀ v w, s v w → Relation.EqvGen r v w) :
    ∀ x y, Relation.EqvGen r x y ↔ Relation.EqvGen s x y :=
  fun x y => ⟨eqvGen_le hrs x y, eqvGen_le hsr x y⟩

theorem eqvGen_of_equivalence {r : Hole → Hole → Prop}
    (hrefl : ∀ x, r x x) (hsymm : ∀ x y, r x y → r y x)
    (htrans : ∀ x y z, r x y → r y z → r x z) :
    ∀ x y, Relation.EqvGen r x y ↔ r x y := by
  intro x y
  constructor
  · intro h
    induction h with
    | rel a b hab => exact hab
    | refl a => exact hrefl a
    | symm a b _ ih => exact hsymm a b ih
    | trans a b c _ _ ih₁ ih₂ => exact htrans a b c ih₁ ih₂
  · exact Relation.EqvGen.rel x y

theorem applyUnions_spec (ps : List (Hole × Hole)) :
    ∀ (u : UF), u.Inv → (∀ pr ∈ ps, pr.1 ∈ u.elems ∧ pr.2 ∈ u.elems) →
      (applyUnions u ps).Inv ∧ (applyUnions u ps).elems = u.elems ∧
      (∀ x y, SameRoot (applyUnions u ps).parent x y ↔
        Relation.EqvGen
          (fun v w => SameRoot u.parent v w ∨ (v, w) ∈ ps) x y) := by
  induction ps with
  | nil =>
      intro u h _
      refine ⟨h, rfl, ?_⟩
      intro x y
      have hres : applyUnions u [] = u := rfl
      rw [hres]
      have hiff := eqvGen_of_equivalence
        (r := fun v w => SameRoot u.parent v w ∨ (v, w) ∈ ([] : List (Hole × Hole)))
        (fun x => Or.inl (sameRoot_refl h.1 x))
        (fun x y hxy => by
          rcases hxy with hxy | hxy
          · exact Or.inl (sameRoot_symm hxy)
          · simp at hxy)
        (fun x y z hxy hyz => by
          rcases hxy with hxy | hxy
          · rcases hyz with hyz | hyz
            · exact Or.inl (sameRoot_trans hxy hyz)
            · simp at hyz
          · simp at hxy)
      constructor
      · intro hxy
        exact Relation.EqvGen.rel x y (Or.inl hxy)
      · intro hxy
        rcases (hiff x y).mp hxy with hh | hh
        · exact hh
        · simp at hh
  | cons pr ps ih =>
      intro u h hmem
      have hpr := hmem pr (List.mem_cons_self _ _)
      obtain ⟨hu1, he1, hs1⟩ := u.union_spec h pr.1 pr.2 hpr.1 hpr.2
      have hres : applyUnions u (pr :: ps) = applyUnions (u.union pr.1 pr.2) ps := rfl
      rw [hres]
      obtain ⟨hi, he, hs⟩ := ih (u.union pr.1 pr.2) hu1 (by
        intro q hq
        rw [he1]
        exact hmem q (List.mem_cons_of_mem _ hq))
      refine ⟨hi, he.trans he1, ?_⟩
      intro x y
      rw [hs x y]
      apply eqvGen_congr
      · intro v w hvw
        rcases hvw with hvw | hvw
        · rw [hs1 v w] at hvw
          rcases hvw with hvw | ⟨hva, hbw⟩ | ⟨hvb, haw⟩
          · exact Relation.EqvGen.rel v w (Or.inl hvw)
          · refine Relation.EqvGen.trans v pr.1 w
              (Relation.EqvGen.rel _ _ (Or.inl hva)) ?_
            refine Relation.EqvGen.trans pr.1 pr.2 w
              (Relation.EqvGen.rel _ _ (Or.inr (List.mem_cons_self _ _))) ?_
            exact Relation.EqvGen.rel _ _ (Or.inl hbw)
          · refine Relation.EqvGen.trans v pr.2 w
              (Relation.EqvGen.rel _ _ (Or.inl hvb)) ?_
            refine Relation.EqvGen.trans pr.2 pr.1 w
              (Relation.EqvGen.symm _ _
                (Relation.EqvGen.rel _ _ (Or.inr (List.mem_cons_self _ _)))) ?_
            exact Relation.EqvGen.rel _ _ (Or.inl haw)
        · exact Relation.EqvGen.rel v w (Or.inr (List.mem_cons_of_mem _ hvw))
      · intro v w hvw
        rcases hvw with hvw | hvw
        · apply Relation.EqvGen.rel
          left
          rw [hs1 v w]
          exact Or.inl hvw
        · rcases List.mem_cons.mp hvw with hvw | hvw
          · apply Relation.EqvGen.rel
            left
            rw [hs1 v w]
            right; left
            rw [← hvw]
            exact ⟨sameRoot_refl h.1 v, sameRoot_refl h.1 w⟩
          · exact Relation.EqvGen.rel v w (Or.inr hvw)

/-! ### Observational behaviour of `sameRep` -/

theorem UF.sameRep_iff (u : UF) (h : u.Inv) (a b : Hole) :
    u.sameRep a b = true ↔ SameRoot u.parent a b := by
  obtain ⟨h1a, hinv1, hiff1, _, _⟩ := u.find_spec h a
  obtain ⟨h2b, _, _, _, _⟩ := (u.find a).2.find_spec hinv1 b
  have hrb : Reaches u.parent b ((u.find a).2.find b).1 := (hiff1 _ _).mp h2b
  simp only [UF.sameRep, beq_iff_eq]
  constructor
  · intro heq
    refine ⟨(u.find a).1, h1a, ?_⟩
    rw [heq]
    exact hrb
  · rintro ⟨r, hra, hrb2⟩
    rw [reaches_unique h1a hra, reaches_unique hrb hrb2]

/-- Observational equivalence of two union-find states: same reachability
(hence the same classes) and the same key list.  Path compression during
`find` produces `UFSim`-related states. -/
def UFSim (u u' : UF) : Prop :=
  (∀ y r, Reaches u'.parent y r ↔ Reaches u.parent y r) ∧
  u'.elems = u.elems

theorem UFSim.rfl' (u : UF) : UFSim u u := ⟨fun _ _ => Iff.rfl, rfl⟩

theorem UFSim.trans' {u v w : UF} (h₁ : UFSim u v) (h₂ : UFSim v w) :
    UFSim u w :=
  ⟨fun y r => (h₂.1 y r).trans (h₁.1 y r), h₂.2.trans h₁.2⟩

theorem UFSim.sameRoot_iff {u u' : UF} (h : UFSim u u') (x y : Hole) :
    SameRoot u'.parent x y ↔ SameRoot u.parent x y :=
  sameRoot_congr h.1 x y

theorem UFSim.inv {u u' : UF} (hsim : UFSim u u') (h : u.Inv)
    (hp : ∀ y, y ∉ u'.elems → u'.parent y = y)
    (hc : ∀ y ∈ u'.elems, u'.parent y ∈ u'.elems) : u'.Inv := by
  refine ⟨?_, hp, hc, hsim.2 ▸ h.2.2.2⟩
  intro y
  obtain ⟨r, hr⟩ := terminating_reaches h.1 y
  exact reaches_terminates ((hsim.1 y r).mpr hr)

theorem UF.find_sim (u : UF) (h : u.Inv) (x : Hole) :
    UFSim u (u.find x).2 ∧ (u.find x).2.Inv ∧
    Reaches u.parent x (u.find x).1 := by
  obtain ⟨h1, h2, h3, h4, _⟩ := u.find_spec h x
  exact ⟨⟨h3, h4⟩, h2, h1⟩

/-! ## Breadboard geometry (class `Breadboard`)

The geometry fields of the Python class (`holes`, `rails_v`, `rails_g`,
`strip_of_hole`, `rail_of_hole`, the column constants) are built once in
`_build_geometry` from `rows` and never mutated, so they are embedded as
functions of `rows`; only `occ` and `uf` are mutable state.  Python sets
become lists in row-major order (all set iterations in the source are
order-insensitive in their effect, as proved below). -/

/-- Left/right half widths are fixed at 5, trough columns are `(5, 6)`,
`total_cols = 12`; left rails at `(-4, -3)`, right rails at `(14, 15)`. -/
def totalCols : Int := 12

def leftRailCols : Int × Int := (-4, -3)

def rightRailCols : Int × Int := (totalCols + 2, totalCols + 3)

/-- Main board holes, row-major, trough columns `{5, 6}` excluded. -/
def boardHoles (rows : Nat) : List Hole :=
  (List.range rows).flatMap (fun r =>
    (List.range 12).filterMap (fun c =>
      if c = 5 ∨ c = 6 then none
      else some (Int.ofNat r, Int.ofNat c)))

/-- All V+ rail holes (left column -4 and right column 14). -/
def railsV (rows : Nat) : List Hole :=
  (List.range rows).map (fun r => (Int.ofNat r, leftRailCols.1)) ++
  (List.range rows).map (fun r => (Int.ofNat r, rightRailCols.1))

/-- All GND rail holes (left column -3 and right column 15). -/
def railsG (rows : Nat) : List Hole :=
  (List.range rows).map (fun r => (Int.ofNat r, leftRailCols.2)) ++
  (List.range rows).map (fun r => (Int.ofNat r, rightRailCols.2))

/-- The five holes of the left strip of row `r` (columns 0–4). -/
def leftStrip (r : Int) : List Hole :=
  (List.range 5).map (fun c => (r, Int.ofNat c))

/-- The five holes of the right strip of row `r` (columns 7–11). -/
def rightStrip (r : Int) : List Hole :=
  (List.range 5).map (fun c => (r, Int.ofNat c + 7))

/-- `strip_of_hole` dictionary as a function. -/
def strip_of_hole (rows : Nat) (h : Hole) : Option (List Hole) :=
  if 0 ≤ h.1 ∧ h.1 < (rows : Int) then
    if 0 ≤ h.2 ∧ h.2 < 5 then some (leftStrip h.1)
    else if 7 ≤ h.2 ∧ h.2 < 12 then some (rightStrip h.1)
    else none
  else none

/-- `rail_of_hole` dictionary as a function. -/
def rail_of_hole (rows : Nat) (h : Hole) : Option String :=
  if 0 ≤ h.1 ∧ h.1 < (rows : Int) then
    if h.2 = -4 ∨ h.2 = 14 then some "V+"
    else if h.2 = -3 ∨ h.2 = 15 then some "GND"
    else none
  else none

/-- All real holes (board plus rails); the key set of `self.occ`. -/
def realHoles (rows : Nat) : List Hole :=
  boardHoles rows ++ railsV rows ++ railsG rows

/-- Initial occupancy: every real hole `empty`, gap columns absent. -/
def initOcc (rows : Nat) : Hole → Option OccT :=
  fun h => if h ∈ realHoles rows then some OccT.empty else none

/-- `_union_all`: union everything onto the first element. -/
def union_all (u : UF) (hs : List Hole) : UF :=
  match hs with
  | [] => u
  | base :: rest => rest.foldl (fun acc h => acc.union base h) u

/-- The strip loop of `_init_uf`: iterate board holes, union each strip
the first time it is seen. -/
def stripSeenFold (rows : Nat) :
    List Hole → UF × List (List Hole) → UF × List (List Hole)
  | [], acc => acc
  | h :: rest, (u, seen) =>
      match strip_of_hole rows h with
      | none => stripSeenFold rows rest (u, seen)
      | some strip =>
          if strip.isEmpty then stripSeenFold rows rest (u, seen)
          else if strip ∈ seen then stripSeenFold rows rest (u, seen)
          else stripSeenFold rows rest (union_all u strip, seen ++ [strip])

/-- `_init_uf`: fresh union-find with every strip and both rails unified. -/
def init_uf (rows : Nat) : UF :=
  let u0 := UF.init.addAll (realHoles rows)
  let u1 := (stripSeenFold rows (boardHoles rows) (u0, [])).1
  let u2 := union_all u1 (railsV rows)
  union_all u2 (railsG rows)

/-- The breadboard: geometry is derived from `rows`; `occ` and `uf` are
the mutable state. -/
structure Breadboard where
  rows : Nat
  wire_lengths : List Nat
  occ : Hole → Option OccT
  uf : UF

/-- `Breadboard.__init__`: `wire_lengths = sorted(set(...))`, empty
occupancy, `_init_uf`. -/
def sortInsert (le : α → α → Bool) (x : α) : List α → List α
  | [] => [x]
  | y :: ys => if le x y then x :: y :: ys else y :: sortInsert le x ys

/-- Stable ascending sort (insertion sort): the model of Python's
`sorted`, which is also stable. -/
def stableSort (le : α → α → Bool) : List α → List α
  | [] => []
  | x :: xs => sortInsert le x (stableSort le xs)

def mkBreadboard (rows : Nat) (wire_lengths : List Nat) : Breadboard :=
  { rows := rows,
    wire_lengths := stableSort (fun a b => a ≤ b) wire_lengths.dedup,
    occ := initOcc rows,
    uf := init_uf rows }

/-- A net: terminals, rail anchors, committed wire segments. -/
structure Net where
  name : String
  terms : List Hole
  fixed_anchors : List String
  seg_paths : List (List Hole)
deriving DecidableEq, Repr

/-- The `nets` dictionary: an insertion-ordered association list. -/
abbrev Nets := List (String × Net)

/-- Consecutive-hole pairs of one wire segment. -/
def segPairs (seg : List Hole) : List (Hole × Hole) := seg.zip seg.tail

/-- All consecutive-hole pairs of all segments of all nets, in iteration
order. -/
def allSegPairs (nets : Nets) : List (Hole × Hole) :=
  nets.flatMap (fun kn => kn.2.seg_paths.flatMap segPairs)

/-- `rebuild_union_find`: reset to the bare-board union-find, then union
consecutive holes of every claimed segment (the nested loops are the
single `applyUnions` pass over the flattened pair list). -/
def Breadboard.rebuild_union_find (bb : Breadboard) (nets : Nets) :
    Breadboard :=
  { bb with uf := applyUnions (init_uf bb.rows) (allSegPairs nets) }

/-- Point update of the occupancy dictionary. -/
def setOcc (occ : Hole → Option OccT) (h : Hole) (t : OccT) :
    Hole → Option OccT :=
  fun h2 => if h2 = h then some t else occ h2

/-- Update a list of holes to the same tag. -/
def setOccAll (occ : Hole → Option OccT) (hs : List Hole) (t : OccT) :
    Hole → Option OccT :=
  hs.foldl (fun o h => setOcc o h t) occ

/-- `claim_component`: all of `body ∪ pins` must be empty; body holes
become `comp_body`, pin holes `comp_pin` (in that order, so a hole that
is both ends up `comp_pin`, as in the source). -/
def Breadboard.claim_component (bb : Breadboard) (comp_id : String)
    (body_holes pin_holes : List Hole) : Bool × Breadboard :=
  if (body_holes ++ pin_holes).all (fun h => bb.occ h == some OccT.empty) then
    let occ2 :=
      setOccAll (setOccAll bb.occ body_holes (OccT.comp_body comp_id))
        pin_holes (OccT.comp_pin comp_id)
    (true, { bb with occ := occ2 })
  else (false, bb)

/-- `release_component`: body and pin holes back to empty. -/
def Breadboard.release_component (bb : Breadboard)
    (body_holes pin_holes : List Hole) : Breadboard :=
  { bb with occ := setOccAll bb.occ (body_holes ++ pin_holes) OccT.empty }

/-- `claim_wire_segment`: needs length ≥ 2 and all holes empty;
endpoints become `wire_end`, interior `wire_body`. -/
def Breadboard.claim_wire_segment (bb : Breadboard) (seg_id : String)
    (path_holes : List Hole) : Bool × Breadboard :=
  if path_holes.length < 2 then (false, bb)
  else if path_holes.all (fun h => bb.occ h == some OccT.empty) then
    let occ2 :=
      path_holes.enum.foldl (fun o pr =>
        setOcc o pr.2
          (if pr.1 = 0 ∨ pr.1 = path_holes.length - 1 then
            OccT.wire_end seg_id
          else OccT.wire_body seg_id)) bb.occ
    (true, { bb with occ := occ2 })
  else (false, bb)

/-- `release_wire_segment`. -/
def Breadboard.release_wire_segment (bb : Breadboard)
    (path_holes : List Hole) : Breadboard :=
  { bb with occ := setOccAll bb.occ path_holes OccT.empty }

/-- `hole_set_for_net_anchor`. -/
def Breadboard.hole_set_for_net_anchor (bb : Breadboard) (anchor : String) :
    List Hole :=
  if anchor = "V+" then railsV bb.rows
  else if anchor = "GND" then railsG bb.rows
  else []

/-- `frontier_of_anchor`: all empty holes on the named rail. -/
def Breadboard.frontier_of_anchor (bb : Breadboard) (anchor : String) :
    List Hole :=
  (bb.hole_set_for_net_anchor anchor).filter
    (fun h => bb.occ h == some OccT.empty)

/-- `frontier_of_hole`: the other empty holes of the strip (or all empty
holes of the rail) of `hole`. -/
def Breadboard.frontier_of_hole (bb : Breadboard) (hole : Hole) :
    List Hole :=
  if hole ∈ railsV bb.rows ∨ hole ∈ railsG bb.rows then
    let rail := if hole ∈ railsV bb.rows then railsV bb.rows
      else railsG bb.rows
    rail.filter (fun h => bb.occ h == some OccT.empty)
  else
    match strip_of_hole bb.rows hole with
    | none => []
    | some strip =>
        if strip.isEmpty then []
        else strip.filter
          (fun h => bb.occ h == some OccT.empty && h != hole)

/-! ### Membership characterizations of the geometry -/

theorem mem_boardHoles {rows : Nat} {h : Hole} :
    h ∈ boardHoles rows ↔
      0 ≤ h.1 ∧ h.1 < (rows : Int) ∧
      ((0 ≤ h.2 ∧ h.2 < 5) ∨ (7 ≤ h.2 ∧ h.2 < 12)) := by
  obtain ⟨r, c⟩ := h
  simp only [boardHoles, List.mem_flatMap, List.mem_filterMap, List.mem_range]
  constructor
  · rintro ⟨rn, hrn, cn, hcn, heq⟩
    by_cases h56 : cn = 5 ∨ cn = 6
    · rw [if_pos h56] at heq
      exact absurd heq (by simp)
    · rw [if_neg h56] at heq
      simp only [Option.some.injEq, Prod.mk.injEq, Int.ofNat_eq_coe] at heq
      obtain ⟨h1, h2⟩ := heq
      push_neg at h56
      obtain ⟨h5, h6⟩ := h56
      refine ⟨by omega, by omega, ?_⟩
      omega
  · rintro ⟨h0r, hrrows, hcol⟩
    have hc0 : 0 ≤ c := by rcases hcol with ⟨a, b⟩ | ⟨a, b⟩ <;> omega
    have hc12 : c < 12 := by rcases hcol with ⟨a, b⟩ | ⟨a, b⟩ <;> omega
    have h56i : c ≠ 5 ∧ c ≠ 6 := by
      rcases hcol with ⟨a, b⟩ | ⟨a, b⟩ <;> exact ⟨by omega, by omega⟩
    obtain ⟨h5i, h6i⟩ := h56i
    refine ⟨r.toNat, by omega, c.toNat, by omega, ?_⟩
    split
    · rename_i hcond
      exfalso
      rcases hcond with hc | hc <;> omega
    · simp only [Option.some.injEq, Prod.mk.injEq, Int.ofNat_eq_coe]
      exact ⟨by omega, by omega⟩

theorem mem_railsV {rows : Nat} {h : Hole} :
    h ∈ railsV rows ↔
      0 ≤ h.1 ∧ h.1 < (rows : Int) ∧ (h.2 = -4 ∨ h.2 = 14) := by
  obtain ⟨r, c⟩ := h
  simp only [railsV, leftRailCols, rightRailCols, totalCols, List.mem_append,
    List.mem_map, List.mem_range, Prod.mk.injEq, Int.ofNat_eq_coe]
  constructor
  · rintro (⟨rn, hrn, h1, h2⟩ | ⟨rn, hrn, h1, h2⟩) <;> omega
  · rintro ⟨h0, hr, hc | hc⟩
    · left
      exact ⟨r.toNat, by omega, by omega, by omega⟩
    · right
      exact ⟨r.toNat, by omega, by omega, by omega⟩

theorem mem_railsG {rows : Nat} {h : Hole} :
    h ∈ railsG rows ↔
      0 ≤ h.1 ∧ h.1 < (rows : Int) ∧ (h.2 = -3 ∨ h.2 = 15) := by
  obtain ⟨r, c⟩ := h
  simp only [railsG, leftRailCols, rightRailCols, totalCols, List.mem_append,
    List.mem_map, List.mem_range, Prod.mk.injEq, Int.ofNat_eq_coe]
  constructor
  · rintro (⟨rn, hrn, h1, h2⟩ | ⟨rn, hrn, h1, h2⟩) <;> omega
  · rintro ⟨h0, hr, hc | hc⟩
    · left
      exact ⟨r.toNat, by omega, by omega, by omega⟩
    · right
      exact ⟨r.toNat, by omega, by omega, by omega⟩

theorem mem_realHoles {rows : Nat} {h : Hole} :
    h ∈ realHoles rows ↔
      0 ≤ h.1 ∧ h.1 < (rows : Int) ∧
      ((0 ≤ h.2 ∧ h.2 < 5) ∨ (7 ≤ h.2 ∧ h.2 < 12) ∨
        h.2 = -4 ∨ h.2 = -3 ∨ h.2 = 14 ∨ h.2 = 15) := by
  simp only [realHoles, List.mem_append, mem_boardHoles, mem_railsV,
    mem_railsG]
  constructor
  · rintro ((⟨a, b, c⟩ | ⟨a, b, c⟩) | ⟨a, b, c⟩) <;> tauto
  · rintro ⟨a, b, c⟩
    rcases c with c | c | c | c | c | c
    · exact Or.inl (Or.inl ⟨a, b, Or.inl c⟩)
    · exact Or.inl (Or.inl ⟨a, b, Or.inr c⟩)
    · exact Or.inl (Or.inr ⟨a, b, Or.inl c⟩)
    · exact Or.inr ⟨a, b, Or.inl c⟩
    · exact Or.inl (Or.inr ⟨a, b, Or.inr c⟩)
    · exact Or.inr ⟨a, b, Or.inr c⟩

theorem mem_leftStrip {r : Int} {x : Hole} :
    x ∈ leftStrip r ↔ x.1 = r ∧ 0 ≤ x.2 ∧ x.2 < 5 := by
  obtain ⟨a, b⟩ := x
  simp only [leftStrip, List.mem_map, List.mem_range, Prod.mk.injEq,
    Int.ofNat_eq_coe]
  constructor
  · rintro ⟨c, hc, h1, h2⟩
    omega
  · rintro ⟨h1, h2, h3⟩
    exact ⟨b.toNat, by omega, by omega, by omega⟩

theorem mem_rightStrip {r : Int} {x : Hole} :
    x ∈ rightStrip r ↔ x.1 = r ∧ 7 ≤ x.2 ∧ x.2 < 12 := by
  obtain ⟨a, b⟩ := x
  simp only [rightStrip, List.mem_map, List.mem_range, Prod.mk.injEq,
    Int.ofNat_eq_coe]
  constructor
  · rintro ⟨c, hc, h1, h2⟩
    omega
  · rintro ⟨h1, h2, h3⟩
    exact ⟨(b - 7).toNat, by omega, by omega, by omega⟩

theorem strip_of_hole_cases {rows : Nat} {h : Hole} {s : List Hole}
    (hs : strip_of_hole rows h = some s) :
    (0 ≤ h.1 ∧ h.1 < (rows : Int)) ∧
    ((s = leftStrip h.1 ∧ 0 ≤ h.2 ∧ h.2 < 5) ∨
     (s = rightStrip h.1 ∧ 7 ≤ h.2 ∧ h.2 < 12)) := by
  unfold strip_of_hole at hs
  by_cases hr : 0 ≤ h.1 ∧ h.1 < (rows : Int)
  · rw [if_pos hr] at hs
    by_cases hl : 0 ≤ h.2 ∧ h.2 < 5
    · rw [if_pos hl] at hs
      simp only [Option.some.injEq] at hs
      exact ⟨hr, Or.inl ⟨hs.symm, hl⟩⟩
    · rw [if_neg hl] at hs
      by_cases hrr : 7 ≤ h.2 ∧ h.2 < 12
      · rw [if_pos hrr] at hs
        simp only [Option.some.injEq] at hs
        exact ⟨hr, Or.inr ⟨hs.symm, hrr⟩⟩
      · rw [if_neg hrr] at hs
        exact absurd hs (by simp)
  · rw [if_neg hr] at hs
    exact absurd hs (by simp)

theorem strip_of_hole_sub {rows : Nat} {h : Hole} {s : List Hole}
    (hs : strip_of_hole rows h = some s) :
    ∀ x ∈ s, x ∈ boardHoles rows := by
  obtain ⟨hr, hcase⟩ := strip_of_hole_cases hs
  intro x hx
  rcases hcase with ⟨rfl, _⟩ | ⟨rfl, _⟩
  · rw [mem_leftStrip] at hx
    rw [mem_boardHoles]
    omega
  · rw [mem_rightStrip] at hx
    rw [mem_boardHoles]
    omega

/-! ### `_init_uf` as a sequence of unions -/

/-- Pairs `(base, h)` produced by `_union_all` on a hole list. -/
def stripPairsOf (strip : List Hole) : List (Hole × Hole) :=
  match strip with
  | [] => []
  | base :: rest => rest.map (fun h => (base, h))

theorem union_all_eq (u : UF) (hs : List Hole) :
    union_all u hs = applyUnions u (stripPairsOf hs) := by
  cases hs with
  | nil => rfl
  | cons base rest =>
      simp only [union_all, stripPairsOf, applyUnions, List.foldl_map]

theorem applyUnions_append (u : UF) (ps qs : List (Hole × Hole)) :
    applyUnions u (ps ++ qs) = applyUnions (applyUnions u ps) qs := by
  simp only [applyUnions, List.foldl_append]

/-- The strips actually unioned by the strip loop, in order of first
encounter. -/
def newStrips (rows : Nat) : List Hole → List (List Hole) → List (List Hole)
  | [], _ => []
  | h :: rest, seen =>
      match strip_of_hole rows h with
      | none => newStrips rows rest seen
      | some strip =>
          if strip.isEmpty then newStrips rows rest seen
          else if strip ∈ seen then newStrips rows rest seen
          else strip :: newStrips rows rest (seen ++ [strip])

theorem stripSeenFold_fst (rows : Nat) :
    ∀ (holes : List Hole) (u : UF) (seen : List (List Hole)),
      (stripSeenFold rows holes (u, seen)).1 =
        applyUnions u ((newStrips rows holes seen).flatMap stripPairsOf) := by
  intro holes
  induction holes with
  | nil =>
      intro u seen
      rfl
  | cons h rest ih =>
      intro u seen
      rcases hstrip : strip_of_hole rows h with _ | strip
      · simp only [stripSeenFold, newStrips, hstrip]
        exact ih u seen
      · by_cases hemp : strip.isEmpty
        · simp only [stripSeenFold, newStrips, hstrip, if_pos hemp]
          exact ih u seen
        · by_cases hseen : strip ∈ seen
          · simp only [stripSeenFold, newStrips, hstrip, if_neg hemp,
              if_pos hseen]
            exact ih u seen
          · simp only [stripSeenFold, newStrips, hstrip, if_neg hemp,
              if_neg hseen, List.flatMap_cons]
            rw [applyUnions_append, ← union_all_eq]
            exact ih (union_all u strip) (seen ++ [strip])

/-- Every strip recorded by the strip loop is a value of
`strip_of_hole`. -/
theorem newStrips_from_strip_of (rows : Nat) :
    ∀ (holes : List Hole) (seen : List (List Hole)) (s : List Hole),
      s ∈ newStrips rows holes seen →
      ∃ h ∈ holes, strip_of_hole rows h = some s := by
  intro holes
  induction holes with
  | nil =>
      intro seen s hs
      simp [newStrips] at hs
  | cons h rest ih =>
      intro seen s hs
      rcases hstrip : strip_of_hole rows h with _ | strip
      · simp only [newStrips, hstrip] at hs
        obtain ⟨h2, hh2, hs2⟩ := ih seen s hs
        exact ⟨h2, List.mem_cons_of_mem _ hh2, hs2⟩
      · simp only [newStrips, hstrip] at hs
        by_cases hemp : strip.isEmpty
        · rw [if_pos hemp] at hs
          obtain ⟨h2, hh2, hs2⟩ := ih seen s hs
          exact ⟨h2, List.mem_cons_of_mem _ hh2, hs2⟩
        · rw [if_neg hemp] at hs
          by_cases hseen : strip ∈ seen
          · rw [if_pos hseen] at hs
            obtain ⟨h2, hh2, hs2⟩ := ih seen s hs
            exact ⟨h2, List.mem_cons_of_mem _ hh2, hs2⟩
          · rw [if_neg hseen] at hs
            rcases List.mem_cons.mp hs with rfl | hs
            · exact ⟨h, List.mem_cons_self _ _, hstrip⟩
            · obtain ⟨h2, hh2, hs2⟩ := ih (seen ++ [strip]) s hs
              exact ⟨h2, List.mem_cons_of_mem _ hh2, hs2⟩

/-- The complete list of union pairs performed by `_init_uf`. -/
def basePairs (rows : Nat) : List (Hole × Hole) :=
  ((newStrips rows (boardHoles rows) []).flatMap stripPairsOf) ++
  stripPairsOf (railsV rows) ++ stripPairsOf (railsG rows)

theorem init_uf_eq (rows : Nat) :
    init_uf rows =
      applyUnions (UF.init.addAll (realHoles rows)) (basePairs rows) := by
  show union_all (union_all (stripSeenFold rows (boardHoles rows)
      (UF.init.addAll (realHoles rows), [])).1 (railsV rows)) (railsG rows) =
    applyUnions (UF.init.addAll (realHoles rows)) (basePairs rows)
  rw [stripSeenFold_fst, union_all_eq, union_all_eq, basePairs,
    applyUnions_append, applyUnions_append]

theorem stripPairsOf_mem {strip : List Hole} {pr : Hole × Hole}
    (h : pr ∈ stripPairsOf strip) : pr.1 ∈ strip ∧ pr.2 ∈ strip := by
  cases strip with
  | nil => simp [stripPairsOf] at h
  | cons base rest =>
      simp only [stripPairsOf, List.mem_map] at h
      obtain ⟨x, hx, rfl⟩ := h
      exact ⟨List.mem_cons_self _ _, List.mem_cons_of_mem _ hx⟩

theorem basePairs_mem (rows : Nat) :
    ∀ pr ∈ basePairs rows, pr.1 ∈ realHoles rows ∧ pr.2 ∈ realHoles rows := by
  intro pr hpr
  simp only [basePairs, List.mem_append, List.mem_flatMap] at hpr
  rcases hpr with (⟨s, hsmem, hpair⟩ | hpair) | hpair
  · obtain ⟨h2, _, hs2⟩ := newStrips_from_strip_of rows _ _ s hsmem
    obtain ⟨hp1, hp2⟩ := stripPairsOf_mem hpair
    constructor
    · simp only [realHoles, List.mem_append]
      exact Or.inl (Or.inl (strip_of_hole_sub hs2 _ hp1))
    · simp only [realHoles, List.mem_append]
      exact Or.inl (Or.inl (strip_of_hole_sub hs2 _ hp2))
  · obtain ⟨hp1, hp2⟩ := stripPairsOf_mem hpair
    constructor
    · simp only [realHoles, List.mem_append]
      exact Or.inl (Or.inr hp1)
    · simp only [realHoles, List.mem_append]
      exact Or.inl (Or.inr hp2)
  · obtain ⟨hp1, hp2⟩ := stripPairsOf_mem hpair
    constructor
    · simp only [realHoles, List.mem_append]
      exact Or.inr hp1
    · simp only [realHoles, List.mem_append]
      exact Or.inr hp2

/-! ### The union-find reached by `_init_uf` -/

theorem init_inv : UF.init.Inv := by
  refine ⟨fun x => ⟨0, rfl⟩, fun _ _ => rfl, ?_, List.nodup_nil⟩
  intro y hy
  simp [UF.init] at hy

theorem sameRoot_init {x y : Hole} :
    SameRoot UF.init.parent x y ↔ x = y := by
  constructor
  · rintro ⟨r, ⟨⟨n, hn⟩, _⟩, ⟨⟨m, hm⟩, _⟩⟩
    have hid : ∀ k z, (UF.init.parent)^[k] z = z := by
      intro k
      induction k with
      | zero => intro z; rfl
      | succ k ihk =>
          intro z
          rw [Function.iterate_succ_apply]
          exact ihk z
    rw [hid] at hn hm
    rw [hn, hm]
  · rintro rfl
    exact sameRoot_refl init_inv.1 x

theorem addAll_realHoles_spec (rows : Nat) :
    (UF.init.addAll (realHoles rows)).Inv ∧
    (∀ y, y ∈ (UF.init.addAll (realHoles rows)).elems ↔ y ∈ realHoles rows) ∧
    (∀ x y, SameRoot (UF.init.addAll (realHoles rows)).parent x y ↔ x = y) := by
  obtain ⟨hi, hm, hp⟩ := UF.addAll_spec (realHoles rows) UF.init init_inv
  refine ⟨hi, ?_, ?_⟩
  · intro y
    rw [hm y]
    simp [UF.init]
  · intro x y
    rw [sameRoot_congr (fun w r => reaches_congr_fun hp) x y]
    exact sameRoot_init

/-- After `_init_uf`, two holes share a class exactly when they are
related by the equivalence closure of the union pairs of the strips and
rails. -/
theorem init_uf_spec (rows : Nat) :
    (init_uf rows).Inv ∧
    (∀ y, y ∈ (init_uf rows).elems ↔ y ∈ realHoles rows) ∧
    (∀ x y, SameRoot (init_uf rows).parent x y ↔
      Relation.EqvGen (fun v w => (v, w) ∈ basePairs rows) x y) := by
  obtain ⟨hi0, hm0, hs0⟩ := addAll_realHoles_spec rows
  obtain ⟨hi, he, hs⟩ := applyUnions_spec (basePairs rows)
    (UF.init.addAll (realHoles rows)) hi0
    (by
      intro pr hpr
      obtain ⟨h1, h2⟩ := basePairs_mem rows pr hpr
      exact ⟨(hm0 pr.1).mpr h1, (hm0 pr.2).mpr h2⟩)
  rw [init_uf_eq rows]
  refine ⟨hi, ?_, ?_⟩
  · intro y
    rw [he]
    exact hm0 y
  · intro x y
    rw [hs x y]
    apply eqvGen_congr
    · intro v w hvw
      rcases hvw with hvw | hvw
      · rw [hs0 v w] at hvw
        rw [hvw]
        exact Relation.EqvGen.refl w
      · exact Relation.EqvGen.rel v w hvw
    · intro v w hvw
      exact Relation.EqvGen.rel v w (Or.inr hvw)

/-! ### Strip geometry helper lemmas -/

theorem strip_of_hole_self_mem {rows : Nat} {h : Hole} {s : List Hole}
    (hs : strip_of_hole rows h = some s) : h ∈ s := by
  obtain ⟨⟨hr0, hrlt⟩, hcase⟩ := strip_of_hole_cases hs
  rcases hcase with ⟨rfl, hc⟩ | ⟨rfl, hc⟩
  · rw [mem_leftStrip]
    exact ⟨rfl, hc⟩
  · rw [mem_rightStrip]
    exact ⟨rfl, hc⟩

theorem strip_of_hole_of_mem {rows : Nat} {h x : Hole} {s : List Hole}
    (hs : strip_of_hole rows h = some s) (hx : x ∈ s) :
    strip_of_hole rows x = some s := by
  obtain ⟨⟨hr0, hrlt⟩, hcase⟩ := strip_of_hole_cases hs
  rcases hcase with ⟨rfl, hc⟩ | ⟨rfl, hc⟩
  · rw [mem_leftStrip] at hx
    obtain ⟨hx1, hx2, hx3⟩ := hx
    unfold strip_of_hole
    rw [if_pos (by constructor <;> omega), if_pos (by constructor <;> omega)]
    rw [hx1]
  · rw [mem_rightStrip] at hx
    obtain ⟨hx1, hx2, hx3⟩ := hx
    unfold strip_of_hole
    rw [if_pos (by constructor <;> omega), if_neg (by omega),
      if_pos (by constructor <;> omega)]
    rw [hx1]

theorem newStrips_covers (rows : Nat) :
    ∀ (holes : List Hole) (seen : List (List Hole)) (h : Hole) (s : List Hole),
      h ∈ holes → strip_of_hole rows h = some s → ¬s.isEmpty →
      s ∈ newStrips rows holes seen ∨ s ∈ seen := by
  intro holes
  induction holes with
  | nil =>
      intro seen h s hmem
      simp at hmem
  | cons h0 rest ih =>
      intro seen h s hmem hstrip hnemp
      rcases List.mem_cons.mp hmem with rfl | hmem
      · simp only [newStrips, hstrip]
        rw [if_neg hnemp]
        by_cases hseen : s ∈ seen
        · rw [if_pos hseen]
          exact Or.inr hseen
        · rw [if_neg hseen]
          exact Or.inl (List.mem_cons_self _ _)
      · rcases hstrip0 : strip_of_hole rows h0 with _ | s0
        · simp only [newStrips, hstrip0]
          exact ih seen h s hmem hstrip hnemp
        · simp only [newStrips, hstrip0]
          by_cases hemp0 : s0.isEmpty
          · rw [if_pos hemp0]
            exact ih seen h s hmem hstrip hnemp
          · rw [if_neg hemp0]
            by_cases hseen0 : s0 ∈ seen
            · rw [if_pos hseen0]
              exact ih seen h s hmem hstrip hnemp
            · rw [if_neg hseen0]
              rcases ih (seen ++ [s0]) h s hmem hstrip hnemp with hin | hin
              · exact Or.inl (List.mem_cons_of_mem _ hin)
              · rcases List.mem_append.mp hin with hin | hin
                · exact Or.inr hin
                · rw [List.mem_singleton] at hin
                  rw [hin]
                  exact Or.inl (List.mem_cons_self _ _)

theorem eqvGen_chain {R : Hole → Hole → Prop} {s : List Hole} {b x : Hole}
    (hsub : ∀ pr ∈ stripPairsOf s, R pr.1 pr.2)
    (hhead : s.head? = some b) (hx : x ∈ s) :
    Relation.EqvGen R b x := by
  cases s with
  | nil => simp at hx
  | cons b0 rest =>
      have hb0 : b0 = b := by
        simp only [List.head?, Option.some.injEq] at hhead
        exact hhead
      subst hb0
      rcases List.mem_cons.mp hx with rfl | hx
      · exact Relation.EqvGen.refl _
      · refine Relation.EqvGen.rel _ _ (hsub (b0, x) ?_)
        simp only [stripPairsOf, List.mem_map]
        exact ⟨x, hx, rfl⟩

/-! ### The spec-side base relation for `rebuild_uf` (claim C5) -/

/-- Following the spec's words: the union of the strip relation (two
holes on the same 5-hole strip), the rail relations (both holes on V+
rails, or both on GND rails), and the wire-segment relation (consecutive
holes of any segment in any net's `seg_paths`). -/
def specBaseRel (rows : Nat) (nets : Nets) (v w : Hole) : Prop :=
  (∃ s, strip_of_hole rows v = some s ∧ strip_of_hole rows w = some s) ∨
  (v ∈ railsV rows ∧ w ∈ railsV rows) ∨
  (v ∈ railsG rows ∧ w ∈ railsG rows) ∨
  (∃ kn ∈ nets, ∃ seg ∈ kn.2.seg_paths, (v, w) ∈ segPairs seg)

theorem basePairs_closure_iff (rows : Nat) (nets : Nets) :
    ∀ x y, Relation.EqvGen
        (fun v w => (v, w) ∈ basePairs rows ∨ (v, w) ∈ allSegPairs nets) x y ↔
      Relation.EqvGen (specBaseRel rows nets) x y := by
  apply eqvGen_congr
  · intro v w hvw
    rcases hvw with hvw | hvw
    · simp only [basePairs, List.mem_append, List.mem_flatMap] at hvw
      rcases hvw with (⟨s, hsmem, hpair⟩ | hpair) | hpair
      · obtain ⟨h0, _, hs0⟩ := newStrips_from_strip_of rows _ _ s hsmem
        obtain ⟨hp1, hp2⟩ := stripPairsOf_mem hpair
        exact Relation.EqvGen.rel _ _ (Or.inl
          ⟨s, strip_of_hole_of_mem hs0 hp1, strip_of_hole_of_mem hs0 hp2⟩)
      · obtain ⟨hp1, hp2⟩ := stripPairsOf_mem hpair
        exact Relation.EqvGen.rel _ _ (Or.inr (Or.inl ⟨hp1, hp2⟩))
      · obtain ⟨hp1, hp2⟩ := stripPairsOf_mem hpair
        exact Relation.EqvGen.rel _ _ (Or.inr (Or.inr (Or.inl ⟨hp1, hp2⟩)))
    · simp only [allSegPairs, List.mem_flatMap] at hvw
      obtain ⟨kn, hkn, seg, hseg, hpr⟩ := hvw
      exact Relation.EqvGen.rel _ _
        (Or.inr (Or.inr (Or.inr ⟨kn, hkn, seg, hseg, hpr⟩)))
  · intro v w hvw
    rcases hvw with ⟨s, hv, hw⟩ | ⟨hv, hw⟩ | ⟨hv, hw⟩ | ⟨kn, hkn, seg, hseg, hpr⟩
    · have hvmem : v ∈ s := strip_of_hole_self_mem hv
      have hwmem : w ∈ s := strip_of_hole_self_mem hw
      have hnemp : ¬s.isEmpty := by
        intro hcon
        rw [List.isEmpty_iff] at hcon
        rw [hcon] at hvmem
        simp at hvmem
      have hvb : v ∈ boardHoles rows := strip_of_hole_sub hv v hvmem
      have hsmem : s ∈ newStrips rows (boardHoles rows) [] := by
        rcases newStrips_covers rows (boardHoles rows) [] v s hvb hv hnemp
          with hh | hh
        · exact hh
        · simp at hh
      have hsub : ∀ pr ∈ stripPairsOf s,
          (pr.1, pr.2) ∈ basePairs rows ∨ (pr.1, pr.2) ∈ allSegPairs nets := by
        intro pr hpr
        left
        simp only [basePairs, List.mem_append, List.mem_flatMap]
        exact Or.inl (Or.inl ⟨s, hsmem, hpr⟩)
      obtain ⟨b, hb⟩ : ∃ b, s.head? = some b := by
        cases s with
        | nil => simp at hnemp
        | cons c cs => exact ⟨c, rfl⟩
      have h1 := eqvGen_chain (R := fun v w =>
        (v, w) ∈ basePairs rows ∨ (v, w) ∈ allSegPairs nets) hsub hb hvmem
      have h2 := eqvGen_chain (R := fun v w =>
        (v, w) ∈ basePairs rows ∨ (v, w) ∈ allSegPairs nets) hsub hb hwmem
      exact Relation.EqvGen.trans _ _ _ (Relation.EqvGen.symm _ _ h1) h2
    · have hnil : railsV rows ≠ [] := List.ne_nil_of_mem hv
      have hsub : ∀ pr ∈ stripPairsOf (railsV rows),
          (pr.1, pr.2) ∈ basePairs rows ∨ (pr.1, pr.2) ∈ allSegPairs nets := by
        intro pr hpr
        left
        simp only [basePairs, List.mem_append]
        exact Or.inl (Or.inr hpr)
      obtain ⟨b, hb⟩ : ∃ b, (railsV rows).head? = some b := by
        cases hrv : railsV rows with
        | nil => exact absurd hrv hnil
        | cons c cs => exact ⟨c, rfl⟩
      have h1 := eqvGen_chain (R := fun v w =>
        (v, w) ∈ basePairs rows ∨ (v, w) ∈ allSegPairs nets) hsub hb hv
      have h2 := eqvGen_chain (R := fun v w =>
        (v, w) ∈ basePairs rows ∨ (v, w) ∈ allSegPairs nets) hsub hb hw
      exact Relation.EqvGen.trans _ _ _ (Relation.EqvGen.symm _ _ h1) h2
    · have hnil : railsG rows ≠ [] := List.ne_nil_of_mem hv
      have hsub : ∀ pr ∈ stripPairsOf (railsG rows),
          (pr.1, pr.2) ∈ basePairs rows ∨ (pr.1, pr.2) ∈ allSegPairs nets := by
        intro pr hpr
        left
        simp only [basePairs, List.mem_append]
        exact Or.inr hpr
      obtain ⟨b, hb⟩ : ∃ b, (railsG rows).head? = some b := by
        cases hrv : railsG rows with
        | nil => exact absurd hrv hnil
        | cons c cs => exact ⟨c, rfl⟩
      have h1 := eqvGen_chain (R := fun v w =>
        (v, w) ∈ basePairs rows ∨ (v, w) ∈ allSegPairs nets) hsub hb hv
      have h2 := eqvGen_chain (R := fun v w =>
        (v, w) ∈ basePairs rows ∨ (v, w) ∈ allSegPairs nets) hsub hb hw
      exact Relation.EqvGen.trans _ _ _ (Relation.EqvGen.symm _ _ h1) h2
    · refine Relation.EqvGen.rel _ _ (Or.inr ?_)
      simp only [allSegPairs, List.mem_flatMap]
      exact ⟨kn, hkn, seg, hseg, hpr⟩

/-! ### Specification of `rebuild_union_find` -/

theorem allSegPairs_mem_real {rows : Nat} {nets : Nets}
    (hsegs : ∀ kn ∈ nets, ∀ seg ∈ kn.2.seg_paths, ∀ h ∈ seg,
      h ∈ realHoles rows) :
    ∀ pr ∈ allSegPairs nets, pr.1 ∈ realHoles rows ∧ pr.2 ∈ realHoles rows := by
  intro pr hpr
  simp only [allSegPairs, List.mem_flatMap] at hpr
  obtain ⟨kn, hkn, seg, hseg, hpr2⟩ := hpr
  obtain ⟨a, b⟩ := pr
  obtain ⟨ha, hb⟩ := List.of_mem_zip hpr2
  exact ⟨hsegs kn hkn seg hseg a ha,
    hsegs kn hkn seg hseg b (List.mem_of_mem_tail hb)⟩

theorem rebuild_union_find_spec (bb : Breadboard) (nets : Nets)
    (hsegs : ∀ kn ∈ nets, ∀ seg ∈ kn.2.seg_paths, ∀ h ∈ seg,
      h ∈ realHoles bb.rows) :
    (bb.rebuild_union_find nets).uf.Inv ∧
    (∀ y, y ∈ (bb.rebuild_union_find nets).uf.elems ↔ y ∈ realHoles bb.rows) ∧
    (∀ x y, SameRoot (bb.rebuild_union_find nets).uf.parent x y ↔
      Relation.EqvGen (specBaseRel bb.rows nets) x y) := by
  obtain ⟨hi0, hm0, hs0⟩ := init_uf_spec bb.rows
  obtain ⟨hi, he, hs⟩ := applyUnions_spec (allSegPairs nets) (init_uf bb.rows)
    hi0
    (by
      intro pr hpr
      obtain ⟨h1, h2⟩ := allSegPairs_mem_real hsegs pr hpr
      exact ⟨(hm0 pr.1).mpr h1, (hm0 pr.2).mpr h2⟩)
  have hval : (bb.rebuild_union_find nets).uf
      = applyUnions (init_uf bb.rows) (allSegPairs nets) := rfl
  rw [hval]
  refine ⟨hi, ?_, ?_⟩
  · intro y
    rw [he]
    exact hm0 y
  · intro x y
    rw [hs x y]
    rw [← basePairs_closure_iff bb.rows nets x y]
    apply eqvGen_congr
    · intro v w hvw
      rcases hvw with hvw | hvw
      · rw [hs0 v w] at hvw
        exact eqvGen_le (fun c d hcd => Relation.EqvGen.rel c d (Or.inl hcd))
          v w hvw
      · exact Relation.EqvGen.rel v w (Or.inr hvw)
    · intro v w hvw
      rcases hvw with hvw | hvw
      · exact Relation.EqvGen.rel v w (Or.inl ((hs0 v w).mpr
          (Relation.EqvGen.rel v w hvw)))
      · exact Relation.EqvGen.rel v w (Or.inr hvw)

/-! ## Components and the place-and-route engine (classes `Passive`, `PnR`)

Mutable `Passive`/`Net` objects become values threaded through an
explicit `PnRSt` state.  Components are identified by `name` (as the
source itself does in `pin_of_comp`); the dynamic placement fields
(`anchor`, `body`, `pins`) live in the name-keyed map `compDyn`. -/

structure Passive where
  name : String
  length : Nat
  orientation : String
  net_a : String
  net_b : String
deriving DecidableEq, Repr

/-- A placement candidate `(anchor_hole, body, pins)` as produced by
`legal_placements`. -/
abbrev Placement := Hole × List Hole × List Hole

structure PnRSt where
  bb : Breadboard
  nets : Nets
  compDyn : String → Option Placement
  pin_of_comp : String → Option (Hole × Hole)
  seg_id_ctr : Nat
  max_segments : Nat

/-- `self.nets.get(name)` (keys are unique, as in a Python dict). -/
def getNet (nets : Nets) (name : String) : Option Net :=
  (nets.find? (fun kn => kn.1 == name)).map (fun kn => kn.2)

/-- Mutate the net stored under `name`. -/
def setNet (nets : Nets) (name : String) (n : Net) : Nets :=
  nets.map (fun kn => if kn.1 == name then (kn.1, n) else kn)

/-- `holes_along_edge`: all real holes on the straight line of an edge,
endpoints included. -/
def holes_along_edge (bb : Breadboard) (edge : Hole × Hole) : List Hole :=
  let r1 := edge.1.1
  let c1 := edge.1.2
  let dr := edge.2.1 - r1
  let dc := edge.2.2 - c1
  let len := max dr.natAbs dc.natAbs
  let step : Int × Int :=
    if dr ≠ 0 then (if dr > 0 then (1, 0) else (-1, 0))
    else (0, if dc > 0 then 1 else -1)
  (List.range (len + 1)).filterMap (fun i =>
    let hole : Hole := (r1 + step.1 * Int.ofNat i, c1 + step.2 * Int.ofNat i)
    if (bb.occ hole).isSome then some hole else none)

/-- The per-hole rail check of `commit_path`: rails may only appear at
(list) endpoints, must match the polarity of a rail net, and internal
nets must not touch rails at all. -/
def railCheckHole (bb : Breadboard) (netName : String) (len : Nat)
    (idx : Nat) (h : Hole) : Bool :=
  match rail_of_hole bb.rows h with
  | none => true
  | some rk =>
      if idx = 0 ∨ idx = len - 1 then
        if netName = "V+" ∨ netName = "GND" then rk == netName
        else false
      else false

/-- Validation phase of `commit_path` for a single edge: alignment, the
rail checks, and emptiness of every real hole on the edge. -/
def validate_edge (bb : Breadboard) (netName : String) (edge : Hole × Hole) :
    Option (List Hole) :=
  if edge.1.1 = edge.2.1 ∨ edge.1.2 = edge.2.2 then
    let holes := holes_along_edge bb edge
    if holes.enum.all (fun pr => railCheckHole bb netName holes.length pr.1 pr.2)
    then
      if holes.all (fun h => bb.occ h == some OccT.empty) then some holes
      else none
    else none
  else none

/-- Validation phase of `commit_path` over the whole edge list (the
first loop of the source, which builds `seg_holes_all` or returns
`False`). -/
def validate_edges (bb : Breadboard) (netName : String) :
    List (Hole × Hole) → Option (List (List Hole))
  | [] => some []
  | e :: rest =>
      match validate_edge bb netName e with
      | none => none
      | some holes =>
          match validate_edges bb netName rest with
          | none => none
          | some hs => some (holes :: hs)

/-- Append a committed segment to the net's `seg_paths`. -/
def appendSeg (nets : Nets) (key : String) (holes : List Hole) : Nets :=
  match getNet nets key with
  | none => nets
  | some net =>
      setNet nets key { net with seg_paths := net.seg_paths ++ [holes] }

/-- The rollback of `commit_path`: release and pop the LAST
`min(k, len(seg_paths))` segments of the net
(`net.seg_paths[-len(seg_holes_all):]` in the source — note this can
reach segments committed before the call). -/
def rollbackSegs (key : String) (k : Nat) (st : PnRSt) : PnRSt :=
  match getNet st.nets key with
  | none => st
  | some net =>
      let l := net.seg_paths
      let keep := l.length - k
      let bb2 := (l.drop keep).foldl
        (fun b seg => b.release_wire_segment seg) st.bb
      let nets2 := setNet st.nets key { net with seg_paths := l.take keep }
      { st with bb := bb2, nets := nets2 }

/-- Claim phase of `commit_path`: claim each validated segment, append
it to `seg_paths`, union its consecutive holes; on a failed claim, roll
back and fail. -/
def commit_claim_loop (key : String) (k : Nat) :
    PnRSt → List (List Hole) → Bool × PnRSt
  | st, [] => (true, st)
  | st, holes :: rest =>
      let segId := "seg" ++ toString st.seg_id_ctr
      let st1 := { st with seg_id_ctr := st.seg_id_ctr + 1 }
      let res := st1.bb.claim_wire_segment segId holes
      if res.1 then
        let bb3 := { res.2 with uf := applyUnions res.2.uf (segPairs holes) }
        let st2 := { st1 with bb := bb3, nets := appendSeg st1.nets key holes }
        commit_claim_loop key k st2 rest
      else (false, rollbackSegs key k { st1 with bb := res.2 })

/-- `commit_path(net, path_edges)`. -/
def commit_path (st : PnRSt) (key : String)
    (path_edges : List (Hole × Hole)) : Bool × PnRSt :=
  if path_edges.isEmpty then (false, st)
  else
    match getNet st.nets key with
    | none => (false, st)
    | some net =>
        match validate_edges st.bb net.name path_edges with
        | none => (false, st)
        | some seg_holes_all =>
            commit_claim_loop key seg_holes_all.length st seg_holes_all

/-- `release_net_wires`. -/
def release_net_wires (st : PnRSt) (key : String) : PnRSt :=
  match getNet st.nets key with
  | none => st
  | some net =>
      let bb2 := net.seg_paths.foldl
        (fun b seg => b.release_wire_segment seg) st.bb
      let nets2 := setNet st.nets key { net with seg_paths := [] }
      { st with bb := bb2, nets := nets2 }

/-- `reps.add(r)` for the Python set of representatives. -/
def addRep (reps : List Hole) (r : Hole) : List Hole :=
  if r ∈ reps then reps else reps ++ [r]

/-- Loop body of `net_satisfied`'s representative collection:
`rep, uf = uf.find(t)`, `reps.add(rep)`. -/
def repStep (acc : List Hole × UF) (t : Hole) : List Hole × UF :=
  let f := acc.2.find t
  (addRep acc.1 f.1, f.2)

/-- The fixed-anchor loop body: skip anchors with an empty hole set,
otherwise process the first hole of the set. -/
def anchorStep (bb : Breadboard) (acc : List Hole × UF) (anchor : String) :
    List Hole × UF :=
  match bb.hole_set_for_net_anchor anchor with
  | [] => acc
  | h :: _ => repStep acc h

/-- `net_satisfied`: all terminals and one hole per fixed anchor share a
representative.  The `find` calls thread the mutated union-find. -/
def net_satisfied (st : PnRSt) (key : String) : Bool × PnRSt :=
  match getNet st.nets key with
  | none => (false, st)
  | some net =>
      let step1 := net.terms.foldl repStep ([], st.bb.uf)
      let step2 := net.fixed_anchors.foldl (anchorStep st.bb) step1
      (step2.1.length == 1, { st with bb := { st.bb with uf := step2.2 } })

/-- `_aligned`. -/
def alignedB (a b : Hole) : Bool := a.1 == b.1 || a.2 == b.2

/-- `_length_ok`: aligned and at an allowed wire length. -/
def length_ok (bb : Breadboard) (a b : Hole) : Bool :=
  alignedB a b &&
    bb.wire_lengths.contains ((a.1 - b.1).natAbs + (a.2 - b.2).natAbs)

/-- The scan of the sorted pair list in `find_straight_edge`. -/
def firstValidEdge (bb : Breadboard) :
    List (Nat × Hole × Hole) → Option (List (Hole × Hole))
  | [] => none
  | (_, s, d) :: rest =>
      if length_ok bb s d then
        if (holes_along_edge bb (s, d)).all
            (fun h => bb.occ h == some OccT.empty) then some [(s, d)]
        else firstValidEdge bb rest
      else firstValidEdge bb rest

/-- `find_straight_edge`: aligned frontier pairs sorted by length,
first all-empty edge wins. -/
def find_straight_edge (bb : Breadboard)
    (src_frontier dst_frontier : List Hole) :
    Option (List (Hole × Hole)) :=
  let pairs := src_frontier.flatMap (fun s =>
    dst_frontier.filterMap (fun d =>
      if alignedB s d then
        some ((s.1 - d.1).natAbs + (s.2 - d.2).natAbs, s, d)
      else none))
  if pairs.isEmpty then none
  else firstValidEdge bb (stableSort (fun x y => x.1 ≤ y.1) pairs)

/-- The four cardinal directions used by the BFS. -/
def dirs : List (Int × Int) := [(0, 1), (0, -1), (1, 0), (-1, 0)]

/-- Neighbour list in the BFS segment graph `g`: for each allowed length
and direction, the end hole if it is a real hole and empty. -/
def segNeighbors (bb : Breadboard) (h : Hole) : List Hole :=
  bb.wire_lengths.flatMap (fun L =>
    dirs.filterMap (fun d =>
      let neighbor : Hole := (h.1 + d.1 * Int.ofNat L, h.2 + d.2 * Int.ofNat L)
      if (bb.occ neighbor).isSome && bb.occ neighbor == some OccT.empty then
        some neighbor
      else none))

/-- `g.get(u, [])`: nodes of `g` are the empty real holes. -/
def gNeighbors (bb : Breadboard) (u : Hole) : List Hole :=
  if bb.occ u == some OccT.empty then segNeighbors bb u else []

def seenHas (seen : List (Hole × Option Hole)) (v : Hole) : Bool :=
  (seen.find? (fun pr => pr.1 == v)).isSome

/-- Queue initialisation of the BFS. -/
def bfsInit (bb : Breadboard) (src : List Hole) :
    List Hole × List (Hole × Option Hole) :=
  src.foldl (fun (acc : List Hole × List (Hole × Option Hole)) s =>
    if bb.occ s == some OccT.empty then
      (acc.1 ++ [s], acc.2 ++ [(s, none)])
    else acc) ([], [])

/-- The BFS loop; the fuel is the remaining visit budget (`max_visit`),
so running out of fuel is exactly `visits > max_visit` in the source. -/
def bfsLoop (bb : Breadboard) (dst_set : List Hole) :
    Nat → List Hole → List (Hole × Option Hole) →
      Option Hole × List (Hole × Option Hole)
  | _, [], seen => (none, seen)
  | 0, _ :: _, seen => (none, seen)
  | fuel + 1, u :: q, seen =>
      if u ∈ dst_set then (some u, seen)
      else
        let acc := (gNeighbors bb u).foldl
          (fun (acc : List Hole × List (Hole × Option Hole)) v =>
            if seenHas acc.2 v then acc
            else (acc.1 ++ [v], acc.2 ++ [(v, some u)])) (q, seen)
        bfsLoop bb dst_set fuel acc.1 acc.2

/-- Path reconstruction through the `seen` predecessor map (fuelled; the
predecessor chains built by the BFS are acyclic and shorter than
`seen`). -/
def reconstructPath (seen : List (Hole × Option Hole)) :
    Nat → Hole → List Hole
  | 0, cur => [cur]
  | fuel + 1, cur =>
      match (seen.find? (fun pr => pr.1 == cur)).map (fun pr => pr.2) with
      | some (some prev) => cur :: reconstructPath seen fuel prev
      | _ => [cur]

/-- `shortest_path_by_segments` with `max_visit = 2000`. -/
def shortest_path_by_segments (bb : Breadboard)
    (src_frontier dst_frontier : List Hole) :
    Option (List (Hole × Hole)) :=
  let ini := bfsInit bb src_frontier
  let dst_set := dst_frontier.filter (fun d => bb.occ d == some OccT.empty)
  let res := bfsLoop bb dst_set 2000 ini.1 ini.2
  match res.1 with
  | none => none
  | some target =>
      let path := (reconstructPath res.2 res.2.length target).reverse
      some (segPairs path)

/-- `find_path_edges`. -/
def find_path_edges (bb : Breadboard)
    (src_frontier dst_frontier : List Hole) :
    Option (List (Hole × Hole)) :=
  if src_frontier.any (fun s => s ∈ dst_frontier) then some []
  else
    match find_straight_edge bb src_frontier dst_frontier with
    | some e => some e
    | none => shortest_path_by_segments bb src_frontier dst_frontier

/-- Insert a terminal into its `rep_groups` bucket (a `defaultdict(list)`
keyed by representative, in insertion order). -/
def addGroup (groups : List (Hole × List Hole)) (r : Hole) (t : Hole) :
    List (Hole × List Hole) :=
  if groups.any (fun g => g.1 == r) then
    groups.map (fun g => if g.1 == r then (g.1, g.2 ++ [t]) else g)
  else groups ++ [(r, [t])]

/-- `self.bb.rebuild_union_find(self.nets)` run as a statement on the
threaded state. -/
def rebuildSt (st : PnRSt) : PnRSt :=
  { st with bb := st.bb.rebuild_union_find st.nets }

/-- Write back the union-find threaded through `find` calls. -/
def withUF (st : PnRSt) (u : UF) : PnRSt :=
  { st with bb := { st.bb with uf := u } }

/-- The per-group routing loop of `route_net`. -/
def routeGroups : PnRSt → String → List Hole → List (List Hole) →
    Bool × PnRSt
  | st, key, _, [] => net_satisfied st key
  | st, key, base_group, group :: rest =>
      let src_frontier := base_group.flatMap
        (fun h => st.bb.frontier_of_hole h)
      let dst_frontier := group.flatMap (fun h => st.bb.frontier_of_hole h)
      if src_frontier.isEmpty || dst_frontier.isEmpty then
        (false, release_net_wires st key)
      else
        match find_path_edges st.bb src_frontier dst_frontier with
        | none => (false, release_net_wires st key)
        | some [] =>
            routeGroups (rebuildSt st) key (base_group ++ group) rest
        | some path =>
            let res := commit_path st key path
            if res.1 then
              routeGroups (rebuildSt res.2) key (base_group ++ group) rest
            else (false, release_net_wires res.2 key)

/-- Loop body of `route_net`'s group construction. -/
def groupStep (acc : List (Hole × List Hole) × UF) (t : Hole) :
    List (Hole × List Hole) × UF :=
  let f := acc.2.find t
  (addGroup acc.1 f.1 t, f.2)

def groupAnchorStep (bb : Breadboard) (acc : List (Hole × List Hole) × UF)
    (anchor : String) : List (Hole × List Hole) × UF :=
  match bb.hole_set_for_net_anchor anchor with
  | [] => acc
  | h :: _ => groupStep acc h

/-- The representative-keyed grouping of a net's terminals and anchor
heads (`route_net`'s `groups` dictionary construction). -/
def netGroupsFold (bb : Breadboard) (net : Net) :
    List (Hole × List Hole) × UF :=
  net.fixed_anchors.foldl (groupAnchorStep bb)
    (net.terms.foldl groupStep ([], bb.uf))

/-- The grouping-and-routing part of `route_net`, entered when the net
is not already satisfied. -/
def route_net_groups (st : PnRSt) (key : String) : Bool × PnRSt :=
  match getNet st.nets key with
  | none => (false, st)
  | some net =>
      let g2 := netGroupsFold st.bb net
      let st2 := withUF st g2.2
      let groups := g2.1.map (fun g => g.2)
      if groups.length ≤ 1 then (true, st2)
      else
        match groups with
        | [] => (true, st2)
        | base :: rest => routeGroups st2 key base rest

/-- `route_net`. -/
def route_net (st0 : PnRSt) (key : String) : Bool × PnRSt :=
  let sat := net_satisfied (rebuildSt st0) key
  if sat.1 then (true, sat.2)
  else route_net_groups sat.2 key

/-- Inner terminal loop of `shorts_exist` (compare `rep_a` against the
representatives of the other net's terminals). -/
def shortsCheckB (rep_a : Hole) : UF → List Hole → Bool × UF
  | u, [] => (false, u)
  | u, b :: bs =>
      let f := u.find b
      if rep_a == f.1 then (true, f.2)
      else shortsCheckB rep_a f.2 bs

def shortsCheckA (termsJ : List Hole) : UF → List Hole → Bool × UF
  | u, [] => (false, u)
  | u, a :: as2 =>
      let f := u.find a
      let r := shortsCheckB f.1 f.2 termsJ
      if r.1 then (true, r.2)
      else shortsCheckA termsJ r.2 as2

def allPairs : List String → List (String × String)
  | [] => []
  | n :: rest => rest.map (fun m => (n, m)) ++ allPairs rest

/-- `net.terms` of the net stored under a key (`[]` when absent). -/
def termsOf (nets : Nets) (k : String) : List Hole :=
  match getNet nets k with
  | some n => n.terms
  | none => []

def shortsPairs (nets : Nets) : UF → List (String × String) → Bool × UF
  | u, [] => (false, u)
  | u, (ni, nj) :: rest =>
      let r := shortsCheckA (termsOf nets nj) u (termsOf nets ni)
      if r.1 then (true, r.2)
      else shortsPairs nets r.2 rest

/-- `shorts_exist`: some two distinct nets with terminals share a
representative. -/
def shorts_exist (st : PnRSt) : Bool × PnRSt :=
  let names := (st.nets.filter (fun kn => ¬kn.2.terms.isEmpty)).map
    (fun kn => kn.1)
  let r := shortsPairs st.nets st.bb.uf (allPairs names)
  (r.1, { st with bb := { st.bb with uf := r.2 } })

/-! ### Placement -/

/-- `Passive.legal_placements`.  (The source iterates the Python set
`bb.holes`, whose order is unspecified; we fix row-major order.) -/
def legal_placements (comp : Passive) (bb : Breadboard) : List Placement :=
  let step : Int × Int := if comp.orientation = "h" then (0, 1) else (1, 0)
  (boardHoles bb.rows).filterMap (fun hole =>
    let r := hole.1
    let c := hole.2
    let endH : Hole := (r + step.1 * ((comp.length : Int) - 1),
      c + step.2 * ((comp.length : Int) - 1))
    if (bb.occ endH).isSome then
      let body := (List.range comp.length).map (fun i =>
        (r + step.1 * Int.ofNat i, c + step.2 * Int.ofNat i))
      let sideL := body.all (fun x => x.2 < 5)
      let sideR := body.all (fun x => x.2 > 6)
      if sideL || sideR then
        let pins := [body.headD (0, 0), body.getLastD (0, 0)]
        let free_ok := fun (st : Option (List Hole)) =>
          match st with
          | none => true
          | some s =>
              if s.isEmpty then true
              else 1 ≤ s.countP (fun h2 =>
                bb.occ h2 == some OccT.empty && decide (h2 ∉ pins))
        if free_ok (strip_of_hole bb.rows (pins.getD 0 (0, 0))) &&
            free_ok (strip_of_hole bb.rows (pins.getD 1 (0, 0))) then
          some (hole, body, pins)
        else none
      else none
    else none)

/-- `dist_to_rail` inside `placement_score`: distance to the closest
rail column of the given polarity. -/
def dist_to_rail (hole : Hole) (which : String) : Nat :=
  if which = "V+" then
    min (hole.2 - leftRailCols.1).natAbs (hole.2 - rightRailCols.1).natAbs
  else
    min (hole.2 - leftRailCols.2).natAbs (hole.2 - rightRailCols.2).natAbs

def manhattan (a b : Hole) : Nat :=
  (a.1 - b.1).natAbs + (a.2 - b.2).natAbs

def minTermDist (pin : Hole) (terms : List Hole) : Nat :=
  match terms with
  | [] => 0
  | t :: ts => ts.foldl (fun m t2 => min m (manhattan pin t2)) (manhattan pin t)

/-- Contribution of one pin to `placement_score` (the two symmetric
`if comp.net_x in ("V+","GND")` blocks of the source).  Python's float
`0.3` is modelled as the rational `3/10`. -/
def pinScore (nets : Nets) (pin : Hole) (netName : String) : ℚ :=
  if netName = "V+" ∨ netName = "GND" then
    (3 / 10 : ℚ) * (dist_to_rail pin netName : ℚ)
  else
    match getNet nets netName with
    | none => 0
    | some net =>
        if net.terms.isEmpty then 0 else (minTermDist pin net.terms : ℚ)

/-- `placement_score`: lower is better. -/
def placement_score (st : PnRSt) (comp : Passive) (placement : Placement) :
    ℚ :=
  let pin_a := placement.2.2.getD 0 (0, 0)
  let pin_b := placement.2.2.getD 1 (0, 0)
  pinScore st.nets pin_a comp.net_a + pinScore st.nets pin_b comp.net_b

/-- `try_place_component`. -/
def try_place_component (st : PnRSt) (comp : Passive)
    (placement : Placement) : Bool × PnRSt :=
  let res := st.bb.claim_component comp.name placement.2.1 placement.2.2
  if res.1 then
    let pinpair : Hole × Hole :=
      (placement.2.2.getD 0 (0, 0), placement.2.2.getD 1 (0, 0))
    let dyn2 := fun n => if n = comp.name then some placement
      else st.compDyn n
    let poc2 := fun n => if n = comp.name then some pinpair
      else st.pin_of_comp n
    (true, { st with bb := res.2, compDyn := dyn2, pin_of_comp := poc2 })
  else (false, st)

/-- `undo_place_component`. -/
def undo_place_component (st : PnRSt) (comp : Passive) : PnRSt :=
  let bb2 := match st.compDyn comp.name with
    | some pl => if pl.2.1.isEmpty then st.bb
        else st.bb.release_component pl.2.1 pl.2.2
    | none => st.bb
  let dyn2 : String → Option Placement :=
    fun n => if n = comp.name then none else st.compDyn n
  let poc2 : String → Option (Hole × Hole) :=
    fun n => if n = comp.name then none else st.pin_of_comp n
  { st with bb := bb2, compDyn := dyn2, pin_of_comp := poc2 }

/-- `strip_has_other_net` inside `forward_check`. -/
def strip_has_other_net (bb : Breadboard) (nets : Nets)
    (strip : Option (List Hole)) (intended : String) : Bool :=
  match strip with
  | none => false
  | some s =>
      if s.isEmpty then false
      else nets.any (fun kn =>
        if kn.1 == intended then false
        else kn.2.terms.any (fun t =>
          decide (strip_of_hole bb.rows t = some s)))

/-- `target_frontier` inside `forward_check`. -/
def target_frontier (bb : Breadboard) (nets : Nets) (net_name : String) :
    List Hole :=
  if net_name = "V+" then bb.frontier_of_anchor "V+"
  else if net_name = "GND" then bb.frontier_of_anchor "GND"
  else
    match getNet nets net_name with
    | none => []
    | some net => net.terms.flatMap (fun t => bb.frontier_of_hole t)

/-- Truthiness of a strip value (`if not strip` in Python: `None` or an
empty tuple). -/
def truthyStrip (o : Option (List Hole)) : Bool :=
  match o with
  | none => false
  | some l => ¬l.isEmpty

/-- `forward_check`: strip conditions plus one straight-jumper
reachability test per pin.  (Note: the source checks only
`find_straight_edge`; `self.max_segments` is never consulted.) -/
def forward_check (st : PnRSt) (comp : Passive) (placement : Placement) :
    Bool :=
  let pin_a := placement.2.2.getD 0 (0, 0)
  let pin_b := placement.2.2.getD 1 (0, 0)
  let strip_a := strip_of_hole st.bb.rows pin_a
  let strip_b := strip_of_hole st.bb.rows pin_b
  if truthyStrip strip_a && truthyStrip strip_b && strip_a == strip_b &&
      ¬(comp.net_a == comp.net_b) then false
  else if strip_has_other_net st.bb st.nets strip_a comp.net_a then false
  else if strip_has_other_net st.bb st.nets strip_b comp.net_b then false
  else
    let src_a := st.bb.frontier_of_hole pin_a
    let src_b := st.bb.frontier_of_hole pin_b
    let dst_a := target_frontier st.bb st.nets comp.net_a
    let dst_b := target_frontier st.bb st.nets comp.net_b
    let edge_a := if ¬dst_a.isEmpty then
        find_straight_edge st.bb src_a dst_a
      else none
    let edge_b := if ¬dst_b.isEmpty then
        find_straight_edge st.bb src_b dst_b
      else none
    (dst_a.isEmpty || edge_a.isSome) && (dst_b.isEmpty || edge_b.isSome)

/-- `order_components` key: `(-rail_weight, -length, name)` ascending. -/
def rail_weight (c : Passive) : Nat :=
  (if c.net_a = "V+" ∨ c.net_a = "GND" then 1 else 0) +
  (if c.net_b = "V+" ∨ c.net_b = "GND" then 1 else 0)

def order_key_le (c1 c2 : Passive) : Bool :=
  if rail_weight c1 ≠ rail_weight c2 then rail_weight c2 < rail_weight c1
  else if c1.length ≠ c2.length then c2.length < c1.length
  else c1.name ≤ c2.name

def order_components (comps : List Passive) : List Passive :=
  stableSort order_key_le comps

/-! ### The backtracking search and the main entry point -/

/-- `bind_pins` closure of `place_and_route`. -/
def bind_pins (st : PnRSt) (comp : Passive) : PnRSt :=
  match st.pin_of_comp comp.name with
  | none => st
  | some pins =>
      let nets1 := match getNet st.nets comp.net_a with
        | none => st.nets
        | some net =>
            setNet st.nets comp.net_a
              { net with terms := net.terms ++ [pins.1] }
      let nets2 := match getNet nets1 comp.net_b with
        | none => nets1
        | some net =>
            setNet nets1 comp.net_b
              { net with terms := net.terms ++ [pins.2] }
      { st with nets := nets2 }

/-- The pin-removal block at the bottom of the candidate loop of
`_place_rec` (`net.terms.remove(hole)` removes the first occurrence). -/
def unbind_pins (st : PnRSt) (comp : Passive) : PnRSt :=
  match st.pin_of_comp comp.name with
  | none => st
  | some pins =>
      let nets1 := match getNet st.nets comp.net_a with
        | none => st.nets
        | some net =>
            setNet st.nets comp.net_a
              { net with terms := net.terms.erase pins.1 }
      let nets2 := match getNet nets1 comp.net_b with
        | none => nets1
        | some net =>
            setNet nets1 comp.net_b
              { net with terms := net.terms.erase pins.2 }
      { st with nets := nets2 }

/-- The initial wire-release loop of the `_place_rec` base case. -/
def releaseAllNets (st : PnRSt) : PnRSt :=
  (st.nets.map (fun kn => kn.1)).foldl
    (fun s k => release_net_wires s k) st

/-- `for net in self.nets.values(): if not route_net(net): return False`. -/
def routeLoop : PnRSt → List String → Bool × PnRSt
  | st, [] => (true, st)
  | st, k :: ks =>
      let r := route_net st k
      if r.1 then routeLoop r.2 ks else (false, r.2)

/-- Base case of `_place_rec`: release all wires, rebuild the union-find,
route every net, then check for shorts. -/
def routeAllAndCheck (st0 : PnRSt) : Bool × PnRSt :=
  let st2 := rebuildSt (releaseAllNets st0)
  let r := routeLoop st2 (st2.nets.map (fun kn => kn.1))
  if r.1 then
    let sh := shorts_exist r.2
    if sh.1 then (false, sh.2) else (true, sh.2)
  else (false, r.2)

mutual

/-- `_place_rec`: recursive backtracking over component placements.  The
candidate list is score-sorted and truncated to the top `K = 80`. -/
def place_rec : PnRSt → List Passive → Bool × PnRSt
  | st, [] => routeAllAndCheck st
  | st, comp :: rest =>
      let candidates := (stableSort
        (fun p q => placement_score st comp p ≤ placement_score st comp q)
        (legal_placements comp st.bb)).take 80
      tryCandidates st comp rest candidates

/-- The candidate loop of `_place_rec`. -/
def tryCandidates : PnRSt → Passive → List Passive → List Placement →
    Bool × PnRSt
  | st, _, _, [] => (false, st)
  | st, comp, rest, placement :: more =>
      let tp := try_place_component st comp placement
      if tp.1 then
        let st1 := bind_pins tp.2 comp
        if forward_check st1 comp placement then
          let r := place_rec st1 rest
          if r.1 then (true, r.2)
          else
            let st2 := undo_place_component (unbind_pins r.2 comp) comp
            tryCandidates st2 comp rest more
        else
          let st2 := undo_place_component (unbind_pins st1 comp) comp
          tryCandidates st2 comp rest more
      else tryCandidates tp.2 comp rest more

end

/-- Attach nets from the binding map (`comp.net_a, comp.net_b = ...`). -/
def bindComps (comps : List Passive)
    (net_bindings : String → String × String) : List Passive :=
  comps.map (fun c =>
    { c with net_a := (net_bindings c.name).1,
             net_b := (net_bindings c.name).2 })

/-- Create the special rail nets if they are referenced anywhere. -/
def ensureRailNets (nets : Nets) (comps : List Passive) : Nets :=
  let rails_used := comps.foldl (fun (acc : List String) c =>
    let acc := if (c.net_a = "V+" ∨ c.net_a = "GND") ∧ c.net_a ∉ acc then
        acc ++ [c.net_a]
      else acc
    if (c.net_b = "V+" ∨ c.net_b = "GND") ∧ c.net_b ∉ acc then
      acc ++ [c.net_b]
    else acc) []
  rails_used.foldl (fun ns rail =>
    if (getNet ns rail).isSome then ns
    else ns ++ [(rail,
      { name := rail, terms := [], fixed_anchors := [rail],
        seg_paths := [] })]) nets

/-- `place_and_route`: bind components to nets, create rail nets, clear
all net state, and run the backtracking search over the ordered
component list. -/
def place_and_route (bb : Breadboard) (nets0 : Nets)
    (comps0 : List Passive) (net_bindings : String → String × String)
    (max_segments : Nat) : Bool × PnRSt :=
  let comps := bindComps comps0 net_bindings
  let nets1 := ensureRailNets nets0 comps
  let nets2 := nets1.map (fun kn =>
    (kn.1, { kn.2 with terms := [], seg_paths := [] }))
  let st : PnRSt :=
    { bb := bb, nets := nets2, compDyn := fun _ => none,
      pin_of_comp := fun _ => none, seg_id_ctr := 1,
      max_segments := max 1 max_segments }
  place_rec st (order_components comps)

/-! ## G-code generation (`generate_gcode_from_solution`)

Emitted lines are modelled as an inductive carrying the numeric targets
(`G90`, `G0 F6000 X.. Y..`, `G0 F6000 Z25`, `G0 Z..`, `VACUUM_ON/OFF`).
Python floats are modelled as rationals: every coordinate produced here
is an exact multiple of 0.005 mm well below the 3-decimal rounding
granularity, so binary floating point and exact rational arithmetic
agree on all emitted (rounded) values. -/

inductive GLine where
  | g90 : GLine
  | moveXY (x y : ℚ) : GLine
  | moveZF (z : ℚ) : GLine
  | moveZ (z : ℚ) : GLine
  | vacuumOn : GLine
  | vacuumOff : GLine
deriving DecidableEq, Repr

def X_ORIGIN_PLACEMENT : ℚ := 1075 / 10
def Y_ORIGIN_PLACEMENT : ℚ := 190
def X_ORIGIN_PICKUP : ℚ := 3130 / 20
def Y_ORIGIN_PICKUP : ℚ := 2830 / 20
def PLACE_HEIGHT : ℚ := 14
def PICKUP_HEIGHT : ℚ := 14
def PASSIVE_HEIGHT : ℚ := 45

/-- `col_dict`: pickup column per component type. -/
def col_dict (t : String) : Option Nat :=
  if t = "R" then some 0
  else if t = "C" then some 2
  else if t = "L" then some 4
  else if t = "LED" then some 6
  else if t = "W6" then some 8
  else none

/-- `len_dict`: per-slot length per component type. -/
def len_dict (t : String) : Option Nat :=
  if t = "R" ∨ t = "C" ∨ t = "L" ∨ t = "LED" ∨ t = "W6" then some 6
  else none

/-- `wires_used`: initial per-class wire counters. -/
def wires_used : List (String × Nat) := [("W6", 0)]

/-- `pitch = 2.54` mm. -/
def pitch : ℚ := 254 / 100

def column_to_x (col_f : ℚ) : ℚ := col_f * pitch

def row_to_y (row : ℚ) : ℚ := row * pitch

/-- `convertCornersToCenter`: mean of the first and mean of the second
coordinates. -/
def convertCornersToCenter (corners : List (Int × Int)) : ℚ × ℚ :=
  if corners.isEmpty then (0, 0)
  else
    ((corners.map (fun p => (p.1 : ℚ))).sum / corners.length,
     (corners.map (fun p => (p.2 : ℚ))).sum / corners.length)

/-- Round half to even (Python `round`) to an integer. -/
def roundHalfEven (q : ℚ) : ℤ :=
  let f := ⌊q⌋
  let r := q - f
  if r < 1 / 2 then f
  else if 1 / 2 < r then f + 1
  else if Even f then f else f + 1

/-- `round(x, 3)`. -/
def round3 (q : ℚ) : ℚ := (roundHalfEven (q * 1000) : ℚ) / 1000

/-- `re.match(r"([A-Z]+)(\d+)", name)`: leading capital letters and a
trailing number, else `(name, 1)`. -/
def parsePartName (s : String) : String × Nat :=
  let chars := s.toList
  let letters := chars.takeWhile (fun ch => ch.isUpper)
  let digits := chars.drop letters.length
  if letters.length ≥ 1 ∧ digits.length ≥ 1 ∧
      digits.all (fun ch => ch.isDigit) then
    (String.mk letters, ((String.mk digits).toNat?).getD 0)
  else (s, 1)

/-- The twelve G-code lines emitted for one component (pickup cycle then
placement cycle); `[]` when the part is skipped (fewer than two pins or
unknown type).  Note the source feeds `(row, col)` pins into
`convertCornersToCenter`, which uses `p[0]` as x: the X coordinate is
derived from the mean ROW and Y from the mean COLUMN. -/
def componentGLines (comp_name : String) (pins : List Hole) : List GLine :=
  if pins.length < 2 then []
  else
    let center := convertCornersToCenter pins
    let nominal_x_board := column_to_x center.1
    let nominal_y_board := row_to_y center.2
    let pt := parsePartName comp_name
    match col_dict pt.1, len_dict pt.1 with
    | some colv, some lenv =>
        let pickup_center := convertCornersToCenter
          [(Int.ofNat colv, (Int.ofNat pt.2 - 1) * (Int.ofNat lenv - 1)),
           (Int.ofNat colv, Int.ofNat pt.2 * (Int.ofNat lenv - 1))]
        let bed_x_pickup := X_ORIGIN_PICKUP + column_to_x pickup_center.1
        let bed_y_pickup := Y_ORIGIN_PICKUP - row_to_y pickup_center.2
        let bed_x_place := X_ORIGIN_PLACEMENT + nominal_x_board
        let bed_y_place := Y_ORIGIN_PLACEMENT - nominal_y_board
        [GLine.g90,
         GLine.moveXY (round3 bed_x_pickup) (round3 bed_y_pickup),
         GLine.moveZF 25,
         GLine.moveZ PICKUP_HEIGHT, GLine.vacuumOn,
         GLine.moveZ PASSIVE_HEIGHT,
         GLine.g90,
         GLine.moveXY (round3 bed_x_place) (round3 bed_y_place),
         GLine.moveZF 25,
         GLine.moveZ PLACE_HEIGHT, GLine.vacuumOff,
         GLine.moveZ PASSIVE_HEIGHT]
    | _, _ => []

/-- The G-code lines emitted for one wire, given the (never-updated)
per-class slot counters. -/
def wireGLines (counters : List (String × Nat)) (holes : List Hole) :
    List GLine :=
  if holes.isEmpty then []
  else
    let xs := holes.map (fun p => p.1)
    let ys := holes.map (fun p => p.2)
    let varying := if xs.dedup.length > 1 then xs else ys
    let vmax := varying.foldl max (varying.headD 0)
    let vmin := varying.foldl min (varying.headD 0)
    let wire_length := vmax - vmin + 1
    let wire_type := "W" ++ toString wire_length
    match col_dict wire_type, len_dict wire_type with
    | some colv, some lenv =>
        let slot_idx :=
          ((counters.find? (fun pr => pr.1 == wire_type)).map
            (fun pr => pr.2)).getD 0
        let pickup_center := convertCornersToCenter
          [(Int.ofNat colv, Int.ofNat (slot_idx * (lenv - 1))),
           (Int.ofNat colv, Int.ofNat ((slot_idx + 1) * (lenv - 1)))]
        let bed_x_pickup := X_ORIGIN_PICKUP + column_to_x pickup_center.1
        let bed_y_pickup := Y_ORIGIN_PICKUP - row_to_y pickup_center.2
        let center := convertCornersToCenter holes
        let bed_x_place := X_ORIGIN_PLACEMENT + column_to_x center.1
        let bed_y_place := Y_ORIGIN_PLACEMENT - row_to_y center.2
        [GLine.g90,
         GLine.moveXY (round3 bed_x_pickup) (round3 bed_y_pickup),
         GLine.moveZF 25,
         GLine.moveZ PICKUP_HEIGHT, GLine.vacuumOn,
         GLine.moveZ PASSIVE_HEIGHT,
         GLine.g90,
         GLine.moveXY (round3 bed_x_place) (round3 bed_y_place),
         GLine.moveZF 25,
         GLine.moveZ PLACE_HEIGHT, GLine.vacuumOff,
         GLine.moveZ PASSIVE_HEIGHT]
    | _, _ => []

/-- `generate_gcode_from_solution`.  The wire loop threads
`local_wires_used = dict(wires_used)` but never increments any counter
(the source comments: "so every wire is effectively picked from the same
storage location"). -/
def generate_gcode_from_solution (components : List (String × List Hole))
    (wires : List (List Hole)) : List GLine :=
  let sortedNames :=
    stableSort (fun a b => a ≤ b) (components.map (fun pr => pr.1))
  let compLines := sortedNames.flatMap (fun nm =>
    match (components.find? (fun pr => pr.1 == nm)).map (fun pr => pr.2) with
    | some pins => componentGLines nm pins
    | none => [])
  let wireLines := (wires.foldl
    (fun (acc : List GLine × List (String × Nat)) holes =>
      (acc.1 ++ wireGLines acc.2 holes, acc.2)) ([], wires_used)).1
  GLine.moveZ PASSIVE_HEIGHT :: (compLines ++ wireLines)

/-! ## Occupancy update lemmas -/

theorem setOccAll_not_mem (occ : Hole → Option OccT) (hs : List Hole)
    (t : OccT) (h : Hole) (hh : h ∉ hs) : setOccAll occ hs t h = occ h := by
  induction hs generalizing occ with
  | nil => rfl
  | cons x xs ih =>
      have hx : h ≠ x := by
        intro e
        exact hh (e ▸ List.mem_cons_self x xs)
      have hxs : h ∉ xs := fun e => hh (List.mem_cons_of_mem _ e)
      have hstep : setOccAll occ (x :: xs) t = setOccAll (setOcc occ x t) xs t :=
        rfl
      rw [hstep, ih (setOcc occ x t) hxs]
      simp [setOcc, hx]

theorem setOccAll_mem (occ : Hole → Option OccT) (hs : List Hole)
    (t : OccT) (h : Hole) (hh : h ∈ hs) : setOccAll occ hs t h = some t := by
  induction hs generalizing occ with
  | nil => simp at hh
  | cons x xs ih =>
      have hstep : setOccAll occ (x :: xs) t = setOccAll (setOcc occ x t) xs t :=
        rfl
      by_cases hmem : h ∈ xs
      · rw [hstep]
        exact ih (setOcc occ x t) hmem
      · have hx : h = x := by
          rcases List.mem_cons.mp hh with e | e
          · exact e
          · exact absurd e hmem
        rw [hstep, setOccAll_not_mem _ _ _ _ hmem]
        simp [setOcc, hx]

/-- C7: `claim_component(id, body, pins)` succeeds if and only if every
hole in `body ∪ pins` is empty; on success, body holes become
`comp_body(id)` (pin holes, which overwrite later, become
`comp_pin(id)`) and all other holes are untouched; on failure the
occupancy map is completely unchanged; `release_component` restores all
those holes to empty, so releasing then reclaiming a component with the
same body and pins always succeeds. -/
theorem claim_component_spec (bb : Breadboard) (comp_id : String)
    (body pins : List Hole) :
    ((bb.claim_component comp_id body pins).1 = true ↔
      ∀ h ∈ body ++ pins, bb.occ h = some OccT.empty) ∧
    ((bb.claim_component comp_id body pins).1 = true →
      (∀ h ∈ pins, (bb.claim_component comp_id body pins).2.occ h
        = some (OccT.comp_pin comp_id)) ∧
      (∀ h ∈ body, h ∉ pins →
        (bb.claim_component comp_id body pins).2.occ h
          = some (OccT.comp_body comp_id)) ∧
      (∀ h, h ∉ body → h ∉ pins →
        (bb.claim_component comp_id body pins).2.occ h = bb.occ h)) ∧
    ((bb.claim_component comp_id body pins).1 = false →
      (bb.claim_component comp_id body pins).2 = bb) ∧
    (∀ h ∈ body ++ pins,
      (bb.release_component body pins).occ h = some OccT.empty) ∧
    (((bb.release_component body pins).claim_component comp_id body pins).1
      = true) := by
  have hrel : ∀ h ∈ body ++ pins,
      (bb.release_component body pins).occ h = some OccT.empty := by
    intro h hh
    exact setOccAll_mem _ _ _ _ hh
  by_cases hc : (body ++ pins).all (fun h => bb.occ h == some OccT.empty)
  · have h1 : (bb.claim_component comp_id body pins).1 = true := by
      simp only [Breadboard.claim_component, if_pos hc]
    have h2 : (bb.claim_component comp_id body pins).2.occ =
        setOccAll (setOccAll bb.occ body (OccT.comp_body comp_id))
          pins (OccT.comp_pin comp_id) := by
      simp only [Breadboard.claim_component, if_pos hc]
    refine ⟨?_, ?_, ?_, hrel, ?_⟩
    · rw [h1]
      simp only [List.all_eq_true, beq_iff_eq] at hc
      exact ⟨fun _ => hc, fun _ => rfl⟩
    · intro _
      refine ⟨?_, ?_, ?_⟩
      · intro h hh
        rw [h2]
        exact setOccAll_mem _ _ _ _ hh
      · intro h hh hnp
        rw [h2, setOccAll_not_mem _ _ _ _ hnp]
        exact setOccAll_mem _ _ _ _ hh
      · intro h hb hp
        rw [h2, setOccAll_not_mem _ _ _ _ hp, setOccAll_not_mem _ _ _ _ hb]
    · intro hfalse
      rw [h1] at hfalse
      simp at hfalse
    · have hcond : (body ++ pins).all
          (fun h => (bb.release_component body pins).occ h
            == some OccT.empty) := by
        rw [List.all_eq_true]
        intro h hh
        rw [hrel h hh]
        rfl
      simp only [Breadboard.claim_component, if_pos hcond]
  · have hval : bb.claim_component comp_id body pins = (false, bb) := by
      simp only [Breadboard.claim_component, if_neg hc]
    refine ⟨?_, ?_, ?_, hrel, ?_⟩
    · rw [hval]
      simp only [List.all_eq_true, beq_iff_eq] at hc
      constructor
      · intro hcon
        simp at hcon
      · intro hall
        exact absurd hall hc
    · intro htrue
      rw [hval] at htrue
      simp at htrue
    · intro _
      rw [hval]
    · have hcond : (body ++ pins).all
          (fun h => (bb.release_component body pins).occ h
            == some OccT.empty) := by
        rw [List.all_eq_true]
        intro h hh
        rw [hrel h hh]
        rfl
      simp only [Breadboard.claim_component, if_pos hcond]

/-- Witness for C7 at a concrete board and component. -/
theorem claim_component_spec_witness :
    (((mkBreadboard 1 [1, 3, 5]).claim_component "R1" [(0, 1)] [(0, 0)]).1
        = true ↔
      ∀ h ∈ [((0 : Int), (1 : Int))] ++ [((0 : Int), (0 : Int))],
        (mkBreadboard 1 [1, 3, 5]).occ h = some OccT.empty) ∧
    (((mkBreadboard 1 [1, 3, 5]).claim_component "R1" [(0, 1)] [(0, 0)]).1
        = true →
      (∀ h ∈ [((0 : Int), (0 : Int))],
        ((mkBreadboard 1 [1, 3, 5]).claim_component "R1" [(0, 1)]
          [(0, 0)]).2.occ h = some (OccT.comp_pin "R1")) ∧
      (∀ h ∈ [((0 : Int), (1 : Int))], h ∉ [((0 : Int), (0 : Int))] →
        ((mkBreadboard 1 [1, 3, 5]).claim_component "R1" [(0, 1)]
          [(0, 0)]).2.occ h = some (OccT.comp_body "R1")) ∧
      (∀ h, h ∉ [((0 : Int), (1 : Int))] → h ∉ [((0 : Int), (0 : Int))] →
        ((mkBreadboard 1 [1, 3, 5]).claim_component "R1" [(0, 1)]
          [(0, 0)]).2.occ h = (mkBreadboard 1 [1, 3, 5]).occ h)) ∧
    (((mkBreadboard 1 [1, 3, 5]).claim_component "R1" [(0, 1)] [(0, 0)]).1
        = false →
      ((mkBreadboard 1 [1, 3, 5]).claim_component "R1" [(0, 1)]
        [(0, 0)]).2 = mkBreadboard 1 [1, 3, 5]) ∧
    (∀ h ∈ [((0 : Int), (1 : Int))] ++ [((0 : Int), (0 : Int))],
      ((mkBreadboard 1 [1, 3, 5]).release_component [(0, 1)] [(0, 0)]).occ h
        = some OccT.empty) ∧
    ((((mkBreadboard 1 [1, 3, 5]).release_component [(0, 1)]
        [(0, 0)]).claim_component "R1" [(0, 1)] [(0, 0)]).1 = true) :=
  claim_component_spec (mkBreadboard 1 [1, 3, 5]) "R1" [(0, 1)] [(0, 0)]

/-! ## C2: edges of the BFS segment graph -/

/-- The holes strictly between the endpoints of a straight edge of
length `L` from `u` in direction `d`. -/
def edgeInterior (u : Hole) (L : Nat) (d : Int × Int) : List Hole :=
  (List.range L).filterMap (fun k =>
    if k = 0 then none
    else some (u.1 + d.1 * Int.ofNat k, u.2 + d.2 * Int.ofNat k))

/-- The edge condition C2 claims, following the specification's words:
the end hole is a real hole, every real hole strictly between the two
endpoints is empty, and no rail hole lies in the strict interior. -/
def specSegEdge (bb : Breadboard) (u : Hole) (L : Nat) (d : Int × Int) :
    Bool :=
  let v : Hole := (u.1 + d.1 * Int.ofNat L, u.2 + d.2 * Int.ofNat L)
  (bb.occ v).isSome &&
  (edgeInterior u L d).all (fun h =>
    !(bb.occ h).isSome || bb.occ h == some OccT.empty) &&
  (edgeInterior u L d).all (fun h => rail_of_hole bb.rows h == none)

/-- Counterexample for C2.  On a one-row board with wire lengths
{1, 3, 5} and the single hole (0,2) occupied by a component body, the
hole (0,1) is an empty real hole, the length 3 and direction (0,1) are
permitted, and the BFS segment graph has the edge
(0,1) → (0,4) even though the strictly interior hole (0,2) is an
occupied real hole, so the specification's edge condition is false: the
claimed "if and only if" fails (the code never examines the interior of
an edge). -/
theorem segEdge_interior_unchecked :
    (((mkBreadboard 1 [1, 3, 5]).claim_component "X" [(0, 2)] []).2).occ
        (0, 1) = some OccT.empty ∧
    (3 : Nat) ∈
      (((mkBreadboard 1 [1, 3, 5]).claim_component "X"
        [(0, 2)] []).2).wire_lengths ∧
    ((0, 1) : Int × Int) ∈ dirs ∧
    (((0 : Int), (4 : Int))) ∈
      segNeighbors (((mkBreadboard 1 [1, 3, 5]).claim_component "X"
        [(0, 2)] []).2) (0, 1) ∧
    specSegEdge (((mkBreadboard 1 [1, 3, 5]).claim_component "X"
        [(0, 2)] []).2) (0, 1) 3 (0, 1) = false := by
  decide

/-- C2 (amended): in `shortest_path_by_segments`' segment graph, an edge
from `u` to `v` exists if and only if `v = u + L·d` for some permitted
wire length `L` and cardinal direction `d`, and the end hole `v` is a
real hole that is empty.  The holes strictly between the endpoints and
the rails in the interior are not examined at all. -/
theorem segNeighbors_spec (bb : Breadboard) (u v : Hole) :
    v ∈ segNeighbors bb u ↔
      ∃ L ∈ bb.wire_lengths, ∃ d ∈ dirs,
        v = (u.1 + d.1 * Int.ofNat L, u.2 + d.2 * Int.ofNat L) ∧
        bb.occ v = some OccT.empty := by
  constructor
  · intro h
    simp only [segNeighbors, List.mem_flatMap, List.mem_filterMap] at h
    rcases h with ⟨L, hL, d, hd, hf⟩
    refine ⟨L, hL, d, hd, ?_⟩
    split at hf
    · rename_i hcond
      cases hf
      simp only [Bool.and_eq_true, beq_iff_eq] at hcond
      exact ⟨rfl, hcond.2⟩
    · exact absurd hf (by simp)
  · rintro ⟨L, hL, d, hd, hv, hocc⟩
    simp only [segNeighbors, List.mem_flatMap, List.mem_filterMap]
    refine ⟨L, hL, d, hd, ?_⟩
    rw [← hv] at *
    simp [hocc, ← hv]

/-! ## C4: commit_path rollback -/

theorem setOccAll_eq_ite (occ : Hole → Option OccT) (hs : List Hole)
    (t : OccT) (h : Hole) :
    setOccAll occ hs t h = if h ∈ hs then some t else occ h := by
  by_cases hm : h ∈ hs
  · rw [if_pos hm]
    exact setOccAll_mem _ _ _ _ hm
  · rw [if_neg hm]
    exact setOccAll_not_mem _ _ _ _ hm

/-- Releasing the segments of `segs` in order (the rollback's fold). -/
def relOcc (occ : Hole → Option OccT) (segs : List (List Hole)) :
    Hole → Option OccT :=
  segs.foldl (fun o s => setOccAll o s OccT.empty) occ

theorem relOcc_append_single (occ : Hole → Option OccT)
    (segs : List (List Hole)) (s : List Hole) :
    relOcc occ (segs ++ [s]) = setOccAll (relOcc occ segs) s OccT.empty := by
  simp [relOcc, List.foldl_append]

theorem relOcc_congr_at (occ1 occ2 : Hole → Option OccT)
    (segs : List (List Hole)) (h : Hole) (he : occ1 h = occ2 h) :
    relOcc occ1 segs h = relOcc occ2 segs h := by
  induction segs generalizing occ1 occ2 with
  | nil => exact he
  | cons s ss ih =>
      have hstep : ∀ o : Hole → Option OccT,
          relOcc o (s :: ss) = relOcc (setOccAll o s OccT.empty) ss := by
        intro o
        rfl
      rw [hstep, hstep]
      refine ih _ _ ?_
      rw [setOccAll_eq_ite, setOccAll_eq_ite, he]

theorem relOcc_not_mem (occ : Hole → Option OccT) (segs : List (List Hole))
    (h : Hole) (hh : ∀ s ∈ segs, h ∉ s) : relOcc occ segs h = occ h := by
  induction segs generalizing occ with
  | nil => rfl
  | cons s ss ih =>
      have hstep : relOcc occ (s :: ss) = relOcc (setOccAll occ s OccT.empty) ss :=
        rfl
      rw [hstep, ih _ (fun u hu => hh u (List.mem_cons_of_mem _ hu))]
      exact setOccAll_not_mem _ _ _ _ (hh s (List.mem_cons_self _ _))

theorem foldl_setOcc_not_mem (f : Nat × Hole → OccT) (l : List (Nat × Hole))
    (occ : Hole → Option OccT) (x : Hole) (hx : x ∉ l.map Prod.snd) :
    l.foldl (fun o pr => setOcc o pr.2 (f pr)) occ x = occ x := by
  induction l generalizing occ with
  | nil => rfl
  | cons pr l ih =>
      have hx1 : x ≠ pr.2 := by
        intro e
        exact hx (by simp [e])
      have hx2 : x ∉ l.map Prod.snd := by
        intro e
        exact hx (by simp [e])
      have hstep : (pr :: l).foldl (fun o q => setOcc o q.2 (f q)) occ =
          l.foldl (fun o q => setOcc o q.2 (f q)) (setOcc occ pr.2 (f pr)) :=
        rfl
      rw [hstep, ih _ hx2]
      simp [setOcc, hx1]

theorem foldl_setOcc_mem (f : Nat × Hole → OccT) (l : List (Nat × Hole))
    (occ : Hole → Option OccT) (x : Hole) (hx : x ∈ l.map Prod.snd) :
    ∃ pr ∈ l, l.foldl (fun o pr => setOcc o pr.2 (f pr)) occ x = some (f pr) := by
  induction l generalizing occ with
  | nil => simp at hx
  | cons pr l ih =>
      have hstep : (pr :: l).foldl (fun o q => setOcc o q.2 (f q)) occ =
          l.foldl (fun o q => setOcc o q.2 (f q)) (setOcc occ pr.2 (f pr)) :=
        rfl
      by_cases hmem : x ∈ l.map Prod.snd
      · rcases ih (setOcc occ pr.2 (f pr)) hmem with ⟨q, hq, he⟩
        exact ⟨q, List.mem_cons_of_mem _ hq, by rw [hstep]; exact he⟩
      · have hx1 : x = pr.2 := by
          rcases List.mem_map.mp hx with ⟨q, hq, he⟩
          rcases List.mem_cons.mp hq with e | e
          · rw [← he, e]
          · exact absurd (he ▸ List.mem_map_of_mem Prod.snd e) hmem
        refine ⟨pr, List.mem_cons_self _ _, ?_⟩
        rw [hstep, foldl_setOcc_not_mem _ _ _ _ hmem]
        simp [setOcc, hx1]

/-- The occupancy written by a successful `claim_wire_segment`. -/
theorem claim_wire_segment_true (bb : Breadboard) (sid : String)
    (holes : List Hole)
    (h : (bb.claim_wire_segment sid holes).1 = true) :
    (∀ x ∈ holes, bb.occ x = some OccT.empty) ∧
    (∀ x, x ∉ holes →
      (bb.claim_wire_segment sid holes).2.occ x = bb.occ x) ∧
    (∀ x ∈ holes, ∃ t, (bb.claim_wire_segment sid holes).2.occ x = some t ∧
      t ≠ OccT.empty) := by
  by_cases h2 : holes.length < 2
  · simp [Breadboard.claim_wire_segment, if_pos h2] at h
  · by_cases hall : holes.all (fun x => bb.occ x == some OccT.empty)
    · have hv : (bb.claim_wire_segment sid holes).2.occ =
          holes.enum.foldl (fun o pr =>
            setOcc o pr.2
              (if pr.1 = 0 ∨ pr.1 = holes.length - 1 then OccT.wire_end sid
              else OccT.wire_body sid)) bb.occ := by
        simp only [Breadboard.claim_wire_segment, if_neg h2, if_pos hall]
      simp only [List.all_eq_true, beq_iff_eq] at hall
      refine ⟨hall, ?_, ?_⟩
      · intro x hx
        rw [hv]
        exact foldl_setOcc_not_mem _ _ _ _ (by rwa [List.enum_map_snd])
      · intro x hx
        rw [hv]
        rcases foldl_setOcc_mem
          (fun pr => if pr.1 = 0 ∨ pr.1 = holes.length - 1 then
            OccT.wire_end sid else OccT.wire_body sid)
          holes.enum bb.occ x (by rwa [List.enum_map_snd]) with ⟨q, _, he⟩
        refine ⟨_, he, ?_⟩
        split <;> simp
    · simp [Breadboard.claim_wire_segment, if_neg h2, if_neg hall] at h

/-- A failed `claim_wire_segment` leaves the board as it was. -/
theorem claim_wire_segment_false (bb : Breadboard) (sid : String)
    (holes : List Hole)
    (h : (bb.claim_wire_segment sid holes).1 = false) :
    (bb.claim_wire_segment sid holes).2 = bb := by
  by_cases h2 : holes.length < 2
  · simp [Breadboard.claim_wire_segment, if_pos h2]
  · by_cases hall : holes.all (fun x => bb.occ x == some OccT.empty)
    · simp [Breadboard.claim_wire_segment, if_neg h2, if_pos hall] at h
    · simp [Breadboard.claim_wire_segment, if_neg h2, if_neg hall]

theorem getNet_setNet_self (key : String) (v : Net) :
    ∀ (nets : Nets) (v0 : Net), getNet nets key = some v0 →
      getNet (setNet nets key v) key = some v
  | [], v0, h => by simp [getNet] at h
  | kn :: rest, v0, h => by
      by_cases hk : kn.1 = key
      · simp [getNet, setNet, List.find?, hk]
      · have hk' : (kn.1 == key) = false := by
          simp [hk]
        have h2 : getNet rest key = some v0 := by
          simpa [getNet, List.find?, hk'] using h
        have ih := getNet_setNet_self key v rest v0 h2
        simpa [getNet, setNet, List.find?, hk'] using ih

theorem getNet_appendSeg (nets : Nets) (key : String) (holes : List Hole)
    (n : Net) (h : getNet nets key = some n) :
    getNet (appendSeg nets key holes) key =
      some { n with seg_paths := n.seg_paths ++ [holes] } := by
  rw [appendSeg, h]
  exact getNet_setNet_self key _ nets n h

/-! ### The rollback of commit_path -/

theorem releaseFold_occ : ∀ (l : List (List Hole)) (bb : Breadboard),
    (l.foldl (fun b seg => b.release_wire_segment seg) bb).occ =
      relOcc bb.occ l
  | [], _ => rfl
  | s :: ss, bb => by
      have hstep : (s :: ss).foldl (fun b seg => b.release_wire_segment seg) bb =
          ss.foldl (fun b seg => b.release_wire_segment seg)
            (bb.release_wire_segment s) := rfl
      rw [hstep, releaseFold_occ ss (bb.release_wire_segment s)]
      rfl

theorem rollbackSegs_spec (key : String) (k : Nat) (st : PnRSt) (net1 : Net)
    (hget : getNet st.nets key = some net1)
    (hle : net1.seg_paths.length ≤ k) :
    (∀ h, (rollbackSegs key k st).bb.occ h =
      relOcc st.bb.occ net1.seg_paths h) ∧
    getNet (rollbackSegs key k st).nets key =
      some { net1 with seg_paths := [] } := by
  unfold rollbackSegs
  rw [hget]
  have hkeep : net1.seg_paths.length - k = 0 := Nat.sub_eq_zero_of_le hle
  simp only [hkeep, List.drop_zero, List.take_zero]
  constructor
  · intro h
    rw [releaseFold_occ]
  · exact getNet_setNet_self key _ st.nets net1 hget

theorem commit_claim_loop_restores (key : String) (k : Nat)
    (occ0 : Hole → Option OccT) (net0 : Net) :
    ∀ (segs : List (List Hole)) (st1 : PnRSt) (committed : List (List Hole)),
      getNet st1.nets key = some { net0 with seg_paths := committed } →
      committed.length + segs.length ≤ k →
      (∀ h, relOcc st1.bb.occ committed h = occ0 h) →
      (∀ s ∈ committed, ∀ h ∈ s, st1.bb.occ h ≠ some OccT.empty) →
      (commit_claim_loop key k st1 segs).1 = false →
      (∀ h, (commit_claim_loop key k st1 segs).2.bb.occ h = occ0 h) ∧
      getNet (commit_claim_loop key k st1 segs).2.nets key =
        some { net0 with seg_paths := [] }
  | [], st1, committed, hget, hlen, hocc, hne, hres => by
      simp [commit_claim_loop] at hres
  | holes :: rest, st1, committed, hget, hlen, hocc, hne, hres => by
      simp only [commit_claim_loop] at hres ⊢
      by_cases hr :
        (st1.bb.claim_wire_segment ("seg" ++ toString st1.seg_id_ctr)
          holes).1 = true
      · rw [if_pos hr] at hres ⊢
        obtain ⟨hallE, hoff, hon⟩ :=
          claim_wire_segment_true st1.bb _ holes hr
        refine commit_claim_loop_restores key k occ0 net0 rest _
          (committed ++ [holes]) ?_ ?_ ?_ ?_ hres
        · exact getNet_appendSeg st1.nets key holes _ hget
        · simp only [List.length_append, List.length_cons,
            List.length_nil] at hlen ⊢
          omega
        · intro h
          rw [relOcc_append_single, setOccAll_eq_ite]
          by_cases hmem : h ∈ holes
          · rw [if_pos hmem]
            have h1 : ∀ s ∈ committed, h ∉ s :=
              fun s hs hh => absurd (hallE h hmem) (hne s hs h hh)
            have h2 := hocc h
            rw [relOcc_not_mem _ _ _ h1] at h2
            rw [← h2]
            exact (hallE h hmem).symm
          · rw [if_neg hmem]
            rw [relOcc_congr_at _ st1.bb.occ _ _ (hoff h hmem)]
            exact hocc h
        · intro s hs h hh
          rcases List.mem_append.mp hs with hsc | hsh
          · by_cases hmem : h ∈ holes
            · exact absurd (hallE h hmem) (hne s hsc h hh)
            · rw [hoff h hmem]
              exact hne s hsc h hh
          · have hsh2 : s = holes := by
              simpa using hsh
            subst hsh2
            rcases hon h hh with ⟨t, ht, htne⟩
            rw [ht]
            intro e
            injection e with e2
            exact htne e2
      · rw [if_neg hr] at hres ⊢
        have hr2 :
            (st1.bb.claim_wire_segment ("seg" ++ toString st1.seg_id_ctr)
              holes).1 = false := by
          simpa using hr
        have hfb := claim_wire_segment_false st1.bb _ holes hr2
        have hle2 : committed.length ≤ k := by
          simp only [List.length_cons] at hlen
          omega
        rw [hfb] at hres ⊢
        have hrb := rollbackSegs_spec key k
          (PnRSt.mk st1.bb st1.nets st1.compDyn st1.pin_of_comp
            (st1.seg_id_ctr + 1) st1.max_segments)
          { net0 with seg_paths := committed } hget hle2
        constructor
        · intro h
          exact (hrb.1 h).trans (hocc h)
        · exact hrb.2

/-- C4 (amended): when the net had no previously committed wire
segments, a failing `commit_path(net, edges)` restores the state
exactly: every hole's occupancy is as before the call and the net's
`seg_paths` is empty again.  (With pre-existing segments the rollback
slice `seg_paths[-len(seg_holes_all):]` can release segments committed
before the call; see the counterexample.) -/
theorem commit_path_restores (st : PnRSt) (key : String)
    (path_edges : List (Hole × Hole)) (net0 : Net)
    (hget : getNet st.nets key = some net0)
    (hfresh : net0.seg_paths = [])
    (hres : (commit_path st key path_edges).1 = false) :
    (∀ h, (commit_path st key path_edges).2.bb.occ h = st.bb.occ h) ∧
    getNet (commit_path st key path_edges).2.nets key =
      some { net0 with seg_paths := [] } := by
  by_cases he : path_edges.isEmpty = true
  · simp only [commit_path, if_pos he]
    refine ⟨fun h => trivial, ?_⟩
    rw [← hfresh]
    exact hget
  · simp only [commit_path, if_neg he, hget] at hres ⊢
    cases hval : validate_edges st.bb net0.name path_edges with
    | none =>
        simp only [hval] at hres ⊢
        refine ⟨fun h => trivial, ?_⟩
        rw [← hfresh]
        exact hget
    | some sha =>
        simp only [hval] at hres ⊢
        refine commit_claim_loop_restores key sha.length st.bb.occ net0
          sha st [] ?_ ?_ ?_ ?_ hres
        · rw [← hfresh]
          exact hget
        · simp
        · exact fun _ => rfl
        · simp

def exNetC4 : Net :=
  { name := "N1", terms := [], fixed_anchors := [],
    seg_paths := [[(1, 0), (1, 1)]] }

def exStC4 : PnRSt :=
  { bb := ((mkBreadboard 2 [1, 3, 5]).claim_wire_segment "pre0"
      [(1, 0), (1, 1)]).2,
    nets := [("N1", exNetC4)],
    compDyn := fun _ => none,
    pin_of_comp := fun _ => none,
    seg_id_ctr := 1,
    max_segments := 3 }

/-- Counterexample for C4.  The net `N1` already owns the committed
segment `[(1,0),(1,1)]` (claimed on the board as wire `pre0`).  A
`commit_path` call with two edges commits its first segment, fails on
the second (the shared hole (0,3) is no longer empty), and its rollback
releases the LAST two segments of `seg_paths` — including the
pre-existing segment: afterwards hole (1,0) is empty and `seg_paths`
is `[]`, not the pre-call state.  So a failing call does not release
exactly the segments committed within that call. -/
theorem commit_path_releases_preexisting :
    (commit_path exStC4 "N1" [((0, 2), (0, 3)), ((0, 3), (1, 3))]).1
      = false ∧
    exStC4.bb.occ (1, 0) = some (OccT.wire_end "pre0") ∧
    (commit_path exStC4 "N1"
      [((0, 2), (0, 3)), ((0, 3), (1, 3))]).2.bb.occ (1, 0)
      = some OccT.empty ∧
    (getNet exStC4.nets "N1").map Net.seg_paths
      = some [[(1, 0), (1, 1)]] ∧
    (getNet (commit_path exStC4 "N1"
      [((0, 2), (0, 3)), ((0, 3), (1, 3))]).2.nets "N1").map Net.seg_paths
      = some [] := by
  decide

def exNetW : Net :=
  { name := "N1", terms := [], fixed_anchors := [], seg_paths := [] }

def exStW : PnRSt :=
  { bb := mkBreadboard 2 [1, 3, 5],
    nets := [("N1", exNetW)],
    compDyn := fun _ => none,
    pin_of_comp := fun _ => none,
    seg_id_ctr := 0,
    max_segments := 3 }

/-- Witness for the amended C4 theorem at a concrete failing call on a
net with no pre-existing segments. -/
theorem commit_path_restores_witness :
    getNet exStW.nets "N1" = some exNetW ∧
    exNetW.seg_paths = [] ∧
    (commit_path exStW "N1" [((0, 2), (0, 3)), ((0, 3), (1, 3))]).1
      = false ∧
    ((∀ h, (commit_path exStW "N1"
        [((0, 2), (0, 3)), ((0, 3), (1, 3))]).2.bb.occ h
        = exStW.bb.occ h) ∧
      getNet (commit_path exStW "N1"
        [((0, 2), (0, 3)), ((0, 3), (1, 3))]).2.nets "N1"
        = some { exNetW with seg_paths := [] }) :=
  ⟨by decide, rfl, by decide,
    commit_path_restores exStW "N1" [((0, 2), (0, 3)), ((0, 3), (1, 3))]
      exNetW (by decide) rfl (by decide)⟩


theorem mem_sortInsert (le : α → α → Bool) (x y : α) :
    ∀ l, y ∈ sortInsert le x l ↔ y = x ∨ y ∈ l
  | [] => by simp [sortInsert]
  | z :: zs => by
      by_cases h : le x z = true
      · simp [sortInsert, h]
      · have h2 : le x z = false := by
          simpa using h
        simp only [sortInsert, h2, Bool.false_eq_true, if_false,
          List.mem_cons, mem_sortInsert le x y zs]
        tauto

theorem mem_stableSort (le : α → α → Bool) (y : α) :
    ∀ l, y ∈ stableSort le l ↔ y ∈ l
  | [] => Iff.rfl
  | x :: xs => by
      simp only [stableSort, mem_sortInsert, List.mem_cons,
        mem_stableSort le y xs]

theorem pairwise_sortInsert (le : α → α → Bool)
    (htot : ∀ a b, le a b = false → le b a = true)
    (htrans : ∀ a b c, le a b = true → le b c = true → le a c = true)
    (x : α) :
    ∀ l, List.Pairwise (fun a b => le a b = true) l →
      List.Pairwise (fun a b => le a b = true) (sortInsert le x l)
  | [], _ => List.pairwise_singleton _ x
  | y :: ys, hp => by
      by_cases h : le x y = true
      · simp only [sortInsert, h, if_true]
        refine List.Pairwise.cons ?_ hp
        intro z hz
        rcases List.mem_cons.mp hz with e | e
        · rw [e]
          exact h
        · exact htrans x y z h ((List.pairwise_cons.mp hp).1 z e)
      · have h2 : le x y = false := by
          simpa using h
        simp only [sortInsert, h2, Bool.false_eq_true, if_false]
        refine List.Pairwise.cons ?_
          (pairwise_sortInsert le htot htrans x ys
            (List.pairwise_cons.mp hp).2)
        intro z hz
        rcases (mem_sortInsert le x z ys).mp hz with e | e
        · rw [e]
          exact htot x y h2
        · exact (List.pairwise_cons.mp hp).1 z e

theorem pairwise_stableSort (le : α → α → Bool)
    (htot : ∀ a b, le a b = false → le b a = true)
    (htrans : ∀ a b c, le a b = true → le b c = true → le a c = true) :
    ∀ l, List.Pairwise (fun a b => le a b = true) (stableSort le l)
  | [] => List.Pairwise.nil
  | x :: xs =>
      pairwise_sortInsert le htot htrans x (stableSort le xs)
        (pairwise_stableSort le htot htrans xs)


/-! ## C8: the placement score -/

/-- Contribution of one pin to the specification's placement score,
word for word: for a rail net the (unscaled) distance to the nearer
rail column; otherwise the minimum Manhattan distance to an existing
terminal of the net. -/
def spec_pin_score (nets : Nets) (pin : Hole) (netName : String) : ℚ :=
  if netName = "V+" ∨ netName = "GND" then (dist_to_rail pin netName : ℚ)
  else
    match getNet nets netName with
    | none => 0
    | some net =>
        if net.terms.isEmpty then 0 else (minTermDist pin net.terms : ℚ)

/-- The specification's placement score (its per-pin distance part;
the claimed clustering bonuses would only be added on top). -/
def spec_placement_score (nets : Nets) (comp : Passive) (pl : Placement) :
    ℚ :=
  spec_pin_score nets (pl.2.2.getD 0 (0, 0)) comp.net_a +
  spec_pin_score nets (pl.2.2.getD 1 (0, 0)) comp.net_b

def exCompC8 : Passive :=
  { name := "R1", length := 2, orientation := "h",
    net_a := "V+", net_b := "N1" }

def exNetC8 : Net :=
  { name := "N1", terms := [], fixed_anchors := [], seg_paths := [] }

def exStC8 : PnRSt :=
  { bb := mkBreadboard 1 [1, 3, 5],
    nets := [("N1", exNetC8)],
    compDyn := fun _ => none,
    pin_of_comp := fun _ => none,
    seg_id_ctr := 0,
    max_segments := 3 }

/-- Counterexample for C8.  A component pin on hole (0,0) bound to the
rail net V+ contributes `0.3 * 4 = 6/5` to `placement_score`, not the
Manhattan distance 4 the specification describes (and the code has no
clustering-bonus term at all, so no nonnegative bonus can make up the
difference). -/
theorem placement_score_scaled :
    placement_score exStC8 exCompC8
      ((0, 0), [(0, 0), (0, 1)], [(0, 0), (0, 1)]) = 6 / 5 ∧
    spec_placement_score exStC8.nets exCompC8
      ((0, 0), [(0, 0), (0, 1)], [(0, 0), (0, 1)]) = 4 ∧
    (6 / 5 : ℚ) ≠ 4 := by
  refine ⟨?_, ?_, by norm_num⟩
  · show (3 / 10 : ℚ) * ((4 : Nat) : ℚ) + 0 = 6 / 5
    norm_num
  · show ((4 : Nat) : ℚ) + 0 = 4
    norm_num


/-- C8 (amended): `placement_score` adds, for each of the two pins,
`0.3` times the distance to the nearer rail column when the pin's net
is a rail, and otherwise the specification's term-distance score; there
is no clustering bonus.  The candidate list the search tries is the
score-sorted legal-placement list truncated to the first 80 entries: it
is sorted by ascending score, has at most 80 entries, and contains only
legal placements. -/
theorem placement_score_amended_thm (st : PnRSt) (comp : Passive) :
    (∀ pl : Placement,
      placement_score st comp pl =
        (if comp.net_a = "V+" ∨ comp.net_a = "GND" then
          (3 / 10 : ℚ) * dist_to_rail (pl.2.2.getD 0 (0, 0)) comp.net_a
        else spec_pin_score st.nets (pl.2.2.getD 0 (0, 0)) comp.net_a) +
        (if comp.net_b = "V+" ∨ comp.net_b = "GND" then
          (3 / 10 : ℚ) * dist_to_rail (pl.2.2.getD 1 (0, 0)) comp.net_b
        else spec_pin_score st.nets (pl.2.2.getD 1 (0, 0)) comp.net_b)) ∧
    List.Pairwise
      (fun p q => placement_score st comp p ≤ placement_score st comp q)
      ((stableSort
        (fun p q => placement_score st comp p ≤ placement_score st comp q)
        (legal_placements comp st.bb)).take 80) ∧
    ((stableSort
        (fun p q => placement_score st comp p ≤ placement_score st comp q)
        (legal_placements comp st.bb)).take 80).length ≤ 80 ∧
    ∀ c ∈ (stableSort
        (fun p q => placement_score st comp p ≤ placement_score st comp q)
        (legal_placements comp st.bb)).take 80,
      c ∈ legal_placements comp st.bb := by
  refine ⟨?_, ?_, List.length_take_le _ _, ?_⟩
  · intro pl
    show pinScore st.nets (pl.2.2.getD 0 (0, 0)) comp.net_a +
      pinScore st.nets (pl.2.2.getD 1 (0, 0)) comp.net_b = _
    congr 1
    · by_cases h : comp.net_a = "V+" ∨ comp.net_a = "GND"
      · rw [pinScore, if_pos h, if_pos h]
      · rw [pinScore, if_neg h, if_neg h, spec_pin_score, if_neg h]
    · by_cases h : comp.net_b = "V+" ∨ comp.net_b = "GND"
      · rw [pinScore, if_pos h, if_pos h]
      · rw [pinScore, if_neg h, if_neg h, spec_pin_score, if_neg h]
  · have hp := pairwise_stableSort
      (fun p q => decide (placement_score st comp p ≤ placement_score st comp q))
      (fun a b hab => by
        simp only [decide_eq_false_iff_not, not_le] at hab
        simpa using le_of_lt hab)
      (fun a b c hab hbc => by
        simp only [decide_eq_true_eq] at hab hbc ⊢
        exact le_trans hab hbc)
      (legal_placements comp st.bb)
    have hp2 := hp.sublist (List.take_sublist 80 _)
    exact hp2.imp (fun hab => of_decide_eq_true hab)
  · intro c hc
    have h1 : c ∈ stableSort
        (fun p q => placement_score st comp p ≤ placement_score st comp q)
        (legal_placements comp st.bb) :=
      (List.take_sublist 80 _).mem hc
    exact (mem_stableSort _ c _).mp h1


/-! ## C9: the component placement move -/

/-- The placement-move target the specification describes: bed X from
the mean pin COLUMN, bed Y from the mean pin ROW, both rounded to three
decimals. -/
def spec_place_target (pins : List Hole) : ℚ × ℚ :=
  let colMean := (pins.map (fun p => (p.2 : ℚ))).sum / pins.length
  let rowMean := (pins.map (fun p => (p.1 : ℚ))).sum / pins.length
  (round3 (X_ORIGIN_PLACEMENT + pitch * colMean),
   round3 (Y_ORIGIN_PLACEMENT - pitch * rowMean))

/-- Counterexample for C9.  For a component with pins (0,0) and (2,0)
(rows 0 and 2, both in column 0), the emitted placement move is
`X110.04 Y190` — X was computed from the mean ROW and Y from the mean
COLUMN — while the specification's formula gives `X107.5 Y187.46`. -/
theorem gcode_placement_swapped :
    (componentGLines "R1" [(0, 0), (2, 0)]).getD 7 GLine.g90
      = GLine.moveXY (2751 / 25) 190 ∧
    spec_place_target [(0, 0), (2, 0)] = (215 / 2, 9373 / 50) ∧
    ¬ (((2751 / 25 : ℚ), (190 : ℚ)) = ((215 / 2 : ℚ), (9373 / 50 : ℚ))) := by
  refine ⟨?_, ?_, ?_⟩
  · have h1 : (componentGLines "R1" [(0, 0), (2, 0)]).getD 7 GLine.g90 =
        GLine.moveXY (round3 (X_ORIGIN_PLACEMENT + column_to_x
          (convertCornersToCenter [(0, 0), (2, 0)]).1))
          (round3 (Y_ORIGIN_PLACEMENT - row_to_y
            (convertCornersToCenter [(0, 0), (2, 0)]).2)) := rfl
    have hc : convertCornersToCenter
        [((0 : Int), (0 : Int)), ((2 : Int), (0 : Int))] = (1, 0) := by
      simp [convertCornersToCenter]
    rw [h1, hc]
    have hx : round3 (X_ORIGIN_PLACEMENT + column_to_x (1, (0 : ℚ)).1)
        = 2751 / 25 := by
      norm_num [round3, roundHalfEven, X_ORIGIN_PLACEMENT, column_to_x, pitch]
    have hy : round3 (Y_ORIGIN_PLACEMENT - row_to_y (1, (0 : ℚ)).2) = 190 := by
      norm_num [round3, roundHalfEven, Y_ORIGIN_PLACEMENT, row_to_y, pitch]
    rw [hx, hy]
  · simp only [spec_place_target]
    norm_num [round3, roundHalfEven, X_ORIGIN_PLACEMENT, Y_ORIGIN_PLACEMENT,
      pitch]
  · intro e
    have := congrArg Prod.fst e
    norm_num at this

/-- C9 (amended): the emitted placement move (the eighth G-code line of
a component's block) targets bed-X = X_ORIGIN_PLACEMENT + P·(mean of
the pins' ROW indices) and bed-Y = Y_ORIGIN_PLACEMENT − P·(mean of the
pins' COLUMN indices), with P = 2.54 and both coordinates rounded to 3
decimal places: the row/column roles are swapped relative to the
specification. -/
theorem componentGLines_place_target (comp_name : String) (pins : List Hole)
    (hlen : ¬ pins.length < 2) (colv lenv : Nat)
    (hcol : col_dict (parsePartName comp_name).1 = some colv)
    (hlend : len_dict (parsePartName comp_name).1 = some lenv) :
    (componentGLines comp_name pins).getD 7 GLine.g90 =
      GLine.moveXY
        (round3 (X_ORIGIN_PLACEMENT +
          ((pins.map (fun p => (p.1 : ℚ))).sum / pins.length) * pitch))
        (round3 (Y_ORIGIN_PLACEMENT -
          ((pins.map (fun p => (p.2 : ℚ))).sum / pins.length) * pitch)) := by
  have hne : pins.isEmpty = false := by
    cases pins with
    | nil => simp at hlen
    | cons a l => rfl
  simp only [componentGLines, if_neg hlen, hcol, hlend]
  simp only [convertCornersToCenter, hne, Bool.false_eq_true, if_false,
    column_to_x, row_to_y]
  rfl

/-- Witness for the amended C9 theorem at a concrete component. -/
theorem componentGLines_place_target_witness :
    ¬ ([((0 : Int), (0 : Int)), ((2 : Int), (0 : Int))].length < 2) ∧
    col_dict (parsePartName "R1").1 = some 0 ∧
    len_dict (parsePartName "R1").1 = some 6 ∧
    (componentGLines "R1" [(0, 0), (2, 0)]).getD 7 GLine.g90 =
      GLine.moveXY
        (round3 (X_ORIGIN_PLACEMENT +
          (([((0 : Int), (0 : Int)), ((2 : Int), (0 : Int))].map
            (fun p => (p.1 : ℚ))).sum /
              ([((0 : Int), (0 : Int)), ((2 : Int), (0 : Int))].length)) * pitch))
        (round3 (Y_ORIGIN_PLACEMENT -
          (([((0 : Int), (0 : Int)), ((2 : Int), (0 : Int))].map
            (fun p => (p.2 : ℚ))).sum /
              ([((0 : Int), (0 : Int)), ((2 : Int), (0 : Int))].length)) * pitch)) :=
  ⟨by decide, by decide, by decide,
    componentGLines_place_target "R1" [(0, 0), (2, 0)] (by decide) 0 6
      (by decide) (by decide)⟩


/-! ## C10: wire pickup slots -/

/-- The pickup target the specification describes for the k-th emitted
wire of a class: slot index k−1 in the class's pickup column. -/
def spec_wire_pickup (wire_type : String) (k : Nat) : ℚ × ℚ :=
  match col_dict wire_type, len_dict wire_type with
  | some colv, some lenv =>
      let s := k - 1
      let c := convertCornersToCenter
        [(Int.ofNat colv, Int.ofNat (s * (lenv - 1))),
         (Int.ofNat colv, Int.ofNat ((s + 1) * (lenv - 1)))]
      (round3 (X_ORIGIN_PICKUP + column_to_x c.1),
       round3 (Y_ORIGIN_PICKUP - row_to_y c.2))
  | _, _ => (0, 0)

def exW1 : List Hole := [(0, 0), (1, 0), (2, 0), (3, 0), (4, 0), (5, 0)]
def exW2 : List Hole := [(0, 1), (1, 1), (2, 1), (3, 1), (4, 1), (5, 1)]

/-- Counterexample for C10.  With two W6 wires in the solution, the
two emitted pickup moves (G-code lines 2 and 14) are identical — both
wires are picked from slot 0 — while the specification's slots for the
first and second W6 wire differ. -/
theorem gcode_wire_slot_repeated :
    (generate_gcode_from_solution [] [exW1, exW2]).getD 2 GLine.g90 =
      (generate_gcode_from_solution [] [exW1, exW2]).getD 14 GLine.g90 ∧
    spec_wire_pickup "W6" 1 ≠ spec_wire_pickup "W6" 2 := by
  constructor
  · rfl
  · intro e
    have e2 := congrArg Prod.snd e
    have hcd : col_dict "W6" = some 8 := rfl
    have hld : len_dict "W6" = some 6 := rfl
    simp only [spec_wire_pickup, hcd, hld] at e2
    norm_num [convertCornersToCenter, round3, roundHalfEven,
      Y_ORIGIN_PICKUP, row_to_y, pitch] at e2
theorem wire_fold_counters (ws : List (List Hole)) :
    ∀ (pre : List GLine) (cnt : List (String × Nat)),
      ws.foldl (fun (acc : List GLine × List (String × Nat)) holes =>
        (acc.1 ++ wireGLines acc.2 holes, acc.2)) (pre, cnt) =
      (pre ++ ws.flatMap (fun hs => wireGLines cnt hs), cnt) := by
  induction ws with
  | nil =>
      intro pre cnt
      simp
  | cons h t ih =>
      intro pre cnt
      have hstep : (h :: t).foldl
          (fun (acc : List GLine × List (String × Nat)) holes =>
            (acc.1 ++ wireGLines acc.2 holes, acc.2)) (pre, cnt) =
          t.foldl (fun (acc : List GLine × List (String × Nat)) holes =>
            (acc.1 ++ wireGLines acc.2 holes, acc.2))
            (pre ++ wireGLines cnt h, cnt) := rfl
      rw [hstep, ih]
      simp [List.append_assoc]

/-- C10 (amended): during G-code emission the per-class wire counters
are never incremented: the wire fold returns its counters unchanged and
every wire's block is generated from the initial counters, whose W6
entry is 0 — so every wire of a class is picked from slot 0, not from
successive slots. -/
theorem gcode_wire_slots_fixed :
    (∀ (ws : List (List Hole)) (pre : List GLine)
        (cnt : List (String × Nat)),
      ws.foldl (fun (acc : List GLine × List (String × Nat)) holes =>
        (acc.1 ++ wireGLines acc.2 holes, acc.2)) (pre, cnt) =
      (pre ++ ws.flatMap (fun hs => wireGLines cnt hs), cnt)) ∧
    (∀ ws : List (List Hole),
      generate_gcode_from_solution [] ws =
        GLine.moveZ PASSIVE_HEIGHT ::
          ws.flatMap (fun hs => wireGLines wires_used hs)) ∧
    ((wires_used.find? (fun pr => pr.1 == "W6")).map
      (fun pr => pr.2)).getD 0 = 0 := by
  refine ⟨wire_fold_counters, ?_, rfl⟩
  intro ws
  simp only [generate_gcode_from_solution]
  rw [wire_fold_counters ws [] wires_used]
  simp


/-! ## C3: the forward check's reachability test -/

def bbC3 : Breadboard :=
  ((((mkBreadboard 4 [3]).claim_component "R1" [(0, 0), (1, 0)]
      [(0, 0), (1, 0)]).2.claim_component "B1"
      [(0, 1), (0, 2), (0, 3)] []).2.claim_component "B2"
      [(3, 8), (3, 9), (3, 10), (3, 11)] []).2

def exStC3 : PnRSt :=
  { bb := bbC3,
    nets := [("N1", Net.mk "N1" [(3, 8)] [] []),
             ("N2", Net.mk "N2" [] [] [])],
    compDyn := fun _ => none,
    pin_of_comp := fun _ => none,
    seg_id_ctr := 0,
    max_segments := 3 }

def exCompC3 : Passive :=
  { name := "R1", length := 2, orientation := "v",
    net_a := "N1", net_b := "N2" }

def exPlC3 : Placement := ((0, 0), [(0, 0), (1, 0)], [(0, 0), (1, 0)])

/-- Counterexample for C3.  On a 4-row board with wire length 3, the
placement's pin (0,0) is bound to net N1 (existing terminal (3,8)): the
strip conditions hold, N1's target frontier is {(3,7)}, and a legal
two-edge wire path (0,4)→(0,7)→(3,7) — within max_segments = 3 and
accepted by `commit_path`'s own validation — connects the pin's
frontier to it, yet `forward_check` returns false because no single
straight all-empty jumper exists.  The claimed "in particular"
admissibility of 2–3-segment placements is false. -/
theorem forward_check_rejects_multi_segment :
    forward_check exStC3 exCompC3 exPlC3 = false ∧
    strip_has_other_net exStC3.bb exStC3.nets
      (strip_of_hole exStC3.bb.rows (0, 0)) "N1" = false ∧
    strip_has_other_net exStC3.bb exStC3.nets
      (strip_of_hole exStC3.bb.rows (1, 0)) "N2" = false ∧
    strip_of_hole exStC3.bb.rows (0, 0) ≠ strip_of_hole exStC3.bb.rows (1, 0) ∧
    exStC3.max_segments = 3 ∧
    (0, 4) ∈ exStC3.bb.frontier_of_hole (0, 0) ∧
    (3, 7) ∈ target_frontier exStC3.bb exStC3.nets "N1" ∧
    (validate_edges exStC3.bb "N1"
      [((0, 4), (0, 7)), ((0, 7), (3, 7))]).isSome = true ∧
    [((0, 4), (0, 7)), ((0, 7), (3, 7))].length ≤ exStC3.max_segments ∧
    target_frontier exStC3.bb exStC3.nets "N2" = [] := by
  decide

/-- C3 (amended): assuming the two strip conditions hold (and the
same-strip rejection does not fire), a candidate placement is
admissible if and only if, for each pin bound to a net, either the
net's target frontier is empty or `find_straight_edge` finds a SINGLE
straight all-empty jumper from the pin's frontier to the target
frontier; multi-segment paths are never searched, and `max_segments`
is never consulted (the check is invariant under changing it). -/
theorem forward_check_amended (st : PnRSt) (comp : Passive) (pl : Placement)
    (h1 : (truthyStrip (strip_of_hole st.bb.rows (pl.2.2.getD 0 (0, 0))) &&
      truthyStrip (strip_of_hole st.bb.rows (pl.2.2.getD 1 (0, 0))) &&
      strip_of_hole st.bb.rows (pl.2.2.getD 0 (0, 0)) ==
        strip_of_hole st.bb.rows (pl.2.2.getD 1 (0, 0)) &&
      ¬(comp.net_a == comp.net_b)) = false)
    (h2 : strip_has_other_net st.bb st.nets
      (strip_of_hole st.bb.rows (pl.2.2.getD 0 (0, 0))) comp.net_a = false)
    (h3 : strip_has_other_net st.bb st.nets
      (strip_of_hole st.bb.rows (pl.2.2.getD 1 (0, 0))) comp.net_b = false) :
    forward_check st comp pl =
      (((target_frontier st.bb st.nets comp.net_a).isEmpty ||
        (find_straight_edge st.bb
          (st.bb.frontier_of_hole (pl.2.2.getD 0 (0, 0)))
          (target_frontier st.bb st.nets comp.net_a)).isSome) &&
       ((target_frontier st.bb st.nets comp.net_b).isEmpty ||
        (find_straight_edge st.bb
          (st.bb.frontier_of_hole (pl.2.2.getD 1 (0, 0)))
          (target_frontier st.bb st.nets comp.net_b)).isSome)) ∧
    (∀ n : Nat,
      forward_check (PnRSt.mk st.bb st.nets st.compDyn st.pin_of_comp
        st.seg_id_ctr n) comp pl = forward_check st comp pl) := by
  constructor
  · simp only [forward_check, h1, h2, h3]
    cases hda : (target_frontier st.bb st.nets comp.net_a).isEmpty <;>
      cases hdb : (target_frontier st.bb st.nets comp.net_b).isEmpty <;>
      simp [hda, hdb]
  · intro n
    rfl

/-- Witness for the amended C3 theorem. -/
theorem forward_check_amended_witness :
    ((truthyStrip (strip_of_hole exStC3.bb.rows (exPlC3.2.2.getD 0 (0, 0))) &&
      truthyStrip (strip_of_hole exStC3.bb.rows (exPlC3.2.2.getD 1 (0, 0))) &&
      strip_of_hole exStC3.bb.rows (exPlC3.2.2.getD 0 (0, 0)) ==
        strip_of_hole exStC3.bb.rows (exPlC3.2.2.getD 1 (0, 0)) &&
      ¬(exCompC3.net_a == exCompC3.net_b)) = false) ∧
    (strip_has_other_net exStC3.bb exStC3.nets
      (strip_of_hole exStC3.bb.rows (exPlC3.2.2.getD 0 (0, 0)))
      exCompC3.net_a = false) ∧
    (strip_has_other_net exStC3.bb exStC3.nets
      (strip_of_hole exStC3.bb.rows (exPlC3.2.2.getD 1 (0, 0)))
      exCompC3.net_b = false) ∧
    ((forward_check exStC3 exCompC3 exPlC3 =
      (((target_frontier exStC3.bb exStC3.nets exCompC3.net_a).isEmpty ||
        (find_straight_edge exStC3.bb
          (exStC3.bb.frontier_of_hole (exPlC3.2.2.getD 0 (0, 0)))
          (target_frontier exStC3.bb exStC3.nets exCompC3.net_a)).isSome) &&
       ((target_frontier exStC3.bb exStC3.nets exCompC3.net_b).isEmpty ||
        (find_straight_edge exStC3.bb
          (exStC3.bb.frontier_of_hole (exPlC3.2.2.getD 1 (0, 0)))
          (target_frontier exStC3.bb exStC3.nets exCompC3.net_b)).isSome))) ∧
    (∀ n : Nat,
      forward_check (PnRSt.mk exStC3.bb exStC3.nets exStC3.compDyn
        exStC3.pin_of_comp exStC3.seg_id_ctr n) exCompC3 exPlC3 =
        forward_check exStC3 exCompC3 exPlC3)) :=
  ⟨by decide, by decide, by decide,
    forward_check_amended exStC3 exCompC3 exPlC3 (by decide) (by decide)
      (by decide)⟩

/-! ## C6: the electrical-identity invariant -/

/-- The electrical-identity invariant of C6 on a parent forest: all
holes of one strip share a root, all V+ rail holes share a root, and
all GND rail holes share a root. -/
def ElecInv (rows : Nat) (p : Hole → Hole) : Prop :=
  (∀ h1 h2 : Hole, (∃ s, strip_of_hole rows h1 = some s ∧
    strip_of_hole rows h2 = some s) → SameRoot p h1 h2) ∧
  (∀ a ∈ railsV rows, ∀ b ∈ railsV rows, SameRoot p a b) ∧
  (∀ a ∈ railsG rows, ∀ b ∈ railsG rows, SameRoot p a b)

theorem elecInv_applyUnions (rows : Nat) (u : UF) (ps : List (Hole × Hole))
    (hInv : u.Inv) (hps : ∀ pr ∈ ps, pr.1 ∈ u.elems ∧ pr.2 ∈ u.elems)
    (h : ElecInv rows u.parent) : ElecInv rows (applyUnions u ps).parent := by
  obtain ⟨_, _, hs⟩ := applyUnions_spec ps u hInv hps
  have mono : ∀ x y, SameRoot u.parent x y →
      SameRoot (applyUnions u ps).parent x y :=
    fun x y hxy => (hs x y).mpr (Relation.EqvGen.rel _ _ (Or.inl hxy))
  exact ⟨fun h1 h2 hstrip => mono _ _ (h.1 h1 h2 hstrip),
    fun a ha b hb => mono _ _ (h.2.1 a ha b hb),
    fun a ha b hb => mono _ _ (h.2.2 a ha b hb)⟩

theorem elecInv_rebuild (bb : Breadboard) (nets : Nets)
    (hsegs : ∀ kn ∈ nets, ∀ seg ∈ kn.2.seg_paths, ∀ h ∈ seg,
      h ∈ realHoles bb.rows) :
    ElecInv bb.rows (bb.rebuild_union_find nets).uf.parent ∧
    (bb.rebuild_union_find nets).uf.Inv := by
  obtain ⟨hi, _, hs⟩ := rebuild_union_find_spec bb nets hsegs
  refine ⟨⟨?_, ?_, ?_⟩, hi⟩
  · intro h1 h2 hstrip
    rw [hs]
    exact Relation.EqvGen.rel _ _ (Or.inl hstrip)
  · intro a ha b hb
    rw [hs]
    exact Relation.EqvGen.rel _ _ (Or.inr (Or.inl ⟨ha, hb⟩))
  · intro a ha b hb
    rw [hs]
    exact Relation.EqvGen.rel _ _ (Or.inr (Or.inr (Or.inl ⟨ha, hb⟩)))

theorem claim_wire_segment_uf_rows (bb : Breadboard) (sid : String)
    (hs : List Hole) :
    (bb.claim_wire_segment sid hs).2.uf = bb.uf ∧
    (bb.claim_wire_segment sid hs).2.rows = bb.rows := by
  by_cases h2 : hs.length < 2
  · simp [Breadboard.claim_wire_segment, if_pos h2]
  · by_cases hall : hs.all (fun x => bb.occ x == some OccT.empty)
    · simp [Breadboard.claim_wire_segment, if_neg h2, if_pos hall]
    · simp [Breadboard.claim_wire_segment, if_neg h2, if_neg hall]

theorem releaseFold_uf_rows : ∀ (l : List (List Hole)) (bb : Breadboard),
    (l.foldl (fun b seg => b.release_wire_segment seg) bb).uf = bb.uf ∧
    (l.foldl (fun b seg => b.release_wire_segment seg) bb).rows = bb.rows
  | [], _ => ⟨rfl, rfl⟩
  | s :: ss, bb => by
      have hstep : (s :: ss).foldl
          (fun b seg => b.release_wire_segment seg) bb =
          ss.foldl (fun b seg => b.release_wire_segment seg)
            (bb.release_wire_segment s) := rfl
      rw [hstep]
      exact releaseFold_uf_rows ss (bb.release_wire_segment s)

theorem rollbackSegs_uf_rows (key : String) (k : Nat) (st : PnRSt) :
    (rollbackSegs key k st).bb.uf = st.bb.uf ∧
    (rollbackSegs key k st).bb.rows = st.bb.rows := by
  unfold rollbackSegs
  cases hg : getNet st.nets key with
  | none => exact ⟨rfl, rfl⟩
  | some net => exact releaseFold_uf_rows _ _

theorem commit_claim_loop_elec (key : String) (k : Nat) (rows : Nat) :
    ∀ (segs : List (List Hole)) (st1 : PnRSt),
      st1.bb.rows = rows →
      st1.bb.uf.Inv →
      (∀ h, (st1.bb.occ h).isSome → h ∈ st1.bb.uf.elems) →
      ElecInv rows st1.bb.uf.parent →
      ElecInv rows (commit_claim_loop key k st1 segs).2.bb.uf.parent ∧
      (commit_claim_loop key k st1 segs).2.bb.uf.Inv ∧
      (commit_claim_loop key k st1 segs).2.bb.rows = rows
  | [], st1, hrows, hInv, hsup, helec => ⟨helec, hInv, hrows⟩
  | holes :: rest, st1, hrows, hInv, hsup, helec => by
      simp only [commit_claim_loop]
      by_cases hr :
        (st1.bb.claim_wire_segment ("seg" ++ toString st1.seg_id_ctr)
          holes).1 = true
      · rw [if_pos hr]
        obtain ⟨hallE, hoff, hon⟩ :=
          claim_wire_segment_true st1.bb _ holes hr
        obtain ⟨hufeq, hroweq⟩ :=
          claim_wire_segment_uf_rows st1.bb
            ("seg" ++ toString st1.seg_id_ctr) holes
        have hpairs : ∀ pr ∈ segPairs holes,
            pr.1 ∈ (st1.bb.claim_wire_segment
              ("seg" ++ toString st1.seg_id_ctr) holes).2.uf.elems ∧
            pr.2 ∈ (st1.bb.claim_wire_segment
              ("seg" ++ toString st1.seg_id_ctr) holes).2.uf.elems := by
          intro pr hpr
          obtain ⟨a, b⟩ := pr
          obtain ⟨ha, hb⟩ := List.of_mem_zip hpr
          have hb2 := List.mem_of_mem_tail hb
          rw [hufeq]
          constructor
          · exact hsup a (by rw [hallE a ha]; rfl)
          · exact hsup b (by rw [hallE b hb2]; rfl)
        have hInv1 : (st1.bb.claim_wire_segment
            ("seg" ++ toString st1.seg_id_ctr) holes).2.uf.Inv := by
          rw [hufeq]
          exact hInv
        obtain ⟨hInv2, helems2, _⟩ :=
          applyUnions_spec (segPairs holes) _ hInv1 hpairs
        refine commit_claim_loop_elec key k rows rest _ ?_ ?_ ?_ ?_
        · exact hroweq.trans hrows
        · exact hInv2
        · intro h hh
          have hh2 : ((st1.bb.claim_wire_segment
              ("seg" ++ toString st1.seg_id_ctr) holes).2.occ h).isSome :=
            hh
          rw [helems2, hufeq]
          by_cases hmem : h ∈ holes
          · exact hsup h (by rw [hallE h hmem]; rfl)
          · rw [hoff h hmem] at hh2
            exact hsup h hh2
        · have := elecInv_applyUnions rows _ (segPairs holes) hInv1 hpairs
            (by rw [hufeq]; exact helec)
          exact this
      · rw [if_neg hr]
        obtain ⟨hu, hrw⟩ := rollbackSegs_uf_rows key k
          (PnRSt.mk (st1.bb.claim_wire_segment
            ("seg" ++ toString st1.seg_id_ctr) holes).2
            st1.nets st1.compDyn st1.pin_of_comp (st1.seg_id_ctr + 1)
            st1.max_segments)
        obtain ⟨hufeq, hroweq⟩ :=
          claim_wire_segment_uf_rows st1.bb
            ("seg" ++ toString st1.seg_id_ctr) holes
        refine ⟨?_, ?_, ?_⟩
        · rw [hu, hufeq]
          exact helec
        · rw [hu, hufeq]
          exact hInv
        · rw [hrw, hroweq]
          exact hrows
/-- C6: all five holes of each strip share one union-find class and
the V+ (resp. GND) rail holes share one class: this holds at board
construction, and every board-mutating operation of a solve preserves
it — `claim_component`, `release_component`, `claim_wire_segment` and
`release_wire_segment` do not touch the union-find at all (nor the row
count), `commit_path` only merges classes (given a well-formed
union-find whose keys cover the occupied holes), and
`rebuild_union_find` re-establishes it outright. -/
theorem elec_invariant_all_times :
    (∀ (rows : Nat) (wl : List Nat),
      ElecInv rows (mkBreadboard rows wl).uf.parent ∧
      (mkBreadboard rows wl).uf.Inv) ∧
    (∀ (bb : Breadboard) (cid : String) (b p : List Hole),
      (bb.claim_component cid b p).2.uf = bb.uf ∧
      (bb.claim_component cid b p).2.rows = bb.rows) ∧
    (∀ (bb : Breadboard) (b p : List Hole),
      (bb.release_component b p).uf = bb.uf ∧
      (bb.release_component b p).rows = bb.rows) ∧
    (∀ (bb : Breadboard) (sid : String) (hs : List Hole),
      (bb.claim_wire_segment sid hs).2.uf = bb.uf ∧
      (bb.claim_wire_segment sid hs).2.rows = bb.rows) ∧
    (∀ (bb : Breadboard) (hs : List Hole),
      (bb.release_wire_segment hs).uf = bb.uf ∧
      (bb.release_wire_segment hs).rows = bb.rows) ∧
    (∀ (st : PnRSt) (key : String) (edges : List (Hole × Hole)),
      st.bb.uf.Inv →
      (∀ h, (st.bb.occ h).isSome → h ∈ st.bb.uf.elems) →
      ElecInv st.bb.rows st.bb.uf.parent →
      ElecInv st.bb.rows (commit_path st key edges).2.bb.uf.parent ∧
      (commit_path st key edges).2.bb.uf.Inv ∧
      (commit_path st key edges).2.bb.rows = st.bb.rows) ∧
    (∀ (bb : Breadboard) (nets : Nets),
      (∀ kn ∈ nets, ∀ seg ∈ kn.2.seg_paths, ∀ h ∈ seg,
        h ∈ realHoles bb.rows) →
      ElecInv bb.rows (bb.rebuild_union_find nets).uf.parent ∧
      (bb.rebuild_union_find nets).uf.Inv) := by
  refine ⟨?_, ?_, ?_, ?_, ?_, ?_, elecInv_rebuild⟩
  · intro rows wl
    exact elecInv_rebuild (mkBreadboard rows wl) [] (by simp)
  · intro bb cid b p
    unfold Breadboard.claim_component
    split <;> exact ⟨rfl, rfl⟩
  · intro bb b p
    exact ⟨rfl, rfl⟩
  · exact claim_wire_segment_uf_rows
  · intro bb hs
    exact ⟨rfl, rfl⟩
  · intro st key edges hInv hsup helec
    by_cases he : edges.isEmpty = true
    · simp only [commit_path, if_pos he]
      exact ⟨helec, hInv, by first | rfl | trivial⟩
    · cases hg : getNet st.nets key with
      | none =>
          simp only [commit_path, if_neg he, hg]
          exact ⟨helec, hInv, by first | rfl | trivial⟩
      | some net =>
          cases hval : validate_edges st.bb net.name edges with
          | none =>
              simp only [commit_path, if_neg he, hg, hval]
              exact ⟨helec, hInv, by first | rfl | trivial⟩
          | some sha =>
              simp only [commit_path, if_neg he, hg, hval]
              exact commit_claim_loop_elec key sha.length st.bb.rows sha st
                rfl hInv hsup helec

/-! ## C5: the classes after rebuild_union_find -/

/-- C5: after `rebuild_union_find(nets)`, two holes share a union-find
representative (`sameRep`, i.e. `find(a) == find(b)`) if and only if
they are related by the equivalence closure of the union of the strip
relation, the V+ and GND rail relations, and the consecutive-hole
wire-segment relation of the nets' committed `seg_paths`. -/
theorem rebuild_union_find_sameRep (bb : Breadboard) (nets : Nets)
    (hsegs : ∀ kn ∈ nets, ∀ seg ∈ kn.2.seg_paths, ∀ h ∈ seg,
      h ∈ realHoles bb.rows) (x y : Hole) :
    (bb.rebuild_union_find nets).uf.sameRep x y = true ↔
      Relation.EqvGen (specBaseRel bb.rows nets) x y := by
  obtain ⟨hi, _, hs⟩ := rebuild_union_find_spec bb nets hsegs
  rw [UF.sameRep_iff _ hi, hs]

def exNetsC5 : Nets :=
  [("N1", Net.mk "N1" [] [] [[(0, 0), (0, 7)]])]

/-- Witness for C5 on a one-row board with one committed segment. -/
theorem rebuild_union_find_sameRep_witness :
    (∀ kn ∈ exNetsC5, ∀ seg ∈ kn.2.seg_paths, ∀ h ∈ seg,
      h ∈ realHoles (mkBreadboard 1 [3]).rows) ∧
    (((mkBreadboard 1 [3]).rebuild_union_find exNetsC5).uf.sameRep
        (0, 0) (0, 7) = true ↔
      Relation.EqvGen (specBaseRel (mkBreadboard 1 [3]).rows exNetsC5)
        (0, 0) (0, 7)) :=
  ⟨by decide,
    rebuild_union_find_sameRep (mkBreadboard 1 [3]) exNetsC5 (by decide)
      (0, 0) (0, 7)⟩


theorem mem_addRep (l : List Hole) (x a : Hole) :
    a ∈ addRep l x ↔ a ∈ l ∨ a = x := by
  unfold addRep
  by_cases hx : x ∈ l
  · simp only [if_pos hx]
    constructor
    · exact Or.inl
    · rintro (h | rfl)
      · exact h
      · exact hx
  · simp [if_neg hx]

theorem addRep_self_mem (l : List Hole) (x : Hole) : x ∈ addRep l x := by
  rw [mem_addRep]
  exact Or.inr rfl

theorem addRep_sub (l : List Hole) (x a : Hole) (h : a ∈ l) :
    a ∈ addRep l x := (mem_addRep l x a).mpr (Or.inl h)

theorem addRep_nodup (l : List Hole) (x : Hole) (h : l.Nodup) :
    (addRep l x).Nodup := by
  unfold addRep
  by_cases hx : x ∈ l
  · simpa [if_pos hx] using h
  · simp only [if_neg hx]
    refine List.Nodup.append h (List.nodup_singleton x) ?_
    intro a ha hb
    simp only [List.mem_singleton] at hb
    subst hb
    exact hx ha

/-- The representative-collecting fold shared by `net_satisfied` and
`route_net`'s group construction: threading facts and the meaning of
the collected list. -/
theorem repsFold_spec (u0 : UF) :
    ∀ (ts : List Hole) (u : UF) (reps : List Hole), u.Inv → UFSim u0 u →
      (ts.foldl repStep (reps, u)).2.Inv ∧
      UFSim u0 (ts.foldl repStep (reps, u)).2 ∧
      (∀ r ∈ (ts.foldl repStep (reps, u)).1,
        r ∈ reps ∨ ∃ t ∈ ts, Reaches u0.parent t r) ∧
      (∀ t ∈ ts, ∃ r ∈ (ts.foldl repStep (reps, u)).1, Reaches u0.parent t r) ∧
      (∀ r ∈ reps, r ∈ (ts.foldl repStep (reps, u)).1) ∧
      (reps.Nodup → (ts.foldl repStep (reps, u)).1.Nodup)
  | [], u, reps, hInv, hsim => by
      exact ⟨hInv, hsim, fun r hr => Or.inl hr, by simp,
        fun r hr => hr, fun h => h⟩
  | t :: ts, u, reps, hInv, hsim => by
      obtain ⟨hsim1, hInv1, hreach1⟩ := u.find_sim hInv t
      have hstep : (t :: ts).foldl repStep (reps, u) =
          ts.foldl repStep (addRep reps (u.find t).1, (u.find t).2) :=
        rfl
      have hreach0 : Reaches u0.parent t (u.find t).1 :=
        (hsim.1 t (u.find t).1).mp hreach1
      obtain ⟨ha, hb, hc, hd, he, hf⟩ := repsFold_spec u0 ts (u.find t).2
        (addRep reps (u.find t).1) hInv1 (hsim.trans' hsim1)
      rw [hstep]
      refine ⟨ha, hb, ?_, ?_, ?_, ?_⟩
      · intro r hr
        rcases hc r hr with hr2 | ⟨t2, ht2, hrt2⟩
        · rcases (mem_addRep _ _ _).mp hr2 with hr3 | rfl
          · exact Or.inl hr3
          · exact Or.inr ⟨t, List.mem_cons_self _ _, hreach0⟩
        · exact Or.inr ⟨t2, List.mem_cons_of_mem _ ht2, hrt2⟩
      · intro t2 ht2
        rcases List.mem_cons.mp ht2 with rfl | ht3
        · exact ⟨(u.find t2).1, he _ (addRep_self_mem _ _), hreach0⟩
        · exact hd t2 ht3
      · intro r hr
        exact he r (addRep_sub _ _ _ hr)
      · intro hnd
        exact hf (addRep_nodup _ _ hnd)

theorem length_eq_one_of_allEq {l : List Hole} (hnd : l.Nodup)
    (hne : l ≠ []) (hall : ∀ a ∈ l, ∀ b ∈ l, a = b) : l.length = 1 := by
  cases l with
  | nil => exact absurd rfl hne
  | cons a t =>
      cases t with
      | nil => rfl
      | cons b t2 =>
          exfalso
        -- a = b but nodup
          have hab : a = b := hall a (by simp) b (by simp)
          have := (List.nodup_cons.mp hnd).1
          exact this (by rw [hab]; simp)

/-- One representative hole per fixed anchor: the head of the anchor's
rail hole set, when it exists. -/
def anchorHeads (bb : Breadboard) (net : Net) : List Hole :=
  net.fixed_anchors.filterMap (fun a =>
    (bb.hole_set_for_net_anchor a).head?)

/-- The holes whose union-find classes `net_satisfied` compares: the
net's terminals followed by one hole per fixed anchor. -/
def elemsList (bb : Breadboard) (net : Net) : List Hole :=
  net.terms ++ anchorHeads bb net

theorem anchorsFold_eq (bb : Breadboard) :
    ∀ (l : List String) (b : List Hole × UF),
      l.foldl (anchorStep bb) b =
      (l.filterMap (fun a => (bb.hole_set_for_net_anchor a).head?)).foldl
        repStep b
  | [], _ => rfl
  | a :: l, b => by
      cases hg : bb.hole_set_for_net_anchor a with
      | nil =>
          have h1 : (a :: l).foldl (anchorStep bb) b =
              l.foldl (anchorStep bb) b := by
            simp only [List.foldl_cons, anchorStep, hg]
          rw [h1, anchorsFold_eq bb l b]
          simp [List.filterMap_cons, hg]
      | cons h t =>
          have h1 : (a :: l).foldl (anchorStep bb) b =
              l.foldl (anchorStep bb) (repStep b h) := by
            simp only [List.foldl_cons, anchorStep, hg]
          rw [h1, anchorsFold_eq bb l _]
          simp [List.filterMap_cons, hg]

/-- Frame of the state-threading `find` wrappers: everything except the
union-find is unchanged. -/
def SameShape (st st2 : PnRSt) : Prop :=
  st2.nets = st.nets ∧ st2.bb.occ = st.bb.occ ∧ st2.bb.rows = st.bb.rows ∧
  st2.bb.wire_lengths = st.bb.wire_lengths ∧ st2.compDyn = st.compDyn ∧
  st2.pin_of_comp = st.pin_of_comp ∧ st2.seg_id_ctr = st.seg_id_ctr ∧
  st2.max_segments = st.max_segments

theorem net_satisfied_spec (st : PnRSt) (key : String)
    (hInv : st.bb.uf.Inv) :
    UFSim st.bb.uf (net_satisfied st key).2.bb.uf ∧
    (net_satisfied st key).2.bb.uf.Inv ∧
    SameShape st (net_satisfied st key).2 ∧
    ((net_satisfied st key).1 = true ↔
      ∃ net, getNet st.nets key = some net ∧
        elemsList st.bb net ≠ [] ∧
        ∀ x ∈ elemsList st.bb net, ∀ y ∈ elemsList st.bb net,
          SameRoot st.bb.uf.parent x y) := by
  cases hg : getNet st.nets key with
  | none =>
      simp only [net_satisfied, hg]
      refine ⟨UFSim.rfl' _, hInv, ⟨rfl, rfl, rfl, rfl, rfl, rfl, rfl, rfl⟩, ?_⟩
      simp
  | some net =>
      simp only [net_satisfied, hg]
      have hconv : net.fixed_anchors.foldl (anchorStep st.bb)
          (net.terms.foldl repStep ([], st.bb.uf)) =
          (elemsList st.bb net).foldl repStep ([], st.bb.uf) := by
        rw [anchorsFold_eq st.bb]
        rw [elemsList, anchorHeads, List.foldl_append]
      rw [hconv]
      obtain ⟨ha, hb, hc, hd, he, hf⟩ := repsFold_spec st.bb.uf
        (elemsList st.bb net) st.bb.uf [] hInv (UFSim.rfl' _)
      refine ⟨hb, ha, ⟨rfl, rfl, rfl, rfl, rfl, rfl, rfl, rfl⟩, ?_⟩
      rw [beq_iff_eq]
      constructor
      · intro hlen
        obtain ⟨r0, hr0⟩ := List.length_eq_one.mp hlen
        refine ⟨net, rfl, ?_, ?_⟩
        · intro hemp
          have hmem : r0 ∈
              ((elemsList st.bb net).foldl repStep ([], st.bb.uf)).1 := by
            rw [hr0]
            simp
          rcases hc r0 hmem with h | ⟨t2, ht2, _⟩
          · simp at h
          · rw [hemp] at ht2
            simp at ht2
        · intro x hx y hy
          obtain ⟨rx, hrx, hrrx⟩ := hd x hx
          obtain ⟨ry, hry, hrry⟩ := hd y hy
          rw [hr0] at hrx hry
          simp only [List.mem_singleton] at hrx hry
          rw [hrx] at hrrx
          rw [hry] at hrry
          exact ⟨r0, hrrx, hrry⟩
      · rintro ⟨net2, hnet2, hne, hall⟩
        injection hnet2 with hnet2
        subst hnet2
        apply length_eq_one_of_allEq (hf List.nodup_nil)
        · intro hemp
          obtain ⟨t0, ht0⟩ := List.exists_mem_of_ne_nil _ hne
          obtain ⟨r, hr, _⟩ := hd t0 ht0
          rw [hemp] at hr
          simp at hr
        · intro a hra b hrb
          rcases hc a hra with h | ⟨ta, hta, hrta⟩
          · simp at h
          rcases hc b hrb with h | ⟨tb, htb, hrtb⟩
          · simp at h
          obtain ⟨r, hr1, hr2⟩ := hall ta hta tb htb
          rw [reaches_unique hrta hr1, reaches_unique hrtb hr2]

theorem addGroup_keys (groups : List (Hole × List Hole)) (r : Hole)
    (t : Hole) :
    (addGroup groups r t).map Prod.fst = addRep (groups.map Prod.fst) r := by
  unfold addGroup addRep
  by_cases hr : r ∈ groups.map Prod.fst
  · have hany : groups.any (fun g => g.1 == r) = true := by
      rw [List.any_eq_true]
      obtain ⟨g, hg, he⟩ := List.mem_map.mp hr
      exact ⟨g, hg, by rw [he]; exact beq_self_eq_true r⟩
    rw [if_pos hany, if_pos hr]
    rw [List.map_map]
    apply List.map_congr_left
    intro g _
    simp only [Function.comp_apply]
    split <;> rfl
  · have hany : groups.any (fun g => g.1 == r) = false := by
      rw [Bool.eq_false_iff]
      intro hcon
      rw [List.any_eq_true] at hcon
      obtain ⟨g, hg, he⟩ := hcon
      exact hr (List.mem_map.mpr ⟨g, hg, beq_iff_eq.mp he⟩)
    rw [if_neg (by simp [hany]), if_neg hr]
    simp

/-- The group-building fold of `route_net` computes the same union-find
thread as the representative fold, and its group keys are the
representative list. -/
theorem groupsFold_keys :
    ∀ (ts : List Hole) (u : UF) (groups : List (Hole × List Hole)),
      (ts.foldl groupStep (groups, u)).2 =
        (ts.foldl repStep (groups.map Prod.fst, u)).2 ∧
      (ts.foldl groupStep (groups, u)).1.map Prod.fst =
        (ts.foldl repStep (groups.map Prod.fst, u)).1
  | [], u, groups => ⟨rfl, rfl⟩
  | t :: ts, u, groups => by
      have hstep1 : (t :: ts).foldl groupStep (groups, u) =
          ts.foldl groupStep (addGroup groups (u.find t).1 t, (u.find t).2) :=
        rfl
      have hstep2 : (t :: ts).foldl repStep (groups.map Prod.fst, u) =
          ts.foldl repStep
            (addRep (groups.map Prod.fst) (u.find t).1, (u.find t).2) := rfl
      rw [hstep1, hstep2, ← addGroup_keys groups (u.find t).1 t]
      exact groupsFold_keys ts (u.find t).2 (addGroup groups (u.find t).1 t)

theorem groupAnchorsFold_eq (bb : Breadboard) :
    ∀ (l : List String) (b : List (Hole × List Hole) × UF),
      l.foldl (groupAnchorStep bb) b =
      (l.filterMap (fun a => (bb.hole_set_for_net_anchor a).head?)).foldl
        groupStep b
  | [], _ => rfl
  | a :: l, b => by
      cases hg : bb.hole_set_for_net_anchor a with
      | nil =>
          have h1 : (a :: l).foldl (groupAnchorStep bb) b =
              l.foldl (groupAnchorStep bb) b := by
            simp only [List.foldl_cons, groupAnchorStep, hg]
          rw [h1, groupAnchorsFold_eq bb l b]
          simp [List.filterMap_cons, hg]
      | cons h t =>
          have h1 : (a :: l).foldl (groupAnchorStep bb) b =
              l.foldl (groupAnchorStep bb) (groupStep b h) := by
            simp only [List.foldl_cons, groupAnchorStep, hg]
          rw [h1, groupAnchorsFold_eq bb l _]
          simp [List.filterMap_cons, hg]

end Impromptu

namespace Impromptu

theorem shortsCheckB_spec (u0 : UF) (rep_a : Hole) :
    ∀ (bs : List Hole) (u : UF), u.Inv → UFSim u0 u →
      (shortsCheckB rep_a u bs).2.Inv ∧
      UFSim u0 (shortsCheckB rep_a u bs).2 ∧
      ((shortsCheckB rep_a u bs).1 = false ↔
        ∀ b ∈ bs, ¬ Reaches u0.parent b rep_a)
  | [], u, hInv, hsim => by
      refine ⟨hInv, hsim, ?_⟩
      simp [shortsCheckB]
  | b :: bs, u, hInv, hsim => by
      obtain ⟨hsim1, hInv1, hreach1⟩ := u.find_sim hInv b
      have hreach0 : Reaches u0.parent b (u.find b).1 :=
        (hsim.1 b (u.find b).1).mp hreach1
      by_cases hq : (rep_a == (u.find b).1) = true
      · have hstep : shortsCheckB rep_a u (b :: bs) = (true, (u.find b).2) := by
          simp only [shortsCheckB, hq, if_true]
        rw [hstep]
        refine ⟨hInv1, hsim.trans' hsim1, ?_⟩
        constructor
        · intro hcon
          simp at hcon
        · intro hall
          exfalso
          refine hall b (List.mem_cons_self _ _) ?_
          rw [beq_iff_eq.mp hq]
          exact hreach0
      · have hstep : shortsCheckB rep_a u (b :: bs) =
            shortsCheckB rep_a (u.find b).2 bs := by
          simp only [shortsCheckB, hq]
          rfl
        rw [hstep]
        obtain ⟨ha, hb2, hc⟩ := shortsCheckB_spec u0 rep_a bs (u.find b).2
          hInv1 (hsim.trans' hsim1)
        refine ⟨ha, hb2, hc.trans ?_⟩
        constructor
        · intro hall b2 hb3
          rcases List.mem_cons.mp hb3 with rfl | hb4
          · intro hcon
            rw [reaches_unique hreach0 hcon] at hq
            simp at hq
          · exact hall b2 hb4
        · intro hall b2 hb3
          exact hall b2 (List.mem_cons_of_mem _ hb3)

theorem shortsCheckA_spec (u0 : UF) (tj : List Hole) :
    ∀ (as2 : List Hole) (u : UF), u.Inv → UFSim u0 u →
      (shortsCheckA tj u as2).2.Inv ∧
      UFSim u0 (shortsCheckA tj u as2).2 ∧
      ((shortsCheckA tj u as2).1 = false ↔
        ∀ a ∈ as2, ∀ b ∈ tj, ¬ SameRoot u0.parent a b)
  | [], u, hInv, hsim => by
      refine ⟨hInv, hsim, ?_⟩
      simp [shortsCheckA]
  | a :: as2, u, hInv, hsim => by
      obtain ⟨hsim1, hInv1, hreach1⟩ := u.find_sim hInv a
      have hreach0 : Reaches u0.parent a (u.find a).1 :=
        (hsim.1 a (u.find a).1).mp hreach1
      obtain ⟨hB1, hB2, hB3⟩ := shortsCheckB_spec u0 (u.find a).1 tj
        (u.find a).2 hInv1 (hsim.trans' hsim1)
      by_cases hq : (shortsCheckB (u.find a).1 (u.find a).2 tj).1 = true
      · have hstep : shortsCheckA tj u (a :: as2) =
            (true, (shortsCheckB (u.find a).1 (u.find a).2 tj).2) := by
          simp only [shortsCheckA, hq, if_true]
        rw [hstep]
        refine ⟨hB1, hB2, ?_⟩
        constructor
        · intro hcon
          simp at hcon
        · intro hall
          exfalso
          have hex : ¬ ∀ b ∈ tj, ¬ Reaches u0.parent b (u.find a).1 := by
            intro hno
            simp [hB3.mpr hno] at hq
          push_neg at hex
          obtain ⟨b, hbm, hbr⟩ := hex
          exact hall a (List.mem_cons_self _ _) b hbm
            ⟨(u.find a).1, hreach0, hbr⟩
      · have hq2 : (shortsCheckB (u.find a).1 (u.find a).2 tj).1 = false := by
          simpa using hq
        have hstep : shortsCheckA tj u (a :: as2) =
            shortsCheckA tj (shortsCheckB (u.find a).1 (u.find a).2 tj).2
              as2 := by
          simp only [shortsCheckA, hq2]
          rfl
        rw [hstep]
        obtain ⟨ha2, hb2, hc2⟩ := shortsCheckA_spec u0 tj as2
          (shortsCheckB (u.find a).1 (u.find a).2 tj).2 hB1 hB2
        refine ⟨ha2, hb2, hc2.trans ?_⟩
        constructor
        · intro hall a2 ha3
          rcases List.mem_cons.mp ha3 with rfl | ha4
          · intro b hbm hsr
            obtain ⟨r, hr1, hr2⟩ := hsr
            rw [reaches_unique hr1 hreach0] at hr2
            exact (hB3.mp hq2) b hbm hr2
          · exact hall a2 ha4
        · intro hall a2 ha3
          exact hall a2 (List.mem_cons_of_mem _ ha3)

theorem shortsPairs_spec (nets : Nets) (u0 : UF) :
    ∀ (prs : List (String × String)) (u : UF), u.Inv → UFSim u0 u →
      (shortsPairs nets u prs).2.Inv ∧
      UFSim u0 (shortsPairs nets u prs).2 ∧
      ((shortsPairs nets u prs).1 = false ↔
        ∀ pr ∈ prs,
          ∀ a ∈ termsOf nets pr.1,
          ∀ b ∈ termsOf nets pr.2,
            ¬ SameRoot u0.parent a b)
  | [], u, hInv, hsim => by
      refine ⟨hInv, hsim, ?_⟩
      simp [shortsPairs]
  | (ni, nj) :: prs, u, hInv, hsim => by
      obtain ⟨hA1, hA2, hA3⟩ := shortsCheckA_spec u0
        (termsOf nets nj)
        (termsOf nets ni) u hInv hsim
      by_cases hq : (shortsCheckA
          (termsOf nets nj)
          u
          (termsOf nets ni)).1 = true
      · have hstep : shortsPairs nets u ((ni, nj) :: prs) =
            (true, (shortsCheckA
              (termsOf nets nj)
              u
              (termsOf nets ni)).2) := by
          simp only [shortsPairs, hq, if_true]
        rw [hstep]
        refine ⟨hA1, hA2, ?_⟩
        constructor
        · intro hcon
          simp at hcon
        · intro hall
          exfalso
          have hex : ¬ ∀ a ∈ (termsOf nets ni),
              ∀ b ∈ (termsOf nets nj), ¬ SameRoot u0.parent a b := by
            intro hno
            simp [hA3.mpr hno] at hq
          push_neg at hex
          obtain ⟨a, ham, b, hbm, hsr⟩ := hex
          exact hall (ni, nj) (List.mem_cons_self _ _) a ham b hbm hsr
      · have hq2 : (shortsCheckA
            (termsOf nets nj)
            u
            (termsOf nets ni)).1 = false := by
          simpa using hq
        have hstep : shortsPairs nets u ((ni, nj) :: prs) =
            shortsPairs nets (shortsCheckA
              (termsOf nets nj)
              u
              (termsOf nets ni)).2 prs := by
          simp only [shortsPairs, hq2]
          rfl
        rw [hstep]
        obtain ⟨ha2, hb2, hc2⟩ := shortsPairs_spec nets u0 prs _ hA1 hA2
        refine ⟨ha2, hb2, hc2.trans ?_⟩
        constructor
        · intro hall pr hpr
          rcases List.mem_cons.mp hpr with rfl | hpr2
          · exact hA3.mp hq2
          · exact hall pr hpr2
        · intro hall pr hpr
          exact hall pr (List.mem_cons_of_mem _ hpr)

theorem allPairs_cover :
    ∀ (l : List String) (x y : String), x ∈ l → y ∈ l → x ≠ y →
      (x, y) ∈ allPairs l ∨ (y, x) ∈ allPairs l
  | [], x, y, hx, _, _ => by simp at hx
  | a :: l, x, y, hx, hy, hne => by
      rcases List.mem_cons.mp hx with rfl | hx2
      · have hy2 : y ∈ l := by
          rcases List.mem_cons.mp hy with rfl | h
          · exact absurd rfl hne
          · exact h
        left
        simp only [allPairs, List.mem_append, List.mem_map]
        exact Or.inl ⟨y, hy2, rfl⟩
      · rcases List.mem_cons.mp hy with rfl | hy2
        · right
          simp only [allPairs, List.mem_append, List.mem_map]
          exact Or.inl ⟨x, hx2, rfl⟩
        · rcases allPairs_cover l x y hx2 hy2 hne with h | h
          · left
            simp only [allPairs, List.mem_append]
            exact Or.inr h
          · right
            simp only [allPairs, List.mem_append]
            exact Or.inr h

theorem getNet_mem (nets : Nets) (key : String) (net : Net)
    (h : getNet nets key = some net) : (key, net) ∈ nets := by
  unfold getNet at h
  cases hf : nets.find? (fun kn => kn.1 == key) with
  | none =>
      rw [hf] at h
      simp at h
  | some kn =>
      rw [hf] at h
      simp only [Option.map] at h
      injection h with h
      have hm := List.mem_of_find?_eq_some hf
      have hp := List.find?_some hf
      simp only [beq_iff_eq] at hp
      have : kn = (key, net) := by
        obtain ⟨k1, n1⟩ := kn
        simp only at hp h
        rw [hp, h]
      rw [← this]
      exact hm

theorem shorts_exist_spec (st : PnRSt) (hInv : st.bb.uf.Inv) :
    UFSim st.bb.uf (shorts_exist st).2.bb.uf ∧
    (shorts_exist st).2.bb.uf.Inv ∧
    SameShape st (shorts_exist st).2 ∧
    ((shorts_exist st).1 = false →
      ∀ k1 k2 net1 net2, getNet st.nets k1 = some net1 →
        getNet st.nets k2 = some net2 → k1 ≠ k2 →
        ∀ a ∈ net1.terms, ∀ b ∈ net2.terms,
          ¬ SameRoot st.bb.uf.parent a b) := by
  obtain ⟨hP1, hP2, hP3⟩ := shortsPairs_spec st.nets st.bb.uf
    (allPairs ((st.nets.filter (fun kn => ¬kn.2.terms.isEmpty)).map
      Prod.fst)) st.bb.uf hInv (UFSim.rfl' _)
  refine ⟨hP2, hP1, ⟨rfl, rfl, rfl, rfl, rfl, rfl, rfl, rfl⟩, ?_⟩
  intro hfalse k1 k2 net1 net2 h1 h2 hne a ha b hb
  have hnames : ∀ k net, getNet st.nets k = some net → net.terms ≠ [] →
      k ∈ (st.nets.filter (fun kn => ¬kn.2.terms.isEmpty)).map Prod.fst := by
    intro k net hk hterm
    refine List.mem_map.mpr ⟨(k, net), ?_, rfl⟩
    rw [List.mem_filter]
    refine ⟨getNet_mem _ _ _ hk, ?_⟩
    simp [hterm]
  have hk1 : k1 ∈ (st.nets.filter (fun kn => ¬kn.2.terms.isEmpty)).map
      Prod.fst := hnames k1 net1 h1 (List.ne_nil_of_mem ha)
  have hk2 : k2 ∈ (st.nets.filter (fun kn => ¬kn.2.terms.isEmpty)).map
      Prod.fst := hnames k2 net2 h2 (List.ne_nil_of_mem hb)
  have hall := hP3.mp hfalse
  intro hsr
  rcases allPairs_cover _ k1 k2 hk1 hk2 hne with hpr | hpr
  · refine hall (k1, k2) hpr a ?_ b ?_ hsr
    · simp only [termsOf, h1]
      exact ha
    · simp only [termsOf, h2]
      exact hb
  · refine hall (k2, k1) hpr b ?_ a ?_ (sameRoot_symm hsr)
    · simp only [termsOf, h2]
      exact hb
    · simp only [termsOf, h1]
      exact ha

/-- Realness invariants threaded through the search: every occupied
hole, every committed segment hole, and every recorded placement hole
is a real hole of the board. -/
def OccWF (st : PnRSt) : Prop :=
  (∀ h, (st.bb.occ h).isSome → h ∈ realHoles st.bb.rows) ∧
  (∀ kn ∈ st.nets, ∀ seg ∈ kn.2.seg_paths, ∀ h ∈ seg,
    h ∈ realHoles st.bb.rows) ∧
  (∀ name pl, st.compDyn name = some pl →
    (∀ h ∈ pl.2.1, h ∈ realHoles st.bb.rows) ∧
    (∀ h ∈ pl.2.2, h ∈ realHoles st.bb.rows))

/-- Shape invariants of the nets dictionary. -/
def NetsWF (nets : Nets) : Prop :=
  (nets.map Prod.fst).Nodup ∧ ∀ kn ∈ nets, kn.2.name = kn.1

/-- `n2` extends `n1`: same keys, terminals and anchors, and every
committed segment of `n1` is still committed in `n2`. -/
def NetsMono (n1 n2 : Nets) : Prop :=
  (∀ key, (getNet n1 key).map (fun n => (n.terms, n.fixed_anchors)) =
    (getNet n2 key).map (fun n => (n.terms, n.fixed_anchors))) ∧
  (∀ kn ∈ n1, ∀ seg ∈ kn.2.seg_paths, ∃ kn2 ∈ n2, seg ∈ kn2.2.seg_paths)

theorem netsMono_refl (n : Nets) : NetsMono n n :=
  ⟨fun _ => rfl, fun kn hkn _ hseg => ⟨kn, hkn, hseg⟩⟩

theorem netsMono_trans {a b c : Nets} (h1 : NetsMono a b)
    (h2 : NetsMono b c) : NetsMono a c := by
  refine ⟨fun key => (h1.1 key).trans (h2.1 key), ?_⟩
  intro kn hkn seg hseg
  obtain ⟨kn2, hkn2, hseg2⟩ := h1.2 kn hkn seg hseg
  exact h2.2 kn2 hkn2 seg hseg2

theorem specBaseRel_mono (rows : Nat) {n1 n2 : Nets} (h : NetsMono n1 n2) :
    ∀ v w, specBaseRel rows n1 v w → specBaseRel rows n2 v w := by
  intro v w hvw
  rcases hvw with hs | hr | hr | ⟨kn, hkn, seg, hseg, hpr⟩
  · exact Or.inl hs
  · exact Or.inr (Or.inl hr)
  · exact Or.inr (Or.inr (Or.inl hr))
  · obtain ⟨kn2, hkn2, hseg2⟩ := h.2 kn hkn seg hseg
    exact Or.inr (Or.inr (Or.inr ⟨kn2, hkn2, seg, hseg2, hpr⟩))

/-- The union-find agrees with the electrical relation of the current
nets. -/
def UFC (st : PnRSt) : Prop :=
  st.bb.uf.Inv ∧
  (∀ x y, SameRoot st.bb.uf.parent x y ↔
    Relation.EqvGen (specBaseRel st.bb.rows st.nets) x y)

/-- The routed net's elements all lie in one electrical class. -/
def SemOK (st : PnRSt) (key : String) : Prop :=
  ∀ net, getNet st.nets key = some net →
    ∀ x ∈ elemsList st.bb net, ∀ y ∈ elemsList st.bb net,
      Relation.EqvGen (specBaseRel st.bb.rows st.nets) x y

theorem hole_set_congr {bb1 bb2 : Breadboard} (h : bb1.rows = bb2.rows)
    (a : String) :
    bb1.hole_set_for_net_anchor a = bb2.hole_set_for_net_anchor a := by
  unfold Breadboard.hole_set_for_net_anchor
  rw [h]

theorem elemsList_congr {bb1 bb2 : Breadboard} (h : bb1.rows = bb2.rows)
    (net : Net) : elemsList bb1 net = elemsList bb2 net := by
  unfold elemsList anchorHeads
  rw [List.filterMap_congr (fun a _ => by rw [hole_set_congr h a])]

theorem SemOK_mono {st1 st2 : PnRSt} (key : String)
    (hrows : st1.bb.rows = st2.bb.rows)
    (hm : NetsMono st1.nets st2.nets) (h : SemOK st1 key) :
    SemOK st2 key := by
  intro net2 hg2 x hx y hy
  have hkey := hm.1 key
  rw [hg2] at hkey
  cases hg1 : getNet st1.nets key with
  | none =>
      rw [hg1] at hkey
      simp at hkey
  | some net1 =>
      rw [hg1] at hkey
      simp only [Option.map] at hkey
      injection hkey with hkey
      have hterms : net1.terms = net2.terms := congrArg Prod.fst hkey
      have hanch : net1.fixed_anchors = net2.fixed_anchors :=
        congrArg Prod.snd hkey
      have helems : elemsList st1.bb net1 = elemsList st2.bb net2 := by
        rw [elemsList_congr hrows net1]
        unfold elemsList anchorHeads
        rw [hterms, hanch]
      have hx1 : x ∈ elemsList st1.bb net1 := by
        rw [helems]
        exact hx
      have hy1 : y ∈ elemsList st1.bb net1 := by
        rw [helems]
        exact hy
      have := h net1 hg1 x hx1 y hy1
      rw [hrows] at this
      exact eqvGen_le (fun v w hvw => Relation.EqvGen.rel v w
        (specBaseRel_mono st2.bb.rows hm v w hvw)) x y this

theorem setNet_map_fst (nets : Nets) (key : String) (v : Net) :
    (setNet nets key v).map Prod.fst = nets.map Prod.fst := by
  unfold setNet
  rw [List.map_map]
  apply List.map_congr_left
  intro kn _
  simp only [Function.comp_apply]
  split <;> rfl

theorem mem_setNet {nets : Nets} {key : String} {v : Net} {kn : String × Net}
    (h : kn ∈ setNet nets key v) :
    (∃ kn1 ∈ nets, (kn1.1 == key) = true ∧ kn = (kn1.1, v)) ∨ kn ∈ nets := by
  unfold setNet at h
  obtain ⟨kn1, hkn1, he⟩ := List.mem_map.mp h
  by_cases hk : (kn1.1 == key) = true
  · rw [if_pos hk] at he
    exact Or.inl ⟨kn1, hkn1, hk, he.symm⟩
  · rw [if_neg hk] at he
    rw [← he]
    exact Or.inr hkn1

theorem getNet_setNet_other (nets : Nets) (key k2 : String) (v : Net)
    (hne : k2 ≠ key) : getNet (setNet nets key v) k2 = getNet nets k2 := by
  induction nets with
  | nil => rfl
  | cons kn rest ih =>
      by_cases hk : (kn.1 == key) = true
      · have hk2 : (kn.1 == k2) = false := by
          rw [beq_iff_eq] at hk
          rw [hk]
          simp only [beq_eq_false_iff_ne, ne_eq]
          exact fun e => hne e.symm
        simp only [setNet, List.map_cons, if_pos hk, getNet, List.find?]
        simp only [hk2]
        have := ih
        simp only [setNet, getNet] at this
        exact this
      · simp only [setNet, List.map_cons, if_neg hk, getNet, List.find?]
        cases hk2 : (kn.1 == k2) with
        | true => rfl
        | false =>
            have := ih
            simp only [setNet, getNet] at this
            exact this

theorem NetsWF_setNet {nets : Nets} (key : String) (v : Net)
    (hv : v.name = key) (h : NetsWF nets) : NetsWF (setNet nets key v) := by
  refine ⟨by rw [setNet_map_fst]; exact h.1, ?_⟩
  intro kn hkn
  rcases mem_setNet hkn with ⟨kn1, _, hk, he⟩ | hmem
  · rw [he]
    rw [beq_iff_eq] at hk
    simp only
    rw [hv, hk]
  · exact h.2 kn hmem

/-- Occupancy support of a successful component claim. -/
theorem claim_component_parts (bb : Breadboard) (cid : String)
    (b p : List Hole) :
    (bb.claim_component cid b p).2.rows = bb.rows ∧
    (bb.claim_component cid b p).2.uf = bb.uf ∧
    (bb.claim_component cid b p).2.wire_lengths = bb.wire_lengths ∧
    (∀ h, (((bb.claim_component cid b p).2).occ h).isSome →
      (bb.occ h).isSome) ∧
    ((bb.claim_component cid b p).1 = true →
      ∀ h ∈ b ++ p, bb.occ h = some OccT.empty) := by
  by_cases hc : (b ++ p).all (fun h => bb.occ h == some OccT.empty)
  · have h1 : (bb.claim_component cid b p).1 = true := by
      simp only [Breadboard.claim_component, if_pos hc]
    have h2 : (bb.claim_component cid b p).2.occ =
        setOccAll (setOccAll bb.occ b (OccT.comp_body cid)) p
          (OccT.comp_pin cid) := by
      simp only [Breadboard.claim_component, if_pos hc]
    have h3 : (bb.claim_component cid b p).2.rows = bb.rows ∧
        (bb.claim_component cid b p).2.uf = bb.uf ∧
        (bb.claim_component cid b p).2.wire_lengths = bb.wire_lengths := by
      simp only [Breadboard.claim_component, if_pos hc]
      exact ⟨trivial, trivial, trivial⟩
    simp only [List.all_eq_true, beq_iff_eq] at hc
    refine ⟨h3.1, h3.2.1, h3.2.2, ?_, fun _ => hc⟩
    intro h hh
    rw [h2, setOccAll_eq_ite, setOccAll_eq_ite] at hh
    by_cases hp : h ∈ p
    · rw [hc h (List.mem_append.mpr (Or.inr hp))]
      rfl
    · rw [if_neg hp] at hh
      by_cases hb : h ∈ b
      · rw [hc h (List.mem_append.mpr (Or.inl hb))]
        rfl
      · rw [if_neg hb] at hh
        exact hh
  · have hval : bb.claim_component cid b p = (false, bb) := by
      simp only [Breadboard.claim_component, if_neg hc]
    rw [hval]
    refine ⟨rfl, rfl, rfl, fun h hh => hh, ?_⟩
    intro hcon
    simp at hcon

theorem release_component_parts (bb : Breadboard) (b p : List Hole) :
    (bb.release_component b p).rows = bb.rows ∧
    (bb.release_component b p).uf = bb.uf ∧
    (∀ h, (((bb.release_component b p).occ h).isSome) →
      (bb.occ h).isSome ∨ h ∈ b ++ p) := by
  refine ⟨rfl, rfl, ?_⟩
  intro h hh
  by_cases hm : h ∈ b ++ p
  · exact Or.inr hm
  · left
    have : (bb.release_component b p).occ h = bb.occ h :=
      setOccAll_not_mem _ _ _ _ hm
    rw [← this]
    exact hh

theorem claim_wire_segment_parts (bb : Breadboard) (sid : String)
    (hs : List Hole) :
    (∀ h, (((bb.claim_wire_segment sid hs).2).occ h).isSome →
      (bb.occ h).isSome) := by
  intro h hh
  by_cases hr : (bb.claim_wire_segment sid hs).1 = true
  · obtain ⟨hallE, hoff, _⟩ := claim_wire_segment_true bb sid hs hr
    by_cases hm : h ∈ hs
    · rw [hallE h hm]
      rfl
    · rw [hoff h hm] at hh
      exact hh
  · have := claim_wire_segment_false bb sid hs (by simpa using hr)
    rw [this] at hh
    exact hh

theorem release_wire_segment_parts (bb : Breadboard) (hs : List Hole) :
    (bb.release_wire_segment hs).rows = bb.rows ∧
    (bb.release_wire_segment hs).uf = bb.uf ∧
    (∀ h, (((bb.release_wire_segment hs).occ h).isSome) →
      (bb.occ h).isSome ∨ h ∈ hs) := by
  refine ⟨rfl, rfl, ?_⟩
  intro h hh
  by_cases hm : h ∈ hs
  · exact Or.inr hm
  · left
    have : (bb.release_wire_segment hs).occ h = bb.occ h :=
      setOccAll_not_mem _ _ _ _ hm
    rw [← this]
    exact hh

end Impromptu

namespace Impromptu

theorem getNet_of_mem_nodup :
    ∀ {nets : Nets} {kn : String × Net},
      (nets.map Prod.fst).Nodup → kn ∈ nets → getNet nets kn.1 = some kn.2
  | [], kn, _, h => by simp at h
  | kn1 :: rest, kn, hnd, h => by
      rcases List.mem_cons.mp h with rfl | hmem
      · simp [getNet, List.find?]
      · have hne : (kn1.1 == kn.1) = false := by
          rw [List.map_cons, List.nodup_cons] at hnd
          have : kn.1 ∈ rest.map Prod.fst :=
            List.mem_map.mpr ⟨kn, hmem, rfl⟩
          simp only [beq_eq_false_iff_ne, ne_eq]
          intro e
          rw [e] at hnd
          exact hnd.1 this
        have ih := getNet_of_mem_nodup
          (by rw [List.map_cons, List.nodup_cons] at hnd; exact hnd.2) hmem
        simp only [getNet, List.find?, hne]
        exact ih

theorem setNet_mem_image {nets : Nets} {kn : String × Net} (key : String)
    (v : Net) (h : kn ∈ nets) (hk : (kn.1 == key) = true) :
    (kn.1, v) ∈ setNet nets key v := by
  unfold setNet
  refine List.mem_map.mpr ⟨kn, h, ?_⟩
  rw [if_pos hk]

theorem setNet_mem_image_other {nets : Nets} {kn : String × Net}
    (key : String) (v : Net) (h : kn ∈ nets) (hk : (kn.1 == key) = false) :
    kn ∈ setNet nets key v := by
  unfold setNet
  refine List.mem_map.mpr ⟨kn, h, ?_⟩
  rw [hk]
  simp

theorem appendSeg_mono (nets : Nets) (key : String) (holes : List Hole)
    (hnd : (nets.map Prod.fst).Nodup) :
    NetsMono nets (appendSeg nets key holes) := by
  unfold appendSeg
  cases hg : getNet nets key with
  | none => exact netsMono_refl nets
  | some net =>
      constructor
      · intro k2
        by_cases hk : k2 = key
        · subst hk
          rw [hg, getNet_setNet_self k2 _ nets net hg]
          rfl
        · rw [getNet_setNet_other nets key k2 _ hk]
      · intro kn hkn seg hseg
        by_cases hk : (kn.1 == key) = true
        · have hgkn := getNet_of_mem_nodup hnd hkn
          rw [beq_iff_eq] at hk
          rw [hk, hg] at hgkn
          injection hgkn with hgkn
          refine ⟨(kn.1, { net with seg_paths := net.seg_paths ++ [holes] }),
            setNet_mem_image key _ hkn (by rw [hk]; exact beq_self_eq_true key),
            ?_⟩
          rw [← hgkn] at hseg
          simp only
          exact List.mem_append.mpr (Or.inl hseg)
        · have hk2 : (kn.1 == key) = false := by simpa using hk
          exact ⟨kn, setNet_mem_image_other key _ hkn hk2, hseg⟩

theorem mem_appendSeg {nets : Nets} {key : String} {holes : List Hole}
    {kn : String × Net} (h : kn ∈ appendSeg nets key holes) :
    kn ∈ nets ∨
    ∃ net, getNet nets key = some net ∧
      kn.2 = { net with seg_paths := net.seg_paths ++ [holes] } := by
  unfold appendSeg at h
  cases hg : getNet nets key with
  | none =>
      rw [hg] at h
      exact Or.inl h
  | some net =>
      rw [hg] at h
      rcases mem_setNet h with ⟨kn1, _, _, he⟩ | hmem
      · right
        exact ⟨net, rfl, by rw [he]⟩
      · exact Or.inl hmem

theorem NetsWF_appendSeg {nets : Nets} (key : String) (holes : List Hole)
    (h : NetsWF nets) : NetsWF (appendSeg nets key holes) := by
  unfold appendSeg
  cases hg : getNet nets key with
  | none => exact h
  | some net =>
      refine NetsWF_setNet key _ ?_ h
      have := h.2 (key, net) (getNet_mem nets key net hg)
      exact this

end Impromptu

namespace Impromptu

theorem releaseFold_support :
    ∀ (l : List (List Hole)) (bb : Breadboard) (h : Hole),
      (((l.foldl (fun b seg => b.release_wire_segment seg) bb).occ h).isSome) →
      (bb.occ h).isSome ∨ ∃ seg ∈ l, h ∈ seg
  | [], _, _, hh => Or.inl hh
  | s :: ss, bb, h, hh => by
      have hstep : (s :: ss).foldl (fun b seg => b.release_wire_segment seg)
          bb = ss.foldl (fun b seg => b.release_wire_segment seg)
            (bb.release_wire_segment s) := rfl
      rw [hstep] at hh
      rcases releaseFold_support ss (bb.release_wire_segment s) h hh with
        h2 | ⟨seg, hseg, hm⟩
      · rcases (release_wire_segment_parts bb s).2.2 h h2 with h3 | h3
        · exact Or.inl h3
        · exact Or.inr ⟨s, List.mem_cons_self _ _, h3⟩
      · exact Or.inr ⟨seg, List.mem_cons_of_mem _ hseg, hm⟩

theorem rollbackSegs_wf (key : String) (k : Nat) (st : PnRSt)
    (hocc : OccWF st) (hwf : NetsWF st.nets) :
    OccWF (rollbackSegs key k st) ∧ NetsWF (rollbackSegs key k st).nets ∧
    (rollbackSegs key k st).bb.rows = st.bb.rows ∧
    (rollbackSegs key k st).compDyn = st.compDyn ∧
    (rollbackSegs key k st).pin_of_comp = st.pin_of_comp ∧
    (rollbackSegs key k st).max_segments = st.max_segments := by
  unfold rollbackSegs
  cases hg : getNet st.nets key with
  | none => exact ⟨hocc, hwf, rfl, rfl, rfl, rfl⟩
  | some net =>
      have hmem := getNet_mem st.nets key net hg
      have hsegsr : ∀ seg ∈ net.seg_paths, ∀ h ∈ seg,
          h ∈ realHoles st.bb.rows := hocc.2.1 (key, net) hmem
      have hrows := (releaseFold_uf_rows (net.seg_paths.drop
        (net.seg_paths.length - k)) st.bb).2
      refine ⟨⟨?_, ?_, ?_⟩, ?_, hrows, rfl, rfl, rfl⟩
      · intro h hh
        simp only at hh ⊢
        rw [hrows]
        rcases releaseFold_support _ st.bb h hh with h2 | ⟨seg, hseg, hm⟩
        · exact hocc.1 h h2
        · exact hsegsr seg (List.mem_of_mem_drop hseg) h hm
      · intro kn hkn seg hseg h hm
        simp only at hkn ⊢
        rw [hrows]
        rcases mem_setNet hkn with ⟨kn1, hkn1, _, he⟩ | hkn2
        · rw [he] at hseg
          simp only at hseg
          exact hsegsr seg (List.take_subset _ _ hseg) h hm
        · exact hocc.2.1 kn hkn2 seg hseg h hm
      · intro name pl hpl
        simp only at hpl ⊢
        rw [hrows]
        exact hocc.2.2 name pl hpl
      · simp only
        refine NetsWF_setNet key _ ?_ hwf
        have := hwf.2 (key, net) hmem
        exact this

theorem commit_claim_loop_wf (key : String) (k : Nat) :
    ∀ (segs : List (List Hole)) (st1 : PnRSt),
      OccWF st1 → NetsWF st1.nets →
      OccWF (commit_claim_loop key k st1 segs).2 ∧
      NetsWF (commit_claim_loop key k st1 segs).2.nets ∧
      (commit_claim_loop key k st1 segs).2.bb.rows = st1.bb.rows ∧
      (commit_claim_loop key k st1 segs).2.compDyn = st1.compDyn ∧
      (commit_claim_loop key k st1 segs).2.pin_of_comp = st1.pin_of_comp ∧
      (commit_claim_loop key k st1 segs).2.max_segments = st1.max_segments ∧
      ((commit_claim_loop key k st1 segs).1 = true →
        NetsMono st1.nets (commit_claim_loop key k st1 segs).2.nets)
  | [], st1, hocc, hwf =>
      ⟨hocc, hwf, rfl, rfl, rfl, rfl, fun _ => netsMono_refl _⟩
  | holes :: rest, st1, hocc, hwf => by
      simp only [commit_claim_loop]
      by_cases hr :
        (st1.bb.claim_wire_segment ("seg" ++ toString st1.seg_id_ctr)
          holes).1 = true
      · rw [if_pos hr]
        obtain ⟨hallE, hoff, hon⟩ :=
          claim_wire_segment_true st1.bb _ holes hr
        obtain ⟨hufeq, hroweq⟩ := claim_wire_segment_uf_rows st1.bb
          ("seg" ++ toString st1.seg_id_ctr) holes
        have hocc2 : OccWF (PnRSt.mk
            (Breadboard.mk (st1.bb.claim_wire_segment
              ("seg" ++ toString st1.seg_id_ctr) holes).2.rows
              (st1.bb.claim_wire_segment
                ("seg" ++ toString st1.seg_id_ctr) holes).2.wire_lengths
              (st1.bb.claim_wire_segment
                ("seg" ++ toString st1.seg_id_ctr) holes).2.occ
              (applyUnions (st1.bb.claim_wire_segment
                ("seg" ++ toString st1.seg_id_ctr) holes).2.uf
                (segPairs holes)))
            (appendSeg st1.nets key holes) st1.compDyn st1.pin_of_comp
            (st1.seg_id_ctr + 1) st1.max_segments) := by
        -- support
          refine ⟨?_, ?_, ?_⟩
          · intro h hh
            simp only at hh ⊢
            rw [hroweq]
            exact hocc.1 h (claim_wire_segment_parts st1.bb _ holes h hh)
          · intro kn hkn seg hseg h hm
            simp only at hkn ⊢
            rw [hroweq]
            rcases mem_appendSeg hkn with hkn2 | ⟨net, hgnet, he⟩
            · exact hocc.2.1 kn hkn2 seg hseg h hm
            · rw [he] at hseg
              simp only at hseg
              rcases List.mem_append.mp hseg with h2 | h2
              · exact hocc.2.1 (key, net)
                  (getNet_mem st1.nets key net hgnet) seg h2 h hm
              · simp only [List.mem_singleton] at h2
                subst h2
                refine hocc.1 h ?_
                rw [hallE h hm]
                rfl
          · intro name pl hpl
            simp only at hpl ⊢
            rw [hroweq]
            exact hocc.2.2 name pl hpl
        obtain ⟨ha, hb, hc, hd, he, hf, hg⟩ :=
          commit_claim_loop_wf key k rest _ hocc2
            (NetsWF_appendSeg key holes hwf)
        refine ⟨ha, hb, ?_, hd, he, hf, ?_⟩
        · rw [hc]
          simp only
          exact hroweq
        · intro htrue
          exact netsMono_trans (appendSeg_mono st1.nets key holes hwf.1) (hg htrue)
      · rw [if_neg hr]
        have hfb := claim_wire_segment_false st1.bb _ holes
          (by simpa using hr)
        rw [hfb]
        obtain ⟨ha, hb, hc, hd, he, hf⟩ := rollbackSegs_wf key k
          (PnRSt.mk st1.bb st1.nets st1.compDyn st1.pin_of_comp
            (st1.seg_id_ctr + 1) st1.max_segments) hocc hwf
        refine ⟨ha, hb, hc, hd, he, hf, ?_⟩
        intro hcon
        simp at hcon

theorem commit_path_wf (st : PnRSt) (key : String)
    (edges : List (Hole × Hole)) (hocc : OccWF st) (hwf : NetsWF st.nets) :
    OccWF (commit_path st key edges).2 ∧
    NetsWF (commit_path st key edges).2.nets ∧
    (commit_path st key edges).2.bb.rows = st.bb.rows ∧
    (commit_path st key edges).2.compDyn = st.compDyn ∧
    (commit_path st key edges).2.pin_of_comp = st.pin_of_comp ∧
    (commit_path st key edges).2.max_segments = st.max_segments ∧
    ((commit_path st key edges).1 = true →
      NetsMono st.nets (commit_path st key edges).2.nets) := by
  by_cases he : edges.isEmpty = true
  · simp only [commit_path, if_pos he]
    refine ⟨hocc, hwf, ?_, ?_, ?_, ?_, fun h => by simp at h⟩ <;>
      first | rfl | trivial
  · cases hg : getNet st.nets key with
    | none =>
        simp only [commit_path, if_neg he, hg]
        refine ⟨hocc, hwf, ?_, ?_, ?_, ?_, fun h => by simp at h⟩ <;>
          first | rfl | trivial
    | some net =>
        cases hval : validate_edges st.bb net.name edges with
        | none =>
            simp only [commit_path, if_neg he, hg, hval]
            refine ⟨hocc, hwf, ?_, ?_, ?_, ?_, fun h => by simp at h⟩ <;>
              first | rfl | trivial
        | some sha =>
            simp only [commit_path, if_neg he, hg, hval]
            exact commit_claim_loop_wf key sha.length sha st hocc hwf

theorem rebuild_ufc (st : PnRSt)
    (hsegs : ∀ kn ∈ st.nets, ∀ seg ∈ kn.2.seg_paths, ∀ h ∈ seg,
      h ∈ realHoles st.bb.rows) :
    (st.bb.rebuild_union_find st.nets).uf.Inv ∧
    (∀ x y, SameRoot (st.bb.rebuild_union_find st.nets).uf.parent x y ↔
      Relation.EqvGen (specBaseRel st.bb.rows st.nets) x y) :=
  ⟨(rebuild_union_find_spec st.bb st.nets hsegs).1,
    (rebuild_union_find_spec st.bb st.nets hsegs).2.2⟩

theorem segsReal_of_setNet {nets : Nets} {rows : Nat}
    (h : ∀ kn ∈ nets, ∀ seg ∈ kn.2.seg_paths, ∀ hh ∈ seg,
      hh ∈ realHoles rows)
    (key : String) (v : Net)
    (hv : ∀ seg ∈ v.seg_paths, ∀ hh ∈ seg, hh ∈ realHoles rows) :
    ∀ kn ∈ setNet nets key v, ∀ seg ∈ kn.2.seg_paths, ∀ hh ∈ seg,
      hh ∈ realHoles rows := by
  intro kn hkn seg hseg hh hm
  rcases mem_setNet hkn with ⟨kn1, _, _, he⟩ | hkn2
  · rw [he] at hseg
    exact hv seg hseg hh hm
  · exact h kn hkn2 seg hseg hh hm

theorem release_net_wires_wf (st : PnRSt) (key : String)
    (hocc : OccWF st) (hwf : NetsWF st.nets) :
    OccWF (release_net_wires st key) ∧
    NetsWF (release_net_wires st key).nets ∧
    (release_net_wires st key).bb.rows = st.bb.rows ∧
    (release_net_wires st key).compDyn = st.compDyn ∧
    (release_net_wires st key).pin_of_comp = st.pin_of_comp ∧
    (release_net_wires st key).seg_id_ctr = st.seg_id_ctr ∧
    (release_net_wires st key).max_segments = st.max_segments ∧
    (release_net_wires st key).nets.map Prod.fst = st.nets.map Prod.fst := by
  unfold release_net_wires
  cases hg : getNet st.nets key with
  | none => exact ⟨hocc, hwf, rfl, rfl, rfl, rfl, rfl, rfl⟩
  | some net =>
      have hmem := getNet_mem st.nets key net hg
      have hsegsr : ∀ seg ∈ net.seg_paths, ∀ h ∈ seg,
          h ∈ realHoles st.bb.rows := hocc.2.1 (key, net) hmem
      have hrows := (releaseFold_uf_rows net.seg_paths st.bb).2
      refine ⟨⟨?_, ?_, ?_⟩, ?_, hrows, rfl, rfl, rfl, rfl, ?_⟩
      · intro h hh
        simp only at hh ⊢
        rw [hrows]
        rcases releaseFold_support _ st.bb h hh with h2 | ⟨seg, hseg, hm⟩
        · exact hocc.1 h h2
        · exact hsegsr seg hseg h hm
      · intro kn hkn seg hseg h hm
        simp only at hkn ⊢
        rw [hrows]
        refine segsReal_of_setNet hocc.2.1 key _ ?_ kn hkn seg hseg h hm
        intro seg2 hseg2
        simp at hseg2
      · intro name pl hpl
        simp only at hpl ⊢
        rw [hrows]
        exact hocc.2.2 name pl hpl
      · simp only
        refine NetsWF_setNet key _ ?_ hwf
        exact hwf.2 (key, net) hmem
      · simp only
        exact setNet_map_fst _ _ _

theorem releaseAllFold_wf :
    ∀ (ks : List String) (st : PnRSt),
      OccWF st → NetsWF st.nets →
      OccWF (ks.foldl (fun s k => release_net_wires s k) st) ∧
      NetsWF (ks.foldl (fun s k => release_net_wires s k) st).nets ∧
      (ks.foldl (fun s k => release_net_wires s k) st).bb.rows
        = st.bb.rows ∧
      (ks.foldl (fun s k => release_net_wires s k) st).compDyn
        = st.compDyn ∧
      (ks.foldl (fun s k => release_net_wires s k) st).pin_of_comp
        = st.pin_of_comp ∧
      (ks.foldl (fun s k => release_net_wires s k) st).seg_id_ctr
        = st.seg_id_ctr ∧
      (ks.foldl (fun s k => release_net_wires s k) st).max_segments
        = st.max_segments ∧
      (ks.foldl (fun s k => release_net_wires s k) st).nets.map Prod.fst
        = st.nets.map Prod.fst
  | [], st, hocc, hwf => ⟨hocc, hwf, rfl, rfl, rfl, rfl, rfl, rfl⟩
  | k :: ks, st, hocc, hwf => by
      obtain ⟨h1, h2, h3, h4, h5, h6, h7, h8⟩ :=
        release_net_wires_wf st k hocc hwf
      have hstep : (k :: ks).foldl (fun s k2 => release_net_wires s k2) st =
          ks.foldl (fun s k2 => release_net_wires s k2)
            (release_net_wires st k) := rfl
      rw [hstep]
      obtain ⟨g1, g2, g3, g4, g5, g6, g7, g8⟩ :=
        releaseAllFold_wf ks (release_net_wires st k) h1 h2
      exact ⟨g1, g2, g3.trans h3, g4.trans h4, g5.trans h5, g6.trans h6,
        g7.trans h7, g8.trans h8⟩

theorem releaseAllNets_wf (st : PnRSt) (hocc : OccWF st)
    (hwf : NetsWF st.nets) :
    OccWF (releaseAllNets st) ∧ NetsWF (releaseAllNets st).nets ∧
    (releaseAllNets st).bb.rows = st.bb.rows ∧
    (releaseAllNets st).compDyn = st.compDyn ∧
    (releaseAllNets st).pin_of_comp = st.pin_of_comp ∧
    (releaseAllNets st).seg_id_ctr = st.seg_id_ctr ∧
    (releaseAllNets st).max_segments = st.max_segments ∧
    (releaseAllNets st).nets.map Prod.fst = st.nets.map Prod.fst := by
  unfold releaseAllNets
  exact releaseAllFold_wf _ st hocc hwf

end Impromptu

namespace Impromptu

theorem updateTerms_wf {st : PnRSt} (hocc : OccWF st)
    (hwf : NetsWF st.nets) (key : String) (net : Net)
    (hg : getNet st.nets key = some net) (terms2 : List Hole) :
    NetsWF (setNet st.nets key { net with terms := terms2 }) ∧
    (∀ kn ∈ setNet st.nets key { net with terms := terms2 },
      ∀ seg ∈ kn.2.seg_paths, ∀ h ∈ seg, h ∈ realHoles st.bb.rows) ∧
    (setNet st.nets key { net with terms := terms2 }).map Prod.fst
      = st.nets.map Prod.fst := by
  refine ⟨?_, ?_, setNet_map_fst _ _ _⟩
  · refine NetsWF_setNet key _ ?_ hwf
    exact hwf.2 (key, net) (getNet_mem st.nets key net hg)
  · refine segsReal_of_setNet hocc.2.1 key _ ?_
    intro seg hseg
    exact hocc.2.1 (key, net) (getNet_mem st.nets key net hg) seg hseg

theorem bind_pins_wf (st : PnRSt) (comp : Passive) (hocc : OccWF st)
    (hwf : NetsWF st.nets) :
    OccWF (bind_pins st comp) ∧ NetsWF (bind_pins st comp).nets ∧
    (bind_pins st comp).bb = st.bb ∧
    (bind_pins st comp).compDyn = st.compDyn ∧
    (bind_pins st comp).pin_of_comp = st.pin_of_comp ∧
    (bind_pins st comp).seg_id_ctr = st.seg_id_ctr ∧
    (bind_pins st comp).max_segments = st.max_segments ∧
    (bind_pins st comp).nets.map Prod.fst = st.nets.map Prod.fst := by
  unfold bind_pins
  cases hp : st.pin_of_comp comp.name with
  | none => exact ⟨hocc, hwf, rfl, rfl, rfl, rfl, rfl, rfl⟩
  | some pins =>
      cases hga : getNet st.nets comp.net_a with
      | none =>
          simp only [hga]
          cases hgb : getNet st.nets comp.net_b with
          | none =>
              simp only [hgb]
              refine ⟨hocc, hwf, ?_, ?_, ?_, ?_, ?_, ?_⟩ <;>
                first | rfl | trivial
          | some netb =>
              simp only [hgb]
              obtain ⟨w1, w2, w3⟩ := updateTerms_wf hocc hwf comp.net_b netb
                hgb (netb.terms ++ [pins.2])
              refine ⟨⟨hocc.1, w2, hocc.2.2⟩, w1, ?_, ?_, ?_, ?_, ?_, w3⟩ <;>
                first | rfl | trivial
      | some neta =>
          simp only [hga]
          obtain ⟨w1, w2, w3⟩ := updateTerms_wf hocc hwf comp.net_a neta
            hga (neta.terms ++ [pins.1])
          have hocc1 : OccWF (PnRSt.mk st.bb
              (setNet st.nets comp.net_a
                { neta with terms := neta.terms ++ [pins.1] })
              st.compDyn st.pin_of_comp st.seg_id_ctr st.max_segments) :=
            ⟨hocc.1, w2, hocc.2.2⟩
          cases hgb : getNet (setNet st.nets comp.net_a
              { neta with terms := neta.terms ++ [pins.1] })
              comp.net_b with
          | none =>
              simp only [hgb]
              refine ⟨hocc1, w1, ?_, ?_, ?_, ?_, ?_, w3⟩ <;>
                first | rfl | trivial
          | some netb =>
              simp only [hgb]
              obtain ⟨v1, v2, v3⟩ := updateTerms_wf hocc1 w1 comp.net_b netb
                hgb (netb.terms ++ [pins.2])
              refine ⟨⟨hocc.1, v2, hocc.2.2⟩, v1, ?_, ?_, ?_, ?_, ?_,
                v3.trans w3⟩ <;> first | rfl | trivial

theorem unbind_pins_wf (st : PnRSt) (comp : Passive) (hocc : OccWF st)
    (hwf : NetsWF st.nets) :
    OccWF (unbind_pins st comp) ∧ NetsWF (unbind_pins st comp).nets ∧
    (unbind_pins st comp).bb = st.bb ∧
    (unbind_pins st comp).compDyn = st.compDyn ∧
    (unbind_pins st comp).pin_of_comp = st.pin_of_comp ∧
    (unbind_pins st comp).seg_id_ctr = st.seg_id_ctr ∧
    (unbind_pins st comp).max_segments = st.max_segments ∧
    (unbind_pins st comp).nets.map Prod.fst = st.nets.map Prod.fst := by
  unfold unbind_pins
  cases hp : st.pin_of_comp comp.name with
  | none => exact ⟨hocc, hwf, rfl, rfl, rfl, rfl, rfl, rfl⟩
  | some pins =>
      cases hga : getNet st.nets comp.net_a with
      | none =>
          simp only [hga]
          cases hgb : getNet st.nets comp.net_b with
          | none =>
              simp only [hgb]
              refine ⟨hocc, hwf, ?_, ?_, ?_, ?_, ?_, ?_⟩ <;>
                first | rfl | trivial
          | some netb =>
              simp only [hgb]
              obtain ⟨w1, w2, w3⟩ := updateTerms_wf hocc hwf comp.net_b netb
                hgb (netb.terms.erase pins.2)
              refine ⟨⟨hocc.1, w2, hocc.2.2⟩, w1, ?_, ?_, ?_, ?_, ?_, w3⟩ <;>
                first | rfl | trivial
      | some neta =>
          simp only [hga]
          obtain ⟨w1, w2, w3⟩ := updateTerms_wf hocc hwf comp.net_a neta
            hga (neta.terms.erase pins.1)
          have hocc1 : OccWF (PnRSt.mk st.bb
              (setNet st.nets comp.net_a
                { neta with terms := neta.terms.erase pins.1 })
              st.compDyn st.pin_of_comp st.seg_id_ctr st.max_segments) :=
            ⟨hocc.1, w2, hocc.2.2⟩
          cases hgb : getNet (setNet st.nets comp.net_a
              { neta with terms := neta.terms.erase pins.1 })
              comp.net_b with
          | none =>
              simp only [hgb]
              refine ⟨hocc1, w1, ?_, ?_, ?_, ?_, ?_, w3⟩ <;>
                first | rfl | trivial
          | some netb =>
              simp only [hgb]
              obtain ⟨v1, v2, v3⟩ := updateTerms_wf hocc1 w1 comp.net_b netb
                hgb (netb.terms.erase pins.2)
              refine ⟨⟨hocc.1, v2, hocc.2.2⟩, v1, ?_, ?_, ?_, ?_, ?_,
                v3.trans w3⟩ <;> first | rfl | trivial

theorem try_place_component_wf (st : PnRSt) (comp : Passive)
    (pl : Placement) (hocc : OccWF st) :
    OccWF (try_place_component st comp pl).2 ∧
    (try_place_component st comp pl).2.nets = st.nets ∧
    (try_place_component st comp pl).2.bb.rows = st.bb.rows := by
  unfold try_place_component
  by_cases hr : (st.bb.claim_component comp.name pl.2.1 pl.2.2).1 = true
  · rw [if_pos hr]
    obtain ⟨hrows, _, _, hsup, hemp⟩ :=
      claim_component_parts st.bb comp.name pl.2.1 pl.2.2
    refine ⟨⟨?_, ?_, ?_⟩, rfl, hrows⟩
    · intro h hh
      simp only at hh ⊢
      rw [hrows]
      exact hocc.1 h (hsup h hh)
    · intro kn hkn seg hseg h hm
      simp only at hkn ⊢
      rw [hrows]
      exact hocc.2.1 kn hkn seg hseg h hm
    · intro name pl2 hpl2
      simp only at hpl2 ⊢
      rw [hrows]
      by_cases hn : name = comp.name
      · rw [if_pos hn] at hpl2
        injection hpl2 with hpl2
        have hreal : ∀ h ∈ pl.2.1 ++ pl.2.2, h ∈ realHoles st.bb.rows := by
          intro h hm2
          refine hocc.1 h ?_
          rw [hemp hr h hm2]
          rfl
        rw [← hpl2]
        constructor
        · intro h hm2
          exact hreal h (List.mem_append.mpr (Or.inl hm2))
        · intro h hm2
          exact hreal h (List.mem_append.mpr (Or.inr hm2))
      · rw [if_neg hn] at hpl2
        exact hocc.2.2 name pl2 hpl2
  · rw [if_neg hr]
    exact ⟨hocc, rfl, rfl⟩

theorem undo_place_component_wf (st : PnRSt) (comp : Passive)
    (hocc : OccWF st) :
    OccWF (undo_place_component st comp) ∧
    (undo_place_component st comp).nets = st.nets ∧
    (undo_place_component st comp).bb.rows = st.bb.rows := by
  cases hd : st.compDyn comp.name with
  | none =>
      simp only [undo_place_component, hd]
      refine ⟨⟨hocc.1, hocc.2.1, ?_⟩, trivial, trivial⟩
      intro name pl2 hpl2
      simp only at hpl2
      by_cases hn : name = comp.name
      · rw [if_pos hn] at hpl2
        simp at hpl2
      · rw [if_neg hn] at hpl2
        exact hocc.2.2 name pl2 hpl2
  | some pl =>
      simp only [undo_place_component, hd]
      have hplreal := hocc.2.2 comp.name pl hd
      by_cases hbe : pl.2.1.isEmpty = true
      · rw [if_pos hbe]
        refine ⟨⟨hocc.1, hocc.2.1, ?_⟩, trivial, rfl⟩
        intro name pl2 hpl2
        simp only at hpl2
        by_cases hn : name = comp.name
        · rw [if_pos hn] at hpl2
          simp at hpl2
        · rw [if_neg hn] at hpl2
          exact hocc.2.2 name pl2 hpl2
      · rw [if_neg hbe]
        obtain ⟨hrows, _, hsup⟩ :=
          release_component_parts st.bb pl.2.1 pl.2.2
        refine ⟨⟨?_, ?_, ?_⟩, trivial, hrows⟩
        · intro h hh
          simp only at hh ⊢
          rw [hrows]
          rcases hsup h hh with h2 | h2
          · exact hocc.1 h h2
          · rcases List.mem_append.mp h2 with h3 | h3
            · exact hplreal.1 h h3
            · exact hplreal.2 h h3
        · intro kn hkn seg hseg h hm
          simp only at hkn ⊢
          rw [hrows]
          exact hocc.2.1 kn hkn seg hseg h hm
        · intro name pl2 hpl2
          simp only at hpl2 ⊢
          rw [hrows]
          by_cases hn : name = comp.name
          · rw [if_pos hn] at hpl2
            simp at hpl2
          · rw [if_neg hn] at hpl2
            exact hocc.2.2 name pl2 hpl2

/-- The electrical post-condition of a successful solve: the union-find
is well-formed, every stored net's terminals-plus-anchor-heads share one
union-find representative, and terminals of distinct nets never do. -/
def C1Post (st : PnRSt) : Prop :=
  st.bb.uf.Inv ∧
  (∀ key net, getNet st.nets key = some net →
    ∀ x ∈ elemsList st.bb net, ∀ y ∈ elemsList st.bb net,
      SameRoot st.bb.uf.parent x y) ∧
  (∀ k1 k2 net1 net2, getNet st.nets k1 = some net1 →
    getNet st.nets k2 = some net2 → k1 ≠ k2 →
    ∀ a ∈ net1.terms, ∀ b ∈ net2.terms,
      ¬ SameRoot st.bb.uf.parent a b)

theorem OccWF_of_sameShape {st st2 : PnRSt} (h : SameShape st st2)
    (hocc : OccWF st) : OccWF st2 := by
  obtain ⟨h1, h2, h3, _, h5, _, _, _⟩ := h
  refine ⟨?_, ?_, ?_⟩
  · intro x hx
    rw [h2] at hx
    rw [h3]
    exact hocc.1 x hx
  · intro kn hkn seg hseg x hx
    rw [h1] at hkn
    rw [h3]
    exact hocc.2.1 kn hkn seg hseg x hx
  · intro name pl hpl
    rw [h5] at hpl
    rw [h3]
    exact hocc.2.2 name pl hpl

theorem UFC_of_sameShape {st st2 : PnRSt} (h : SameShape st st2)
    (hsim : UFSim st.bb.uf st2.bb.uf) (hinv2 : st2.bb.uf.Inv)
    (hufc : UFC st) : UFC st2 := by
  refine ⟨hinv2, fun x y => ?_⟩
  rw [h.1, h.2.2.1]
  exact (hsim.sameRoot_iff x y).trans (hufc.2 x y)

/-- A `true` result of `net_satisfied` at a state whose union-find
agrees with the electrical relation certifies the net's class. -/
theorem net_satisfied_true_semOK (st : PnRSt) (key : String)
    (hufc : UFC st) (htrue : (net_satisfied st key).1 = true) :
    SemOK (net_satisfied st key).2 key := by
  obtain ⟨hsim, hinv, hsh, hiff⟩ := net_satisfied_spec st key hufc.1
  obtain ⟨net, hg, hne, hall⟩ := hiff.mp htrue
  intro net2 hg2 x hx y hy
  rw [hsh.1] at hg2
  rw [hg] at hg2
  injection hg2 with hg2
  subst hg2
  have helems := elemsList_congr hsh.2.2.1 net
  rw [helems] at hx hy
  have hsr := hall x hx y hy
  rw [hsh.1, hsh.2.2.1]
  exact (hufc.2 x y).mp hsr

theorem routeGroups_spec :
    ∀ (groups : List (List Hole)) (st : PnRSt) (key : String)
      (base : List Hole), OccWF st → NetsWF st.nets → UFC st →
      OccWF (routeGroups st key base groups).2 ∧
      NetsWF (routeGroups st key base groups).2.nets ∧
      (routeGroups st key base groups).2.bb.rows = st.bb.rows ∧
      ((routeGroups st key base groups).1 = true →
        NetsMono st.nets (routeGroups st key base groups).2.nets ∧
        UFC (routeGroups st key base groups).2 ∧
        SemOK (routeGroups st key base groups).2 key)
  | [], st, key, base, hocc, hwf, hufc => by
      have hred : routeGroups st key base [] = net_satisfied st key := rfl
      rw [hred]
      obtain ⟨hsim, hinv, hsh, _⟩ := net_satisfied_spec st key hufc.1
      refine ⟨OccWF_of_sameShape hsh hocc, ?_, hsh.2.2.1, ?_⟩
      · rw [hsh.1]
        exact hwf
      · intro htrue
        refine ⟨?_, UFC_of_sameShape hsh hsim hinv hufc, ?_⟩
        · rw [hsh.1]
          exact netsMono_refl _
        · exact net_satisfied_true_semOK st key hufc htrue
  | group :: rest, st, key, base, hocc, hwf, hufc => by
      by_cases hfe : ((base.flatMap (fun h => st.bb.frontier_of_hole h)).isEmpty
          || (group.flatMap (fun h => st.bb.frontier_of_hole h)).isEmpty)
          = true
      · have hred : routeGroups st key base (group :: rest)
            = (false, release_net_wires st key) := by
          simp only [routeGroups]
          rw [if_pos hfe]
        rw [hred]
        obtain ⟨r1, r2, r3, _⟩ := release_net_wires_wf st key hocc hwf
        exact ⟨r1, r2, r3, fun h => by simp at h⟩
      · cases hpath : find_path_edges st.bb
            (base.flatMap (fun h => st.bb.frontier_of_hole h))
            (group.flatMap (fun h => st.bb.frontier_of_hole h)) with
        | none =>
            have hred : routeGroups st key base (group :: rest)
                = (false, release_net_wires st key) := by
              simp only [routeGroups, hpath]
              rw [if_neg hfe]
            rw [hred]
            obtain ⟨r1, r2, r3, _⟩ := release_net_wires_wf st key hocc hwf
            exact ⟨r1, r2, r3, fun h => by simp at h⟩
        | some path =>
            cases path with
            | nil =>
                have hred : routeGroups st key base (group :: rest)
                    = routeGroups (rebuildSt st) key (base ++ group) rest := by
                  simp only [routeGroups, hpath]
                  rw [if_neg hfe]
                rw [hred]
                have hocc2 : OccWF (rebuildSt st) := hocc
                have hwf2 : NetsWF (rebuildSt st).nets := hwf
                have hufc2 : UFC (rebuildSt st) :=
                  ⟨(rebuild_ufc st hocc.2.1).1, (rebuild_ufc st hocc.2.1).2⟩
                obtain ⟨g1, g2, g3, g4⟩ := routeGroups_spec rest (rebuildSt st)
                  key (base ++ group) hocc2 hwf2 hufc2
                refine ⟨g1, g2, g3, ?_⟩
                intro htrue
                obtain ⟨gm, gufc, gsem⟩ := g4 htrue
                exact ⟨gm, gufc, gsem⟩
            | cons e es =>
                by_cases hcp : (commit_path st key (e :: es)).1 = true
                · have hred : routeGroups st key base (group :: rest)
                      = routeGroups (rebuildSt (commit_path st key (e :: es)).2)
                          key (base ++ group) rest := by
                    simp only [routeGroups, hpath]
                    rw [if_neg hfe, if_pos hcp]
                  rw [hred]
                  obtain ⟨c1, c2, c3, _, _, _, c7⟩ :=
                    commit_path_wf st key (e :: es) hocc hwf
                  have hocc2 : OccWF (rebuildSt (commit_path st key (e :: es)).2)
                    := c1
                  have hwf2 : NetsWF
                      (rebuildSt (commit_path st key (e :: es)).2).nets := c2
                  have hufc2 : UFC (rebuildSt (commit_path st key (e :: es)).2) :=
                    ⟨(rebuild_ufc (commit_path st key (e :: es)).2 c1.2.1).1,
                     (rebuild_ufc (commit_path st key (e :: es)).2 c1.2.1).2⟩
                  obtain ⟨g1, g2, g3, g4⟩ := routeGroups_spec rest
                    (rebuildSt (commit_path st key (e :: es)).2)
                    key (base ++ group) hocc2 hwf2 hufc2
                  refine ⟨g1, g2, g3.trans c3, ?_⟩
                  intro htrue
                  obtain ⟨gm, gufc, gsem⟩ := g4 htrue
                  exact ⟨netsMono_trans (c7 hcp) gm, gufc, gsem⟩
                · have hred : routeGroups st key base (group :: rest)
                      = (false,
                        release_net_wires (commit_path st key (e :: es)).2 key)
                      := by
                    simp only [routeGroups, hpath]
                    rw [if_neg hfe, if_neg hcp]
                  rw [hred]
                  obtain ⟨c1, c2, c3, _⟩ :=
                    commit_path_wf st key (e :: es) hocc hwf
                  obtain ⟨r1, r2, r3, _⟩ := release_net_wires_wf
                    (commit_path st key (e :: es)).2 key c1 c2
                  exact ⟨r1, r2, r3.trans c3, fun h => by simp at h⟩

theorem netGroupsFold_conv (bb : Breadboard) (net : Net) :
    netGroupsFold bb net
      = (elemsList bb net).foldl groupStep ([], bb.uf) := by
  unfold netGroupsFold
  rw [groupAnchorsFold_eq bb]
  rw [elemsList, anchorHeads, List.foldl_append]

theorem route_net_groups_spec (st : PnRSt) (key : String) (hocc : OccWF st)
    (hwf : NetsWF st.nets) (hufc : UFC st) :
    OccWF (route_net_groups st key).2 ∧
    NetsWF (route_net_groups st key).2.nets ∧
    (route_net_groups st key).2.bb.rows = st.bb.rows ∧
    ((route_net_groups st key).1 = true →
      NetsMono st.nets (route_net_groups st key).2.nets ∧
      UFC (route_net_groups st key).2 ∧
      SemOK (route_net_groups st key).2 key) := by
  cases hg : getNet st.nets key with
  | none =>
      have hred : route_net_groups st key = (false, st) := by
        simp only [route_net_groups, hg]
      rw [hred]
      exact ⟨hocc, hwf, rfl, fun h => by simp at h⟩
  | some net =>
      have hconv := netGroupsFold_conv st.bb net
      obtain ⟨hU2, hK⟩ := groupsFold_keys (elemsList st.bb net) st.bb.uf []
      simp only [List.map_nil] at hU2 hK
      obtain ⟨hInvR, hSimR, hcR, hdR, heR, hfR⟩ :=
        repsFold_spec st.bb.uf (elemsList st.bb net) st.bb.uf [] hufc.1
          (UFSim.rfl' _)
      have hufcW : UFC (withUF st (netGroupsFold st.bb net).2) := by
        refine ⟨?_, ?_⟩
        · show (netGroupsFold st.bb net).2.Inv
          rw [hconv, hU2]
          exact hInvR
        · intro x y
          show SameRoot (netGroupsFold st.bb net).2.parent x y ↔
            Relation.EqvGen (specBaseRel st.bb.rows st.nets) x y
          rw [hconv, hU2]
          exact (hSimR.sameRoot_iff x y).trans (hufc.2 x y)
      by_cases hlen :
          ((netGroupsFold st.bb net).1.map (fun g => g.2)).length ≤ 1
      · have hred : route_net_groups st key
            = (true, withUF st (netGroupsFold st.bb net).2) := by
          simp only [route_net_groups, hg]
          rw [if_pos hlen]
        rw [hred]
        rw [hconv] at hlen
        have hlen2 :
            ((elemsList st.bb net).foldl repStep ([], st.bb.uf)).1.length
              ≤ 1 := by
          rw [← hK, List.length_map]
          rw [List.length_map] at hlen
          exact hlen
        refine ⟨hocc, hwf, rfl, ?_⟩
        intro _
        refine ⟨netsMono_refl _, hufcW, ?_⟩
        intro net2 hget x hx y hy
        have hget2 : getNet st.nets key = some net2 := hget
        rw [hg] at hget2
        injection hget2 with hh
        subst hh
        have hx2 : x ∈ elemsList st.bb net := hx
        have hy2 : y ∈ elemsList st.bb net := hy
        show Relation.EqvGen (specBaseRel st.bb.rows st.nets) x y
        cases hRF : ((elemsList st.bb net).foldl repStep ([], st.bb.uf)).1 with
        | nil =>
            obtain ⟨r, hr, _⟩ := hdR x hx2
            rw [hRF] at hr
            simp at hr
        | cons r rs =>
            cases rs with
            | nil =>
                obtain ⟨rx, hrx, hreachx⟩ := hdR x hx2
                obtain ⟨ry, hry, hreachy⟩ := hdR y hy2
                rw [hRF] at hrx hry
                simp only [List.mem_singleton] at hrx hry
                rw [hrx] at hreachx
                rw [hry] at hreachy
                exact (hufc.2 x y).mp ⟨r, hreachx, hreachy⟩
            | cons r2 rs2 =>
                rw [hRF] at hlen2
                simp at hlen2
      · cases hgrp : (netGroupsFold st.bb net).1.map (fun g => g.2) with
        | nil =>
            rw [hgrp] at hlen
            simp at hlen
        | cons base rest =>
            have hred : route_net_groups st key
                = routeGroups (withUF st (netGroupsFold st.bb net).2) key
                    base rest := by
              simp only [route_net_groups, hg]
              rw [if_neg hlen, hgrp]
            rw [hred]
            have hocc2 : OccWF (withUF st (netGroupsFold st.bb net).2) := hocc
            have hwf2 : NetsWF (withUF st (netGroupsFold st.bb net).2).nets :=
              hwf
            obtain ⟨g1, g2, g3, g4⟩ := routeGroups_spec rest
              (withUF st (netGroupsFold st.bb net).2) key base hocc2 hwf2 hufcW
            refine ⟨g1, g2, g3, ?_⟩
            intro htrue
            obtain ⟨gm, gufc, gsem⟩ := g4 htrue
            exact ⟨gm, gufc, gsem⟩

theorem route_net_spec (st0 : PnRSt) (key : String) (hocc : OccWF st0)
    (hwf : NetsWF st0.nets) :
    OccWF (route_net st0 key).2 ∧ NetsWF (route_net st0 key).2.nets ∧
    (route_net st0 key).2.bb.rows = st0.bb.rows ∧
    ((route_net st0 key).1 = true →
      NetsMono st0.nets (route_net st0 key).2.nets ∧
      UFC (route_net st0 key).2 ∧ SemOK (route_net st0 key).2 key) := by
  have hoccR : OccWF (rebuildSt st0) := hocc
  have hwfR : NetsWF (rebuildSt st0).nets := hwf
  have hufcR : UFC (rebuildSt st0) :=
    ⟨(rebuild_ufc st0 hocc.2.1).1, (rebuild_ufc st0 hocc.2.1).2⟩
  obtain ⟨hsim, hinv, hsh, hiff⟩ :=
    net_satisfied_spec (rebuildSt st0) key hufcR.1
  by_cases hsat : (net_satisfied (rebuildSt st0) key).1 = true
  · have hred : route_net st0 key
        = (true, (net_satisfied (rebuildSt st0) key).2) := by
      simp only [route_net]
      rw [if_pos hsat]
    rw [hred]
    refine ⟨OccWF_of_sameShape hsh hoccR, ?_, hsh.2.2.1, ?_⟩
    · rw [hsh.1]
      exact hwfR
    · intro _
      refine ⟨?_, UFC_of_sameShape hsh hsim hinv hufcR, ?_⟩
      · rw [hsh.1]
        exact netsMono_refl _
      · exact net_satisfied_true_semOK (rebuildSt st0) key hufcR hsat
  · have hred : route_net st0 key
        = route_net_groups (net_satisfied (rebuildSt st0) key).2 key := by
      simp only [route_net]
      rw [if_neg hsat]
    rw [hred]
    have hoccS : OccWF (net_satisfied (rebuildSt st0) key).2 :=
      OccWF_of_sameShape hsh hoccR
    have hwfS : NetsWF (net_satisfied (rebuildSt st0) key).2.nets := by
      rw [hsh.1]
      exact hwfR
    have hufcS : UFC (net_satisfied (rebuildSt st0) key).2 :=
      UFC_of_sameShape hsh hsim hinv hufcR
    obtain ⟨g1, g2, g3, g4⟩ := route_net_groups_spec
      (net_satisfied (rebuildSt st0) key).2 key hoccS hwfS hufcS
    refine ⟨g1, g2, g3.trans hsh.2.2.1, ?_⟩
    intro htrue
    obtain ⟨gm, gufc, gsem⟩ := g4 htrue
    refine ⟨?_, gufc, gsem⟩
    have hnets : (net_satisfied (rebuildSt st0) key).2.nets = st0.nets :=
      hsh.1
    rw [← hnets]
    exact gm

theorem routeLoop_spec :
    ∀ (ks : List String) (st : PnRSt), OccWF st → NetsWF st.nets → UFC st →
      OccWF (routeLoop st ks).2 ∧ NetsWF (routeLoop st ks).2.nets ∧
      (routeLoop st ks).2.bb.rows = st.bb.rows ∧
      ((routeLoop st ks).1 = true →
        NetsMono st.nets (routeLoop st ks).2.nets ∧
        UFC (routeLoop st ks).2 ∧
        ∀ k ∈ ks, SemOK (routeLoop st ks).2 k)
  | [], st, hocc, hwf, hufc => by
      have hred : routeLoop st [] = (true, st) := rfl
      rw [hred]
      exact ⟨hocc, hwf, rfl,
        fun _ => ⟨netsMono_refl _, hufc, fun k hk => by simp at hk⟩⟩
  | k :: ks, st, hocc, hwf, hufc => by
      obtain ⟨r1, r2, r3, r4⟩ := route_net_spec st k hocc hwf
      by_cases hrn : (route_net st k).1 = true
      · have hred : routeLoop st (k :: ks)
            = routeLoop (route_net st k).2 ks := by
          simp only [routeLoop]
          rw [if_pos hrn]
        rw [hred]
        obtain ⟨hm1, hufc1, hsem1⟩ := r4 hrn
        obtain ⟨g1, g2, g3, g4⟩ := routeLoop_spec ks (route_net st k).2
          r1 r2 hufc1
        refine ⟨g1, g2, g3.trans r3, ?_⟩
        intro htrue
        obtain ⟨gm, gufc, gsem⟩ := g4 htrue
        refine ⟨netsMono_trans hm1 gm, gufc, ?_⟩
        intro k2 hk2
        rcases List.mem_cons.mp hk2 with hk2 | hk3
        · subst hk2
          exact SemOK_mono k2 g3.symm gm hsem1
        · exact gsem k2 hk3
      · have hred : routeLoop st (k :: ks) = (false, (route_net st k).2) := by
          simp only [routeLoop]
          rw [if_neg hrn]
        rw [hred]
        exact ⟨r1, r2, r3, fun h => by simp at h⟩

theorem routeAllAndCheck_spec (st0 : PnRSt) (hocc : OccWF st0)
    (hwf : NetsWF st0.nets) :
    OccWF (routeAllAndCheck st0).2 ∧ NetsWF (routeAllAndCheck st0).2.nets ∧
    (routeAllAndCheck st0).2.bb.rows = st0.bb.rows ∧
    ((routeAllAndCheck st0).1 = true → C1Post (routeAllAndCheck st0).2) := by
  obtain ⟨a1, a2, a3, _, _, _, _, a8⟩ := releaseAllNets_wf st0 hocc hwf
  have hocc2 : OccWF (rebuildSt (releaseAllNets st0)) := a1
  have hwf2 : NetsWF (rebuildSt (releaseAllNets st0)).nets := a2
  have hufc2 : UFC (rebuildSt (releaseAllNets st0)) :=
    ⟨(rebuild_ufc (releaseAllNets st0) a1.2.1).1,
     (rebuild_ufc (releaseAllNets st0) a1.2.1).2⟩
  obtain ⟨g1, g2, g3, g4⟩ := routeLoop_spec
    ((rebuildSt (releaseAllNets st0)).nets.map (fun kn => kn.1))
    (rebuildSt (releaseAllNets st0)) hocc2 hwf2 hufc2
  have hrows2 : (rebuildSt (releaseAllNets st0)).bb.rows = st0.bb.rows := a3
  by_cases hrl : (routeLoop (rebuildSt (releaseAllNets st0))
      ((rebuildSt (releaseAllNets st0)).nets.map (fun kn => kn.1))).1
      = true
  · obtain ⟨hmono, hufcF, hsems⟩ := g4 hrl
    obtain ⟨ssim, sinv, ssh, sfalse⟩ := shorts_exist_spec
      (routeLoop (rebuildSt (releaseAllNets st0))
        ((rebuildSt (releaseAllNets st0)).nets.map (fun kn => kn.1))).2
      hufcF.1
    by_cases hsh1 : (shorts_exist
        (routeLoop (rebuildSt (releaseAllNets st0))
          ((rebuildSt (releaseAllNets st0)).nets.map (fun kn => kn.1))).2).1
        = true
    · have hred : routeAllAndCheck st0 = (false,
          (shorts_exist (routeLoop (rebuildSt (releaseAllNets st0))
            ((rebuildSt (releaseAllNets st0)).nets.map
              (fun kn => kn.1))).2).2) := by
        simp only [routeAllAndCheck]
        rw [if_pos hrl, if_pos hsh1]
      rw [hred]
      refine ⟨OccWF_of_sameShape ssh g1, ?_, ?_, fun h => by simp at h⟩
      · rw [ssh.1]
        exact g2
      · exact ssh.2.2.1.trans (g3.trans hrows2)
    · have hred : routeAllAndCheck st0 = (true,
          (shorts_exist (routeLoop (rebuildSt (releaseAllNets st0))
            ((rebuildSt (releaseAllNets st0)).nets.map
              (fun kn => kn.1))).2).2) := by
        simp only [routeAllAndCheck]
        rw [if_pos hrl, if_neg hsh1]
      rw [hred]
      refine ⟨OccWF_of_sameShape ssh g1, ?_, ?_, ?_⟩
      · rw [ssh.1]
        exact g2
      · exact ssh.2.2.1.trans (g3.trans hrows2)
      · intro _
        refine ⟨sinv, ?_, ?_⟩
        · intro key net hget x hx y hy
          rw [ssh.1] at hget
          have helems := elemsList_congr ssh.2.2.1 net
          rw [helems] at hx hy
          have hkmem : key ∈ (rebuildSt (releaseAllNets st0)).nets.map
              (fun kn => kn.1) := by
            have hmk := hmono.1 key
            rw [hget] at hmk
            cases hg0 : getNet (rebuildSt (releaseAllNets st0)).nets key with
            | none =>
                rw [hg0] at hmk
                simp at hmk
            | some net0 =>
                exact List.mem_map.mpr
                  ⟨(key, net0), getNet_mem _ _ _ hg0, rfl⟩
          have hsr := hsems key hkmem net hget x hx y hy
          exact (ssim.sameRoot_iff x y).mpr ((hufcF.2 x y).mpr hsr)
        · intro k1 k2 net1 net2 h1 h2 hne a ha b hb
          rw [ssh.1] at h1 h2
          have hnot := sfalse (by simpa using hsh1) k1 k2 net1 net2 h1 h2
            hne a ha b hb
          intro hcon
          exact hnot ((ssim.sameRoot_iff a b).mp hcon)
  · have hred : routeAllAndCheck st0 = (false,
        (routeLoop (rebuildSt (releaseAllNets st0))
          ((rebuildSt (releaseAllNets st0)).nets.map
            (fun kn => kn.1))).2) := by
      simp only [routeAllAndCheck]
      rw [if_neg hrl]
    rw [hred]
    exact ⟨g1, g2, g3.trans hrows2, fun h => by simp at h⟩

/-- The candidate loop of `_place_rec`, given the recursive facts about
`place_rec` on the remaining components. -/
theorem tryCandidates_wf_of (comp : Passive) (rest : List Passive)
    (hplace : ∀ st : PnRSt, OccWF st → NetsWF st.nets →
      OccWF (place_rec st rest).2 ∧ NetsWF (place_rec st rest).2.nets ∧
      (place_rec st rest).2.bb.rows = st.bb.rows ∧
      ((place_rec st rest).1 = true → C1Post (place_rec st rest).2)) :
    ∀ (cands : List Placement) (st : PnRSt), OccWF st → NetsWF st.nets →
      OccWF (tryCandidates st comp rest cands).2 ∧
      NetsWF (tryCandidates st comp rest cands).2.nets ∧
      (tryCandidates st comp rest cands).2.bb.rows = st.bb.rows ∧
      ((tryCandidates st comp rest cands).1 = true →
        C1Post (tryCandidates st comp rest cands).2)
  | [], st, hocc, hwf => by
      have hred : tryCandidates st comp rest [] = (false, st) := by
        simp only [tryCandidates]
      rw [hred]
      exact ⟨hocc, hwf, rfl, fun h => by simp at h⟩
  | pl :: more, st, hocc, hwf => by
      obtain ⟨t1, t2, t3⟩ := try_place_component_wf st comp pl hocc
      have t2' : NetsWF (try_place_component st comp pl).2.nets := by
        rw [t2]
        exact hwf
      by_cases htp : (try_place_component st comp pl).1 = true
      · obtain ⟨b1, b2, b3, _⟩ :=
          bind_pins_wf (try_place_component st comp pl).2 comp t1 t2'
        have hbrows :
            (bind_pins (try_place_component st comp pl).2 comp).bb.rows
              = st.bb.rows := by
          rw [b3]
          exact t3
        by_cases hfc : forward_check
            (bind_pins (try_place_component st comp pl).2 comp) comp pl = true
        · obtain ⟨p1, p2, p3, p4⟩ := hplace
            (bind_pins (try_place_component st comp pl).2 comp) b1 b2
          by_cases hpr : (place_rec
              (bind_pins (try_place_component st comp pl).2 comp) rest).1
              = true
          · have hred : tryCandidates st comp rest (pl :: more)
                = (true, (place_rec
                    (bind_pins (try_place_component st comp pl).2 comp)
                    rest).2) := by
              simp only [tryCandidates]
              rw [if_pos htp, if_pos hfc, if_pos hpr]
            rw [hred]
            exact ⟨p1, p2, p3.trans hbrows, fun _ => p4 hpr⟩
          · obtain ⟨u1, u2, _, _, _, _, _, _⟩ := unbind_pins_wf
              (place_rec
                (bind_pins (try_place_component st comp pl).2 comp) rest).2
              comp p1 p2
            obtain ⟨d1, d2, d3⟩ := undo_place_component_wf
              (unbind_pins (place_rec
                (bind_pins (try_place_component st comp pl).2 comp) rest).2
                comp) comp u1
            have d2' : NetsWF (undo_place_component
                (unbind_pins (place_rec
                  (bind_pins (try_place_component st comp pl).2 comp)
                  rest).2 comp) comp).nets := by
              rw [d2]
              exact u2
            have hred : tryCandidates st comp rest (pl :: more)
                = tryCandidates (undo_place_component
                    (unbind_pins (place_rec
                      (bind_pins (try_place_component st comp pl).2 comp)
                      rest).2 comp) comp) comp rest more := by
              simp only [tryCandidates]
              rw [if_pos htp, if_pos hfc, if_neg hpr]
            rw [hred]
            obtain ⟨g1, g2, g3, g4⟩ := tryCandidates_wf_of comp rest hplace
              more _ d1 d2'
            refine ⟨g1, g2, ?_, g4⟩
            rw [g3, d3]
            have hurows : (unbind_pins (place_rec
                (bind_pins (try_place_component st comp pl).2 comp) rest).2
                comp).bb.rows = st.bb.rows := by
              have := unbind_pins_wf
                (place_rec
                  (bind_pins (try_place_component st comp pl).2 comp)
                  rest).2 comp p1 p2
              rw [this.2.2.1]
              exact p3.trans hbrows
            exact hurows
        · obtain ⟨u1, u2, _, _, _, _, _, _⟩ := unbind_pins_wf
            (bind_pins (try_place_component st comp pl).2 comp) comp b1 b2
          obtain ⟨d1, d2, d3⟩ := undo_place_component_wf
            (unbind_pins
              (bind_pins (try_place_component st comp pl).2 comp) comp) comp
            u1
          have d2' : NetsWF (undo_place_component
              (unbind_pins
                (bind_pins (try_place_component st comp pl).2 comp) comp)
              comp).nets := by
            rw [d2]
            exact u2
          have hred : tryCandidates st comp rest (pl :: more)
              = tryCandidates (undo_place_component
                  (unbind_pins
                    (bind_pins (try_place_component st comp pl).2 comp)
                    comp) comp) comp rest more := by
            simp only [tryCandidates]
            rw [if_pos htp, if_neg hfc]
          rw [hred]
          obtain ⟨g1, g2, g3, g4⟩ := tryCandidates_wf_of comp rest hplace
            more _ d1 d2'
          refine ⟨g1, g2, ?_, g4⟩
          rw [g3, d3]
          have hurows : (unbind_pins
              (bind_pins (try_place_component st comp pl).2 comp)
              comp).bb.rows = st.bb.rows := by
            have := unbind_pins_wf
              (bind_pins (try_place_component st comp pl).2 comp) comp b1 b2
            rw [this.2.2.1]
            exact hbrows
          exact hurows
      · have hred : tryCandidates st comp rest (pl :: more)
            = tryCandidates (try_place_component st comp pl).2 comp rest
                more := by
          simp only [tryCandidates]
          rw [if_neg htp]
        rw [hred]
        obtain ⟨g1, g2, g3, g4⟩ := tryCandidates_wf_of comp rest hplace
          more _ t1 t2'
        exact ⟨g1, g2, g3.trans t3, g4⟩

theorem place_rec_wf :
    ∀ (comps : List Passive) (st : PnRSt), OccWF st → NetsWF st.nets →
      OccWF (place_rec st comps).2 ∧ NetsWF (place_rec st comps).2.nets ∧
      (place_rec st comps).2.bb.rows = st.bb.rows ∧
      ((place_rec st comps).1 = true → C1Post (place_rec st comps).2)
  | [], st, hocc, hwf => by
      have hred : place_rec st [] = routeAllAndCheck st := by
        simp only [place_rec]
      rw [hred]
      exact routeAllAndCheck_spec st hocc hwf
  | comp :: rest, st, hocc, hwf => by
      have hred : place_rec st (comp :: rest)
          = tryCandidates st comp rest ((stableSort
              (fun p q =>
                placement_score st comp p ≤ placement_score st comp q)
              (legal_placements comp st.bb)).take 80) := by
        simp only [place_rec]
      rw [hred]
      exact tryCandidates_wf_of comp rest (place_rec_wf rest) _ st hocc hwf

theorem getNet_none_iff (nets : Nets) (k : String) :
    getNet nets k = none ↔ k ∉ nets.map Prod.fst := by
  unfold getNet
  rw [Option.map_eq_none']
  rw [List.find?_eq_none]
  constructor
  · intro h hk
    obtain ⟨kn, hkn, hfst⟩ := List.mem_map.mp hk
    refine h kn hkn ?_
    simp [hfst]
  · intro h kn hkn hbeq
    apply h
    refine List.mem_map.mpr ⟨kn, hkn, ?_⟩
    simpa using hbeq

theorem railsFold_wf :
    ∀ (rs : List String) (ns : Nets), NetsWF ns →
      NetsWF (rs.foldl (fun ns rail =>
        if (getNet ns rail).isSome then ns
        else ns ++ [(rail, Net.mk rail [] [rail] [])]) ns)
  | [], ns, h => h
  | r :: rs, ns, h => by
      have hstep : (r :: rs).foldl (fun ns rail =>
          if (getNet ns rail).isSome then ns
          else ns ++ [(rail, Net.mk rail [] [rail] [])]) ns
          = rs.foldl (fun ns rail =>
            if (getNet ns rail).isSome then ns
            else ns ++ [(rail, Net.mk rail [] [rail] [])])
            (if (getNet ns r).isSome then ns
             else ns ++ [(r, Net.mk r [] [r] [])]) := rfl
      rw [hstep]
      by_cases hg : (getNet ns r).isSome = true
      · rw [if_pos hg]
        exact railsFold_wf rs ns h
      · rw [if_neg hg]
        refine railsFold_wf rs _ ?_
        have hnone : getNet ns r = none :=
          Option.not_isSome_iff_eq_none.mp hg
        have hnotmem : r ∉ ns.map Prod.fst :=
          (getNet_none_iff ns r).mp hnone
        constructor
        · rw [List.map_append]
          refine List.Nodup.append h.1 (List.nodup_singleton _) ?_
          intro a ha hb
          simp only [List.map_cons, List.map_nil,
            List.mem_singleton] at hb
          subst hb
          exact hnotmem ha
        · intro kn hkn
          rcases List.mem_append.mp hkn with h2 | h2
          · exact h.2 kn h2
          · simp only [List.mem_singleton] at h2
            subst h2
            rfl

theorem ensureRailNets_wf (nets : Nets) (comps : List Passive)
    (hwf : NetsWF nets) : NetsWF (ensureRailNets nets comps) := by
  unfold ensureRailNets
  exact railsFold_wf _ nets hwf

theorem clearNets_keys (nets : Nets) :
    (nets.map (fun kn =>
      (kn.1, { kn.2 with terms := [], seg_paths := [] }))).map Prod.fst
      = nets.map Prod.fst := by
  rw [List.map_map]
  exact List.map_congr_left (fun kn _ => rfl)

theorem clearNets_wf (nets : Nets) (hwf : NetsWF nets) :
    NetsWF (nets.map (fun kn =>
      (kn.1, { kn.2 with terms := [], seg_paths := [] }))) := by
  constructor
  · rw [clearNets_keys]
    exact hwf.1
  · intro kn hkn
    obtain ⟨kn0, hkn0, he⟩ := List.mem_map.mp hkn
    rw [← he]
    exact hwf.2 kn0 hkn0

theorem clearNets_segs (nets : Nets) :
    ∀ kn ∈ nets.map (fun kn =>
      (kn.1, { kn.2 with terms := [], seg_paths := [] })),
      kn.2.seg_paths = [] := by
  intro kn hkn
  obtain ⟨kn0, hkn0, he⟩ := List.mem_map.mp hkn
  rw [← he]

theorem initOcc_support (rows : Nat) :
    ∀ h, ((initOcc rows) h).isSome → h ∈ realHoles rows := by
  intro h hh
  unfold initOcc at hh
  by_cases hm : h ∈ realHoles rows
  · exact hm
  · rw [if_neg hm] at hh
    simp at hh

/-- **C1.** After a successful `place_and_route` (result `True`), in the
final state: the union-find is well-formed; for every stored net, all of
the net's terminal holes together with one representative hole per fixed
anchor (the head of the anchor's rail hole set) share a single
union-find representative; and for every pair of distinct nets, no
terminal of one has the same representative as any terminal of the
other.  The preconditions ask only that the input board's occupancy is
supported on real holes and that the input nets dictionary is a
dictionary (unique keys, name = key). -/
theorem place_and_route_uf_classes (bb : Breadboard) (nets0 : Nets)
    (comps0 : List Passive) (net_bindings : String → String × String)
    (max_segments : Nat)
    (hocc : ∀ h, (bb.occ h).isSome → h ∈ realHoles bb.rows)
    (hkeys : (nets0.map Prod.fst).Nodup)
    (hnames : ∀ kn ∈ nets0, kn.2.name = kn.1)
    (hres : (place_and_route bb nets0 comps0 net_bindings max_segments).1
      = true) :
    C1Post (place_and_route bb nets0 comps0 net_bindings max_segments).2 := by
  have hred : place_and_route bb nets0 comps0 net_bindings max_segments
      = place_rec (PnRSt.mk bb
          ((ensureRailNets nets0 (bindComps comps0 net_bindings)).map
            (fun kn => (kn.1, { kn.2 with terms := [], seg_paths := [] })))
          (fun _ => none) (fun _ => none) 1 (max 1 max_segments))
        (order_components (bindComps comps0 net_bindings)) := rfl
  have hwf1 : NetsWF (ensureRailNets nets0 (bindComps comps0 net_bindings)) :=
    ensureRailNets_wf nets0 _ ⟨hkeys, hnames⟩
  have hwf2 : NetsWF ((ensureRailNets nets0
      (bindComps comps0 net_bindings)).map
      (fun kn => (kn.1, { kn.2 with terms := [], seg_paths := [] }))) :=
    clearNets_wf _ hwf1
  have hocc0 : OccWF (PnRSt.mk bb
      ((ensureRailNets nets0 (bindComps comps0 net_bindings)).map
        (fun kn => (kn.1, { kn.2 with terms := [], seg_paths := [] })))
      (fun _ => none) (fun _ => none) 1 (max 1 max_segments)) := by
    refine ⟨hocc, ?_, ?_⟩
    · intro kn hkn seg hseg x hx
      have hz := clearNets_segs (ensureRailNets nets0
        (bindComps comps0 net_bindings)) kn hkn
      rw [hz] at hseg
      simp at hseg
    · intro name pl hpl
      simp at hpl
  obtain ⟨_, _, _, hpost⟩ := place_rec_wf
    (order_components (bindComps comps0 net_bindings))
    (PnRSt.mk bb
      ((ensureRailNets nets0 (bindComps comps0 net_bindings)).map
        (fun kn => (kn.1, { kn.2 with terms := [], seg_paths := [] })))
      (fun _ => none) (fun _ => none) 1 (max 1 max_segments))
    hocc0 hwf2
  rw [hred] at hres ⊢
  exact hpost hres

/-- Closed instance of the C1 theorem: on a one-row board with no
components and no nets, `place_and_route` succeeds, and the final state
satisfies the electrical post-condition. -/
theorem place_and_route_uf_classes_witness :
    C1Post (place_and_route (mkBreadboard 1 []) [] []
      (fun _ => ("", "")) 3).2 := by
  apply place_and_route_uf_classes (mkBreadboard 1 []) [] []
    (fun _ => ("", "")) 3
  · exact initOcc_support 1
  · exact List.nodup_nil
  · intro kn hkn
    simp at hkn
  · have h1 : place_and_route (mkBreadboard 1 []) [] []
        (fun _ => ("", "")) 3
        = place_rec (PnRSt.mk (mkBreadboard 1 []) [] (fun _ => none)
            (fun _ => none) 1 3) [] := rfl
    rw [h1]
    have h2 : place_rec (PnRSt.mk (mkBreadboard 1 []) [] (fun _ => none)
        (fun _ => none) 1 3) []
        = routeAllAndCheck (PnRSt.mk (mkBreadboard 1 []) [] (fun _ => none)
            (fun _ => none) 1 3) := by
      simp only [place_rec]
    rw [h2]
    rfl

end Impromptu
